import Mathlib

/-!
Verification of the consensus-core block acceptance pipeline.

This development embeds, as executable Lean functions, the `BlockManager`
suspension/acceptance engine (`consensus/core/src/block_manager.rs`) and the
`AuthorityService` inbound RPC handlers (`consensus/core/src/authority_node.rs`),
and proves properties of the embedded code.

Rust fallible behaviour is made explicit: functions that can `panic!`,
`expect` or fail an `assert!` return a `PRes` value whose `panicked`
constructor marks the panic. Metrics and logging calls, which do not affect
the returned values or the reachable state, are elided.
-/

/-- BlockRef is the triple (author, round, digest) identifying a block.
    BlockRefs are totally ordered by (round, author, digest). -/
structure BlockRef where
  round : Nat
  author : Nat
  digest : Nat
deriving DecidableEq, Repr

/-- The total order on `BlockRef`: lexicographic on (round, author, digest). -/
def refLE (a b : BlockRef) : Bool :=
  decide (a.round < b.round) ||
    (decide (a.round = b.round) &&
      (decide (a.author < b.author) ||
        (decide (a.author = b.author) && decide (a.digest ≤ b.digest))))

/-- A verified block: author, round, digest of its serialized contents,
    timestamp and the list of ancestor references. -/
structure Block where
  round : Nat
  author : Nat
  digest : Nat
  timestamp_ms : Nat
  ancestors : List BlockRef
deriving DecidableEq, Repr

/-- The `BlockRef` of a block. -/
def Block.reference (b : Block) : BlockRef := ⟨b.round, b.author, b.digest⟩

/-- Modelled from the spec (the DagState source is not in scope; §4.6 of the
    spec gives its contract): an in-memory index of accepted blocks keyed by
    their reference. Represented as the list of accepted blocks. -/
abbrev DagState := List Block

/-- Modelled from the spec: existence query, by reference. -/
def contains_block (d : DagState) (r : BlockRef) : Bool :=
  d.any (fun b => decide (b.reference = r))

/-- Modelled from the spec: point lookup, by reference. -/
def get_block (d : DagState) (r : BlockRef) : Option Block :=
  d.find? (fun b => decide (b.reference = r))

/-- Modelled from the spec: batched lookup preserving input order. -/
def get_blocks (d : DagState) (rs : List BlockRef) : List (Option Block) :=
  rs.map (get_block d)

/-- Modelled from the spec: idempotent insertion of one block. -/
def accept_block (d : DagState) (b : Block) : DagState :=
  if contains_block d b.reference then d else d ++ [b]

/-- Modelled from the spec: atomic batch insertion, idempotent per block. -/
def accept_blocks (d : DagState) (bs : List Block) : DagState :=
  bs.foldl accept_block d

/-- Insert into a set of refs represented as a duplicate-free list. -/
def insertRef (s : List BlockRef) (r : BlockRef) : List BlockRef :=
  if r ∈ s then s else r :: s

/-- Remove from a set of refs. -/
def eraseRef (s : List BlockRef) (r : BlockRef) : List BlockRef :=
  s.filter (fun x => !decide (x = r))

/-- Lookup in a map keyed by `BlockRef`, represented as an association list. -/
def findEntry {α : Type} (m : List (BlockRef × α)) (k : BlockRef) : Option α :=
  (m.find? (fun p => decide (p.1 = k))).map Prod.snd

/-- Remove a key from a map. -/
def eraseEntry {α : Type} (m : List (BlockRef × α)) (k : BlockRef) : List (BlockRef × α) :=
  m.filter (fun p => !decide (p.1 = k))

/-- Insert (or replace) a binding in a map. -/
def insertEntry {α : Type} (m : List (BlockRef × α)) (k : BlockRef) (v : α) :
    List (BlockRef × α) :=
  (k, v) :: eraseEntry m k

/-- Key-membership in a map. -/
def memEntry {α : Type} (m : List (BlockRef × α)) (k : BlockRef) : Bool :=
  (findEntry m k).isSome

/-- A suspended block: the block plus its currently missing ancestors
    (`block_manager.rs` struct `SuspendedBlock`; the metrics-only
    `timestamp` field is elided). -/
structure SuspendedBlock where
  block : Block
  missing_ancestors : List BlockRef
deriving DecidableEq, Repr

/-- The `BlockManager` state (`block_manager.rs` lines 43-59), with the shared
    `DagState` inlined as a field: suspended blocks, the missing-ancestor
    index, the missing set, and the dag. -/
structure BlockManager where
  suspended_blocks : List (BlockRef × SuspendedBlock)
  missing_ancestors : List (BlockRef × List BlockRef)
  missing_blocks : List BlockRef
  dag_state : DagState
deriving DecidableEq, Repr

/-- A fresh `BlockManager` over an initial dag (`BlockManager::new`). -/
def BlockManager.new (d : DagState) : BlockManager :=
  { suspended_blocks := [], missing_ancestors := [], missing_blocks := [], dag_state := d }

/-- Result of running embedded code that may panic. `fuelOut` is an artifact
    of the fuelled encoding of the Rust `while` loop; it is proved unreachable
    for the fuel the callers supply. -/
inductive PRes (α : Type) where
  | ok (val : α)
  | panicked
  | fuelOut
deriving DecidableEq, Repr

/-- The body of the `for (found, ancestor) in ...` loop of
    `try_accept_one_block` (lines 190-210): record a missing ancestor in the
    accumulated missing set, index the block under it, and extend
    `missing_blocks` when the ancestor is not itself suspended. -/
def accept_ancestor_step (block_ref : BlockRef) (p : List BlockRef × BlockManager)
    (ancestor : BlockRef) : List BlockRef × BlockManager :=
  if contains_block p.2.dag_state ancestor then p
  else
    let st := p.2
    (insertRef p.1 ancestor,
      { st with
        missing_ancestors := insertEntry st.missing_ancestors ancestor
          (insertRef ((findEntry st.missing_ancestors ancestor).getD []) block_ref),
        missing_blocks :=
          if memEntry st.suspended_blocks ancestor then st.missing_blocks
          else insertRef st.missing_blocks ancestor })

/-- `BlockManager::try_accept_one_block` (lines 177-235): skip an already
    suspended or stored block; compute the missing ancestors, indexing the
    block under each of them and extending `missing_blocks` with those that
    are not themselves suspended; drop the block's own ref from
    `missing_blocks`; then either suspend the block or return it. -/
def try_accept_one_block (s : BlockManager) (block : Block) : BlockManager × Option Block :=
  let block_ref := block.reference
  if memEntry s.suspended_blocks block_ref || contains_block s.dag_state block_ref then
    (s, none)
  else
    let folded := block.ancestors.foldl (accept_ancestor_step block_ref) ([], s)
    let s2 := { folded.2 with missing_blocks := eraseRef folded.2.missing_blocks block_ref }
    if folded.1.isEmpty then (s2, some block)
    else
      ({ s2 with
          suspended_blocks := insertEntry s2.suspended_blocks block_ref ⟨block, folded.1⟩ },
        none)

/-- `BlockManager::try_unsuspend_block` (lines 294-316): drop the accepted
    dependency from the suspended block's missing set, unsuspending it when
    the set empties. The `expect` and the `assert!` of the source are the two
    `panicked` branches. -/
def try_unsuspend_block (s : BlockManager) (block_ref accepted_dependency : BlockRef) :
    PRes (BlockManager × Option SuspendedBlock) :=
  match findEntry s.suspended_blocks block_ref with
  | none => .panicked
  | some sb =>
    if accepted_dependency ∈ sb.missing_ancestors then
      let sb2 : SuspendedBlock := ⟨sb.block, eraseRef sb.missing_ancestors accepted_dependency⟩
      if sb2.missing_ancestors.isEmpty then
        .ok ({ s with suspended_blocks := eraseEntry s.suspended_blocks block_ref }, some sb2)
      else
        .ok ({ s with suspended_blocks := insertEntry s.suspended_blocks block_ref sb2 }, none)
    else .panicked

/-- The `for r in block_refs_with_missing_deps` loop inside
    `try_unsuspend_children_blocks` (lines 251-258): try to unsuspend each
    indexed child, collecting the newly unsuspended blocks in order. -/
def process_children (dep : BlockRef) :
    BlockManager → List BlockRef → List Block → List SuspendedBlock →
    PRes (BlockManager × List Block × List SuspendedBlock)
  | s, [], pushed, uns => .ok (s, pushed, uns)
  | s, r :: rest, pushed, uns =>
    match try_unsuspend_block s r dep with
    | .panicked => .panicked
    | .fuelOut => .fuelOut
    | .ok (s1, none) => process_children dep s1 rest pushed uns
    | .ok (s1, some sb) => process_children dep s1 rest (pushed ++ [sb.block]) (uns ++ [sb])

/-- The `while let Some(block) = to_process_blocks.pop()` loop of
    `try_unsuspend_children_blocks` (lines 246-260), fuelled. The stack is the
    list head; newly pushed blocks go on top in LIFO order as in the source. -/
def unsuspend_loop :
    Nat → BlockManager → List Block → List SuspendedBlock →
    PRes (BlockManager × List SuspendedBlock)
  | 0, _, _, _ => .fuelOut
  | _ + 1, s, [], uns => .ok (s, uns)
  | fuel + 1, s, block :: stack, uns =>
    let children := (findEntry s.missing_ancestors block.reference).getD []
    let s1 := { s with missing_ancestors := eraseEntry s.missing_ancestors block.reference }
    match process_children block.reference s1 children [] uns with
    | .panicked => .panicked
    | .fuelOut => .fuelOut
    | .ok (s2, pushed, uns2) => unsuspend_loop fuel s2 (pushed.reverse ++ stack) uns2

/-- `BlockManager::try_unsuspend_children_blocks` (lines 239-290): unsuspend,
    transitively, all suspended children of an accepted block, returned in
    unsuspension (causal) order. The fuel is sufficient (each loop iteration
    either empties the stack or pops one element, and pushes are bounded by
    unsuspensions, which strictly shrink `suspended_blocks`). -/
def try_unsuspend_children_blocks (s : BlockManager) (accepted_block : Block) :
    PRes (BlockManager × List Block) :=
  match unsuspend_loop (s.suspended_blocks.length + 2) s [accepted_block] [] with
  | .ok (s1, uns) => .ok (s1, uns.map SuspendedBlock.block)
  | .panicked => .panicked
  | .fuelOut => .fuelOut

/-- The `'ancestor` loop of `try_accept_blocks` (lines 102-123): resolve each
    ancestor from the dag, then from the tentatively accepted set; meeting a
    rejected ancestor answers `none` (reject the block); an unresolvable
    ancestor is the source's `panic!`. -/
def resolve_ancestors (dag : DagState) (to_accept to_reject : List (BlockRef × Block)) :
    List BlockRef → PRes (Option (List Block))
  | [] => .ok (some [])
  | included :: rest =>
    match get_block dag included with
    | some found =>
      match resolve_ancestors dag to_accept to_reject rest with
      | .ok (some l) => .ok (some (found :: l))
      | other => other
    | none =>
      match findEntry to_accept included with
      | some found =>
        match resolve_ancestors dag to_accept to_reject rest with
        | .ok (some l) => .ok (some (found :: l))
        | other => other
      | none =>
        if memEntry to_reject included then .ok none
        else .panicked

/-- The `'block` loop of `try_accept_blocks` (lines 98-130): partition the
    tentatively accepted blocks into `blocks_to_accept` and `blocks_to_reject`
    by resolving ancestors and running `BlockVerifier::check_ancestors`
    (passed in as `check`). -/
def verify_loop (check : Block → List Block → Bool) (dag : DagState) :
    List Block → List (BlockRef × Block) → List (BlockRef × Block) →
    PRes (List (BlockRef × Block) × List (BlockRef × Block))
  | [], to_accept, to_reject => .ok (to_accept, to_reject)
  | b :: rest, to_accept, to_reject =>
    match resolve_ancestors dag to_accept to_reject b.ancestors with
    | .panicked => .panicked
    | .fuelOut => .fuelOut
    | .ok none => verify_loop check dag rest to_accept (insertEntry to_reject b.reference b)
    | .ok (some ancestor_blocks) =>
      if check b ancestor_blocks then
        verify_loop check dag rest (insertEntry to_accept b.reference b) to_reject
      else
        verify_loop check dag rest to_accept (insertEntry to_reject b.reference b)

/-- Stable sort by a boolean comparator: Rust's `sort_by_key` is a stable
    sort, and a `BTreeMap` iterated in ascending key order is the stable
    sort of its (duplicate-free) entries; both are modelled by insertion
    sort, which is stable. -/
def sortB (le : α → α → Bool) (l : List α) : List α :=
  List.insertionSort (fun a b => le a b = true) l

/-- `blocks_to_accept.into_values()`: a `BTreeMap` iterates its values in
    ascending key order. -/
def sortedValues (m : List (BlockRef × Block)) : List Block :=
  (sortB (fun p q => refLE p.1 q.1) m).map Prod.snd

/-- One iteration of the `for block in blocks` loop of `try_accept_blocks`
    (lines 89-152): accept or suspend the block; on acceptance, unsuspend its
    suspended descendants, verify the sweep against the verifier with
    rejection cascading, and write the surviving blocks to the dag. -/
def accept_iteration (check : Block → List Block → Bool) (s : BlockManager) (block : Block) :
    PRes (BlockManager × List Block) :=
  match try_accept_one_block s block with
  | (s1, none) => .ok (s1, [])
  | (s1, some b) =>
    match try_unsuspend_children_blocks s1 b with
    | .panicked => .panicked
    | .fuelOut => .fuelOut
    | .ok (s2, unsuspended_blocks) =>
      match verify_loop check s2.dag_state (b :: unsuspended_blocks) [] [] with
      | .panicked => .panicked
      | .fuelOut => .fuelOut
      | .ok (to_accept, _to_reject) =>
        let blocks_to_accept := sortedValues to_accept
        .ok ({ s2 with dag_state := accept_blocks s2.dag_state blocks_to_accept },
          blocks_to_accept)

/-- The full `for block in blocks` loop, concatenating each iteration's
    accepted blocks. -/
def accept_loop (check : Block → List Block → Bool) :
    BlockManager → List Block → PRes (BlockManager × List Block)
  | s, [] => .ok (s, [])
  | s, b :: rest =>
    match accept_iteration check s b with
    | .panicked => .panicked
    | .fuelOut => .fuelOut
    | .ok (s1, out) =>
      match accept_loop check s1 rest with
      | .panicked => .panicked
      | .fuelOut => .fuelOut
      | .ok (s2, out2) => .ok (s2, out ++ out2)

/-- The comparator of `blocks.sort_by_key(|b| b.round())`. -/
def roundLE (a b : Block) : Bool := decide (a.round ≤ b.round)

/-- `BlockManager::try_accept_blocks` (lines 80-172): sort the input by round
    ascending, run the acceptance loop, and return the accepted blocks
    together with the refs that became missing during the call. -/
def try_accept_blocks (check : Block → List Block → Bool) (s : BlockManager)
    (blocks : List Block) : PRes (BlockManager × List Block × List BlockRef) :=
  let sorted := sortB roundLE blocks
  let missing_blocks_before := s.missing_blocks
  match accept_loop check s sorted with
  | .panicked => .panicked
  | .fuelOut => .fuelOut
  | .ok (s1, accepted_blocks) =>
    .ok (s1, accepted_blocks,
      s1.missing_blocks.filter (fun r => !decide (r ∈ missing_blocks_before)))

/-- A sequence of `try_accept_blocks` calls on one `BlockManager`,
    concatenating the accepted lists. -/
def run_calls (check : Block → List Block → Bool) :
    BlockManager → List (List Block) → PRes (BlockManager × List Block)
  | s, [] => .ok (s, [])
  | s, c :: rest =>
    match try_accept_blocks check s c with
    | .panicked => .panicked
    | .fuelOut => .fuelOut
    | .ok (s1, accepted, _missing) =>
      match run_calls check s1 rest with
      | .panicked => .panicked
      | .fuelOut => .fuelOut
      | .ok (s2, acc2) => .ok (s2, accepted ++ acc2)

/-- The error kinds returned by the `AuthorityService` handlers
    (`error.rs` variants used in `authority_node.rs`). -/
inductive ConsensusError where
  | MalformedBlock
  | UnexpectedAuthority (author peer : Nat)
  | InvalidBlock
  | BlockTooFarInFuture (block_timestamp forward_time_drift : Nat)
  | TooManyFetchBlocksRequested (peer : Nat)
  | InvalidAuthorityIndex (index max : Nat)
  | UnexpectedGenesisBlockRequested
deriving DecidableEq, Repr

/-- `AuthorityService::handle_send_block` (`authority_node.rs` lines 279-356):
    reject on parse failure (`parsed = none`), on a peer/author mismatch, on
    verifier failure, and on a timestamp more than `max_forward_time_drift`
    past `now` (`saturating_sub` is `Nat` subtraction). On success it returns
    the slept duration (the remaining forward drift, zero when the timestamp
    is current) and the block handed to `Core::add_blocks`. -/
def handle_send_block (verify : Block → Bool) (max_forward_time_drift now_ms : Nat)
    (peer : Nat) (parsed : Option Block) : Except ConsensusError (Nat × Block) :=
  match parsed with
  | none => .error .MalformedBlock
  | some signed_block =>
    if ¬ peer = signed_block.author then
      .error (.UnexpectedAuthority signed_block.author peer)
    else if ¬ verify signed_block then .error .InvalidBlock
    else
      let forward_time_drift := signed_block.timestamp_ms - now_ms
      if max_forward_time_drift < forward_time_drift then
        .error (.BlockTooFarInFuture signed_block.timestamp_ms forward_time_drift)
      else .ok (forward_time_drift, signed_block)

/-- The `MAX_ALLOWED_FETCH_BLOCKS` constant of `handle_fetch_blocks`. -/
def MAX_ALLOWED_FETCH_BLOCKS : Nat := 200

/-- Result of `handle_fetch_blocks`, separating the structured errors from the
    out-of-bounds indexing panic. The served blocks stand for their serialized
    bytes (serialization is injective). -/
inductive FetchResult where
  | ok (blocks : List Block)
  | err (e : ConsensusError)
  | panicked
deriving DecidableEq, Repr

/-- The `for block in &block_refs` validation loop of `handle_fetch_blocks`
    (lines 371-381): first offending ref decides the error. -/
def validate_fetch_refs (committee_size : Nat) : List BlockRef → Option ConsensusError
  | [] => none
  | r :: rest =>
    if ¬ r.author < committee_size then
      some (.InvalidAuthorityIndex r.author committee_size)
    else if r.round = 0 then some .UnexpectedGenesisBlockRequested
    else validate_fetch_refs committee_size rest

/-- Ordered insertion into a duplicate-free ascending list of refs
    (the `BTreeSet<BlockRef>` collected from the ancestors). -/
def insertSorted (r : BlockRef) : List BlockRef → List BlockRef
  | [] => [r]
  | x :: xs => if r = x then x :: xs else if refLE r x then r :: x :: xs else x :: insertSorted r xs

/-- The `BTreeSet` of all ancestors of the found blocks, in ascending order. -/
def sortedRefSet (l : List BlockRef) : List BlockRef :=
  l.foldl (fun acc r => insertSorted r acc) []

/-- `AuthorityService::handle_fetch_blocks` (lines 358-413): cap the request
    at 200 refs, validate each ref's author and round, look the refs up in the
    dag, and serve them together with every ancestor whose round exceeds the
    requester's `highest_accepted_rounds` entry for the ancestor's author. The
    indexing `highest_accepted_rounds[block_ref.author]` panics when the
    author is out of bounds for the supplied vector. -/
def handle_fetch_blocks (committee_size : Nat) (dag : DagState) (peer : Nat)
    (block_refs : List BlockRef) (highest_accepted_rounds : List Nat) : FetchResult :=
  if MAX_ALLOWED_FETCH_BLOCKS < block_refs.length then
    .err (.TooManyFetchBlocksRequested peer)
  else
    match validate_fetch_refs committee_size block_refs with
    | some e => .err e
    | none =>
      let blocks := get_blocks dag block_refs
      let all_ancestors :=
        sortedRefSet (((blocks.filterMap id).map Block.ancestors).flatten)
      if all_ancestors.any (fun a => !decide (a.author < highest_accepted_rounds.length)) then
        .panicked
      else
        let kept := all_ancestors.filter
          (fun a => decide (highest_accepted_rounds.getD a.author 0 < a.round))
        let additional := if !kept.isEmpty then get_blocks dag kept else []
        .ok ((blocks ++ additional).filterMap id)

/-! Basic facts about the reference order and the dag queries. -/

theorem refLE_refl (a : BlockRef) : refLE a a = true := by
  simp [refLE]

theorem refLE_total (a b : BlockRef) : refLE a b = true ∨ refLE b a = true := by
  simp only [refLE, Bool.or_eq_true, Bool.and_eq_true, decide_eq_true_eq]
  omega

theorem refLE_trans {a b c : BlockRef} (h1 : refLE a b = true) (h2 : refLE b c = true) :
    refLE a c = true := by
  simp only [refLE, Bool.or_eq_true, Bool.and_eq_true, decide_eq_true_eq] at h1 h2 ⊢
  omega

theorem refLE_antisymm {a b : BlockRef} (h1 : refLE a b = true) (h2 : refLE b a = true) :
    a = b := by
  cases a; cases b
  simp only [refLE, Bool.or_eq_true, Bool.and_eq_true, decide_eq_true_eq] at h1 h2
  simp only [BlockRef.mk.injEq]
  omega

theorem refLE_round {a b : BlockRef} (h : refLE a b = true) : a.round ≤ b.round := by
  simp only [refLE, Bool.or_eq_true, Bool.and_eq_true, decide_eq_true_eq] at h
  omega

theorem get_block_reference {d : DagState} {r : BlockRef} {b : Block}
    (h : get_block d r = some b) : b.reference = r := by
  unfold get_block at h
  have hp := List.find?_some h
  simpa using hp

theorem get_block_mem {d : DagState} {r : BlockRef} {b : Block}
    (h : get_block d r = some b) : b ∈ d := by
  unfold get_block at h
  exact List.mem_of_find?_eq_some h

theorem contains_block_iff {d : DagState} {r : BlockRef} :
    contains_block d r = true ↔ ∃ b ∈ d, b.reference = r := by
  simp [contains_block, List.any_eq_true]

theorem contains_block_eq_isSome (d : DagState) (r : BlockRef) :
    contains_block d r = (get_block d r).isSome := by
  induction d with
  | nil => rfl
  | cons b rest ih =>
    by_cases h : b.reference = r
    · simp [contains_block, get_block, h]
    · simp only [contains_block, get_block, List.any_cons, List.find?_cons,
        decide_eq_true_eq, h, decide_False, Bool.false_or, if_neg] at ih ⊢
      exact ih

/-! Facts about the sorted ancestor set of `handle_fetch_blocks`. -/

theorem mem_insertSorted {x r : BlockRef} {l : List BlockRef} :
    x ∈ insertSorted r l ↔ x = r ∨ x ∈ l := by
  induction l with
  | nil => simp [insertSorted]
  | cons y ys ih =>
    by_cases h1 : r = y
    · subst h1; simp [insertSorted]
    · by_cases h2 : refLE r y = true
      · simp [insertSorted, h1, h2]
      · simp [insertSorted, h1, h2, ih]
        tauto

theorem pairwise_insertSorted {r : BlockRef} {l : List BlockRef}
    (h : l.Pairwise (fun a b => refLE a b = true ∧ a ≠ b)) :
    (insertSorted r l).Pairwise (fun a b => refLE a b = true ∧ a ≠ b) := by
  induction l with
  | nil => simp [insertSorted]
  | cons y ys ih =>
    rcases h with _ | ⟨hy, hys⟩
    by_cases h1 : r = y
    · subst h1
      simp only [insertSorted, if_pos rfl]
      exact List.Pairwise.cons hy hys
    · by_cases h2 : refLE r y = true
      · simp only [insertSorted, if_neg h1, if_pos h2]
        refine List.Pairwise.cons ?_ (List.Pairwise.cons hy hys)
        intro z hz
        rcases List.mem_cons.mp hz with hz | hz
        · subst hz; exact ⟨h2, h1⟩
        · have hyz := hy z hz
          refine ⟨refLE_trans h2 hyz.1, ?_⟩
          rintro rfl
          exact hyz.2 (refLE_antisymm h2 hyz.1).symm
      · have h3 : refLE y r = true := by
          rcases refLE_total r y with h | h
          · exact absurd h h2
          · exact h
        simp only [insertSorted, if_neg h1, if_neg h2]
        refine List.Pairwise.cons ?_ (ih hys)
        intro z hz
        rcases mem_insertSorted.mp hz with rfl | hz
        · exact ⟨h3, fun hyr => h1 hyr.symm⟩
        · exact hy z hz

theorem pairwise_foldl_insertSorted (l : List BlockRef) (acc : List BlockRef)
    (h : acc.Pairwise (fun a b => refLE a b = true ∧ a ≠ b)) :
    (l.foldl (fun a r => insertSorted r a) acc).Pairwise
      (fun a b => refLE a b = true ∧ a ≠ b) := by
  induction l generalizing acc with
  | nil => exact h
  | cons r rest ih => exact ih _ (pairwise_insertSorted h)

theorem sortedRefSet_nodup (l : List BlockRef) : (sortedRefSet l).Nodup := by
  have := pairwise_foldl_insertSorted l [] (by simp)
  exact this.imp (fun h => h.2)

theorem mem_foldl_insertSorted {x : BlockRef} (l : List BlockRef) (acc : List BlockRef) :
    x ∈ l.foldl (fun a r => insertSorted r a) acc ↔ x ∈ l ∨ x ∈ acc := by
  induction l generalizing acc with
  | nil => simp
  | cons r rest ih =>
    simp only [List.foldl_cons, ih, mem_insertSorted, List.mem_cons]
    tauto

theorem mem_sortedRefSet {x : BlockRef} {l : List BlockRef} :
    x ∈ sortedRefSet l ↔ x ∈ l := by
  simp [sortedRefSet, mem_foldl_insertSorted]

/-! Facts about `validate_fetch_refs`. -/

theorem validate_fetch_refs_eq_none {cs : Nat} {refs : List BlockRef}
    (h : ∀ r ∈ refs, r.author < cs ∧ r.round ≠ 0) :
    validate_fetch_refs cs refs = none := by
  induction refs with
  | nil => rfl
  | cons r rest ih =>
    obtain ⟨h1, h2⟩ := h r (List.mem_cons_self r rest)
    simp only [validate_fetch_refs, h1, not_true_eq_false, if_false, h2]
    exact ih (fun x hx => h x (List.mem_cons_of_mem r hx))

theorem validate_fetch_refs_isSome {cs : Nat} {refs : List BlockRef}
    (h : ∃ r ∈ refs, ¬ r.author < cs ∨ r.round = 0) :
    ∃ e, validate_fetch_refs cs refs = some e := by
  induction refs with
  | nil => simp at h
  | cons r rest ih =>
    by_cases h1 : r.author < cs
    · by_cases h2 : r.round = 0
      · exact ⟨.UnexpectedGenesisBlockRequested, by simp [validate_fetch_refs, h1, h2]⟩
      · have : ∃ x ∈ rest, ¬ x.author < cs ∨ x.round = 0 := by
          rcases h with ⟨x, hx, hbad⟩
          rcases List.mem_cons.mp hx with rfl | hx
          · rcases hbad with hb | hb
            · exact absurd h1 hb
            · exact absurd hb h2
          · exact ⟨x, hx, hbad⟩
        obtain ⟨e, he⟩ := ih this
        exact ⟨e, by simp [validate_fetch_refs, h1, h2, he]⟩
    · exact ⟨.InvalidAuthorityIndex r.author cs, by simp [validate_fetch_refs, h1]⟩

/-- C7: `handle_send_block` rejects a verified block whose timestamp exceeds
`now + max_forward_time_drift`; with a timestamp greater than `now` but at
most `now + max_forward_time_drift` (the boundary included) it is not
rejected: it sleeps the positive gap `timestamp − now` and forwards the block
to Core. -/
theorem C7_handle_send_block_drift (verify : Block → Bool) (max_drift now_ms peer : Nat)
    (b : Block) (hpeer : peer = b.author) (hverify : verify b = true) :
    (now_ms + max_drift < b.timestamp_ms →
      handle_send_block verify max_drift now_ms peer (some b) =
        .error (.BlockTooFarInFuture b.timestamp_ms (b.timestamp_ms - now_ms))) ∧
    (now_ms < b.timestamp_ms → b.timestamp_ms ≤ now_ms + max_drift →
      handle_send_block verify max_drift now_ms peer (some b) =
        .ok (b.timestamp_ms - now_ms, b) ∧ 0 < b.timestamp_ms - now_ms) := by
  constructor
  · intro h
    have hd : max_drift < b.timestamp_ms - now_ms := by omega
    simp [handle_send_block, hpeer, hverify, hd]
  · intro h1 h2
    have hd : ¬ max_drift < b.timestamp_ms - now_ms := by omega
    constructor
    · simp [handle_send_block, hpeer, hverify, hd]
    · omega

theorem C7_handle_send_block_drift_witness :
    (handle_send_block (fun _ => true) 10 100 0
        (some { round := 1, author := 0, digest := 7, timestamp_ms := 111, ancestors := [] }) =
      .error (.BlockTooFarInFuture 111 11)) ∧
    (handle_send_block (fun _ => true) 10 100 0
        (some { round := 1, author := 0, digest := 7, timestamp_ms := 110, ancestors := [] }) =
      .ok (10, { round := 1, author := 0, digest := 7, timestamp_ms := 110, ancestors := [] })) :=
  ⟨(C7_handle_send_block_drift (fun _ => true) 10 100 0 _ rfl rfl).1 (by decide),
   ((C7_handle_send_block_drift (fun _ => true) 10 100 0 _ rfl rfl).2 (by decide) (by decide)).1⟩

/-- C8: `handle_fetch_blocks` rejects a request of more than 200 refs, rejects
a request containing a ref with an out-of-committee author, rejects a request
containing a round-0 ref, and does not reject a request of exactly 200 refs
that are all valid. -/
theorem C8_fetch_request_validation (committee_size : Nat) (dag : DagState) (peer : Nat)
    (refs : List BlockRef) (rounds : List Nat) :
    (MAX_ALLOWED_FETCH_BLOCKS < refs.length →
      handle_fetch_blocks committee_size dag peer refs rounds =
        .err (.TooManyFetchBlocksRequested peer)) ∧
    ((∃ r ∈ refs, ¬ r.author < committee_size) →
      ∃ e, handle_fetch_blocks committee_size dag peer refs rounds = .err e) ∧
    ((∃ r ∈ refs, r.round = 0) →
      ∃ e, handle_fetch_blocks committee_size dag peer refs rounds = .err e) ∧
    (refs.length = MAX_ALLOWED_FETCH_BLOCKS →
      (∀ r ∈ refs, r.author < committee_size ∧ r.round ≠ 0) →
      ∀ e, handle_fetch_blocks committee_size dag peer refs rounds ≠ .err e) := by
  refine ⟨fun h => by simp [handle_fetch_blocks, h], ?_, ?_, ?_⟩
  · intro h
    by_cases hlen : MAX_ALLOWED_FETCH_BLOCKS < refs.length
    · exact ⟨.TooManyFetchBlocksRequested peer, by simp [handle_fetch_blocks, hlen]⟩
    · obtain ⟨e, he⟩ := @validate_fetch_refs_isSome committee_size _
        (h.imp (fun r hr => ⟨hr.1, Or.inl hr.2⟩))
      exact ⟨e, by simp [handle_fetch_blocks, hlen, he]⟩
  · intro h
    by_cases hlen : MAX_ALLOWED_FETCH_BLOCKS < refs.length
    · exact ⟨.TooManyFetchBlocksRequested peer, by simp [handle_fetch_blocks, hlen]⟩
    · obtain ⟨e, he⟩ := @validate_fetch_refs_isSome committee_size _
        (h.imp (fun r hr => ⟨hr.1, Or.inr hr.2⟩))
      exact ⟨e, by simp [handle_fetch_blocks, hlen, he]⟩
  · intro hlen hvalid e
    have h1 : ¬ MAX_ALLOWED_FETCH_BLOCKS < refs.length := by omega
    have h2 := validate_fetch_refs_eq_none hvalid
    simp only [handle_fetch_blocks, h1, if_false, h2]
    by_cases h3 : (sortedRefSet
        ((((get_blocks dag refs).filterMap id).map Block.ancestors).flatten)).any
          (fun a => !decide (a.author < rounds.length)) = true
    · simp [h3]
    · simp [h3]

/-! Concrete blocks used by witnesses and counterexamples. -/

/-- Concrete genesis block used in examples. -/
def cg0 : Block := { round := 0, author := 0, digest := 0, timestamp_ms := 0, ancestors := [] }

/-- Concrete round-1 block on top of `cg0`. -/
def cb1 : Block :=
  { round := 1, author := 0, digest := 1, timestamp_ms := 0, ancestors := [cg0.reference] }

/-- Concrete round-2 block on top of `cb1`. -/
def cb2 : Block :=
  { round := 2, author := 0, digest := 2, timestamp_ms := 0, ancestors := [cb1.reference] }

/-- Concrete dag holding the three example blocks. -/
def cDag : DagState := [cg0, cb1, cb2]

/-- A list of `n` distinct valid refs (round 1, author 0). -/
def wRefs (n : Nat) : List BlockRef := (List.range n).map (fun i => ⟨1, 0, i⟩)

/-- A concrete verifier that fails exactly on round-1 blocks. -/
def c5check (b : Block) (_ : List Block) : Bool := decide (b.round ≠ 1)

/-- Round-validity of a block, guaranteed by `VerifiedBlock` upstream of the
    `BlockManager`: every ancestor ref carries a round strictly below the
    block's own round. -/
def validB (b : Block) : Prop := ∀ a ∈ b.ancestors, a.round < b.round

instance validB_dec (b : Block) : Decidable (validB b) :=
  show Decidable (∀ a ∈ b.ancestors, a.round < b.round) from
    List.decidableBAll (fun a => a.round < b.round) b.ancestors

/-- Every missing ancestor recorded for a suspended block has a round
    strictly below the suspended block's round: missing sets start as a
    subset of the (round-valid) block's ancestors and only shrink. -/
def MAval (s : BlockManager) : Prop :=
  ∀ k sb, (findEntry s.suspended_blocks k : Option SuspendedBlock) = some sb →
    ∀ a ∈ sb.missing_ancestors, a.round < sb.block.round

set_option maxRecDepth 4000 in
theorem C8_fetch_request_validation_witness :
    handle_fetch_blocks 1 [] 0 (wRefs 201) [] = .err (.TooManyFetchBlocksRequested 0) ∧
    (∃ e, handle_fetch_blocks 1 [] 0 [⟨1, 5, 0⟩] [] = .err e) ∧
    (∃ e, handle_fetch_blocks 1 [] 0 [⟨0, 0, 0⟩] [] = .err e) ∧
    ∀ e, handle_fetch_blocks 1 [] 0 (wRefs 200) [] ≠ .err e :=
  ⟨(C8_fetch_request_validation 1 [] 0 (wRefs 201) []).1 (by decide),
   (C8_fetch_request_validation 1 [] 0 [⟨1, 5, 0⟩] []).2.1 ⟨⟨1, 5, 0⟩, by decide, by decide⟩,
   (C8_fetch_request_validation 1 [] 0 [⟨0, 0, 0⟩] []).2.2.1 ⟨⟨0, 0, 0⟩, by decide, by decide⟩,
   (C8_fetch_request_validation 1 [] 0 (wRefs 200) []).2.2.2 (by decide) (by decide)⟩

/-- C10: when a fetch request passes the cheap validation but some requested
block found in the dag has an ancestor whose author is out of bounds for the
caller-supplied `highest_accepted_rounds` vector, `handle_fetch_blocks`
panics (out-of-bounds index) instead of returning a structured error. -/
theorem C10_fetch_oob_author_panics (committee_size : Nat) (dag : DagState) (peer : Nat)
    (refs : List BlockRef) (rounds : List Nat)
    (hlen : refs.length ≤ MAX_ALLOWED_FETCH_BLOCKS)
    (hvalid : ∀ r ∈ refs, r.author < committee_size ∧ r.round ≠ 0)
    (hbad : ∃ r ∈ refs, ∃ c, get_block dag r = some c ∧
      ∃ a ∈ c.ancestors, rounds.length ≤ a.author) :
    handle_fetch_blocks committee_size dag peer refs rounds = .panicked := by
  have h1 : ¬ MAX_ALLOWED_FETCH_BLOCKS < refs.length := by omega
  have h2 := validate_fetch_refs_eq_none hvalid
  obtain ⟨r, hr, c, hc, a, ha, hoob⟩ := hbad
  have hmem : a ∈ sortedRefSet
      ((((get_blocks dag refs).filterMap id).map Block.ancestors).flatten) := by
    rw [mem_sortedRefSet, List.mem_flatten]
    refine ⟨c.ancestors, List.mem_map.mpr ⟨c, ?_, rfl⟩, ha⟩
    refine List.mem_filterMap.mpr ⟨some c, ?_, rfl⟩
    exact List.mem_map.mpr ⟨r, hr, hc⟩
  have hany : (sortedRefSet
        ((((get_blocks dag refs).filterMap id).map Block.ancestors).flatten)).any
      (fun a => !decide (a.author < rounds.length)) = true := by
    refine List.any_eq_true.mpr ⟨a, hmem, ?_⟩
    simp only [Bool.not_eq_true', decide_eq_false_iff_not, not_lt]
    exact hoob
  simp only [handle_fetch_blocks, h1, if_false, h2, hany, if_true]

theorem C10_fetch_oob_author_panics_witness :
    handle_fetch_blocks 1 cDag 0 [cb1.reference] [] = .panicked :=
  C10_fetch_oob_author_panics 1 cDag 0 [cb1.reference] [] (by decide) (by decide)
    ⟨cb1.reference, by decide, cb1, by decide, cg0.reference, by decide, by decide⟩

/-- C9 is refuted as stated: a valid request whose requested blocks overlap the
qualifying ancestors receives a block's bytes twice — the result is not a
union. Here `cb1` is both requested and a qualifying ancestor of `cb2`, and
its bytes appear twice in the response. -/
theorem C9_counterexample :
    ([cb2.reference, cb1.reference].length ≤ MAX_ALLOWED_FETCH_BLOCKS ∧
      (∀ r ∈ [cb2.reference, cb1.reference], r.author < 1 ∧ r.round ≠ 0)) ∧
    handle_fetch_blocks 1 cDag 0 [cb2.reference, cb1.reference] [0] = .ok [cb2, cb1, cb1] ∧
    ¬ ([cb2, cb1, cb1].count cb1 ≤ 1) := by
  exact ⟨by decide, by decide, by decide⟩

/-! Counting lemmas for the amended C9. -/

theorem count_filterMap_get (dag : DagState) (rs : List BlockRef) (bl : Block) :
    (rs.filterMap (get_block dag)).count bl
      = rs.countP (fun r => decide (get_block dag r = some bl)) := by
  induction rs with
  | nil => rfl
  | cons r rest ih =>
    cases h : get_block dag r with
    | none => simp [List.filterMap_cons, h, List.countP_cons, ih]
    | some c =>
      by_cases hc : c = bl
      · subst hc
        simp [List.filterMap_cons, h, List.count_cons, List.countP_cons, ih]
      · simp [List.filterMap_cons, h, List.count_cons, List.countP_cons, ih, hc,
          Ne.symm hc]

theorem countP_get_nodup (dag : DagState) (kept : List BlockRef) (bl : Block)
    (hnd : kept.Nodup) :
    kept.countP (fun r => decide (get_block dag r = some bl)) =
      if bl.reference ∈ kept ∧ get_block dag bl.reference = some bl then 1 else 0 := by
  induction kept with
  | nil => simp
  | cons a rest ih =>
    rw [List.nodup_cons] at hnd
    obtain ⟨hna, hndr⟩ := hnd
    by_cases hpa : get_block dag a = some bl
    · have haref : bl.reference = a := get_block_reference hpa
      have hrest0 : rest.countP (fun r => decide (get_block dag r = some bl)) = 0 := by
        rw [List.countP_eq_zero]
        intro x hx
        simp only [decide_eq_true_eq]
        intro hgx
        have hx2 : bl.reference = x := get_block_reference hgx
        exact hna (by rw [← hx2, haref] at hx; exact hx)
      have hcond : bl.reference ∈ a :: rest ∧ get_block dag bl.reference = some bl := by
        refine ⟨by rw [haref]; exact List.mem_cons_self a rest, by rw [haref]; exact hpa⟩
      simp [List.countP_cons, hpa, hrest0, hcond]
    · rw [List.countP_cons, ih hndr]
      by_cases hg : get_block dag bl.reference = some bl
      · have hne : bl.reference ≠ a := fun he => hpa (he ▸ hg)
        have hmem : (bl.reference ∈ a :: rest) ↔ bl.reference ∈ rest := by
          simp [List.mem_cons, hne]
        simp [hpa, hg, hmem]
      · simp [hpa, hg]

theorem filterMap_id_get (dag : DagState) (rs : List BlockRef) :
    (get_blocks dag rs).filterMap id = rs.filterMap (get_block dag) := by
  unfold get_blocks
  induction rs with
  | nil => rfl
  | cons r rest ih => cases h : get_block dag r <;> simp [List.filterMap_cons, h, ih]

/-- C9 amended: for a valid request (within the fetch cap, refs valid, and the
`highest_accepted_rounds` vector covering every ancestor author), the reply
serves, for each block, one copy per found occurrence of its ref in the
request, plus one further copy when the block is an ancestor of some found
requested block with round above the requester's high-water mark for its
author. In particular a block's bytes can appear more than once (it is a
concatenation, not a union). -/
theorem C9_amended_fetch_served_blocks (committee_size : Nat) (dag : DagState) (peer : Nat)
    (refs : List BlockRef) (rounds : List Nat)
    (hlen : refs.length ≤ MAX_ALLOWED_FETCH_BLOCKS)
    (hvalid : ∀ r ∈ refs, r.author < committee_size ∧ r.round ≠ 0)
    (hin : ∀ r ∈ refs, ∀ a ∈ (((get_block dag r).map Block.ancestors).getD []),
      a.author < rounds.length) :
    ∃ L, handle_fetch_blocks committee_size dag peer refs rounds = .ok L ∧
      ∀ bl : Block,
        L.count bl =
          refs.countP (fun r => decide (get_block dag r = some bl)) +
          (if (∃ r ∈ refs, ∃ c, get_block dag r = some c ∧ bl.reference ∈ c.ancestors) ∧
              rounds.getD bl.reference.author 0 < bl.reference.round ∧
              get_block dag bl.reference = some bl
            then 1 else 0) := by
  have h1 : ¬ MAX_ALLOWED_FETCH_BLOCKS < refs.length := by omega
  have h2 := validate_fetch_refs_eq_none hvalid
  have hmemA : ∀ a : BlockRef,
      (a ∈ sortedRefSet ((((get_blocks dag refs).filterMap id).map Block.ancestors).flatten)) ↔
      ∃ r ∈ refs, ∃ c, get_block dag r = some c ∧ a ∈ c.ancestors := by
    intro a
    rw [mem_sortedRefSet, List.mem_flatten]
    constructor
    · rintro ⟨l, hl, hal⟩
      obtain ⟨c, hcmem, rfl⟩ := List.mem_map.mp hl
      obtain ⟨o, homem, ho⟩ := List.mem_filterMap.mp hcmem
      obtain ⟨r, hr, hro⟩ := List.mem_map.mp homem
      refine ⟨r, hr, c, ?_, hal⟩
      rw [hro]
      exact ho
    · rintro ⟨r, hr, c, hc, hac⟩
      refine ⟨c.ancestors, List.mem_map.mpr ⟨c, List.mem_filterMap.mpr
        ⟨some c, List.mem_map.mpr ⟨r, hr, hc⟩, rfl⟩, rfl⟩, hac⟩
  have hanyfalse : (sortedRefSet
        ((((get_blocks dag refs).filterMap id).map Block.ancestors).flatten)).any
      (fun a => !decide (a.author < rounds.length)) = false := by
    rw [List.any_eq_false]
    intro a hamem
    obtain ⟨r, hr, c, hc, hac⟩ := (hmemA a).mp hamem
    have := hin r hr a (by rw [hc]; exact hac)
    simp [this]
  set A := sortedRefSet
    ((((get_blocks dag refs).filterMap id).map Block.ancestors).flatten) with hA
  set kept := A.filter (fun a => decide (rounds.getD a.author 0 < a.round)) with hkept
  have hknodup : kept.Nodup := List.Nodup.filter _ (sortedRefSet_nodup _)
  have hkeptmem : ∀ x : BlockRef, x ∈ kept ↔
      ((∃ r ∈ refs, ∃ c, get_block dag r = some c ∧ x ∈ c.ancestors) ∧
        rounds.getD x.author 0 < x.round) := by
    intro x
    rw [hkept, List.mem_filter, hmemA]
    simp
  have heval : handle_fetch_blocks committee_size dag peer refs rounds =
      .ok ((get_blocks dag refs ++
        (if !kept.isEmpty then get_blocks dag kept else [])).filterMap id) := by
    simp only [handle_fetch_blocks, h1, if_false, h2, ← hA, hanyfalse, ← hkept]
    simp
  refine ⟨_, heval, ?_⟩
  intro bl
  rw [List.filterMap_append, List.count_append, filterMap_id_get, count_filterMap_get]
  have hsecond : ((if !kept.isEmpty then get_blocks dag kept else []).filterMap id).count bl =
      if (∃ r ∈ refs, ∃ c, get_block dag r = some c ∧ bl.reference ∈ c.ancestors) ∧
          rounds.getD bl.reference.author 0 < bl.reference.round ∧
          get_block dag bl.reference = some bl
        then 1 else 0 := by
    by_cases hk : kept = []
    · rw [hk]
      simp only [List.isEmpty_nil, Bool.not_true, Bool.false_eq_true, if_false,
        List.filterMap_nil, List.count_nil]
      rw [eq_comm, if_neg]
      rintro ⟨hcond1, hcond2, _⟩
      have hmem : bl.reference ∈ kept :=
        (hkeptmem bl.reference).mpr ⟨hcond1, hcond2⟩
      rw [hk] at hmem
      cases hmem
    · have hne : (!kept.isEmpty) = true := by
        simp [List.isEmpty_iff, hk]
      rw [if_pos hne, filterMap_id_get, count_filterMap_get, countP_get_nodup dag kept bl hknodup]
      refine if_congr ?_ rfl rfl
      rw [hkeptmem bl.reference]
      tauto
  rw [hsecond]

theorem C9_amended_fetch_served_blocks_witness :
    ∃ L, handle_fetch_blocks 1 cDag 0 [cb2.reference, cb1.reference] [0] = .ok L ∧
      ∀ bl : Block,
        L.count bl =
          [cb2.reference, cb1.reference].countP
            (fun r => decide (get_block cDag r = some bl)) +
          (if (∃ r ∈ [cb2.reference, cb1.reference], ∃ c, get_block cDag r = some c ∧
                bl.reference ∈ c.ancestors) ∧
              [0].getD bl.reference.author 0 < bl.reference.round ∧
              get_block cDag bl.reference = some bl
            then 1 else 0) :=
  C9_amended_fetch_served_blocks 1 cDag 0 [cb2.reference, cb1.reference] [0]
    (by decide) (by decide) (by decide)

/-! Set and map helper lemmas for the BlockManager state. -/

theorem mem_insertRef {x r : BlockRef} {s : List BlockRef} :
    x ∈ insertRef s r ↔ x = r ∨ x ∈ s := by
  unfold insertRef
  by_cases h : r ∈ s
  · simp only [if_pos h]
    constructor
    · exact Or.inr
    · rintro (rfl | hx)
      · exact h
      · exact hx
  · simp [if_neg h]

theorem mem_eraseRef {x r : BlockRef} {s : List BlockRef} :
    x ∈ eraseRef s r ↔ x ∈ s ∧ x ≠ r := by
  simp [eraseRef, List.mem_filter]

theorem eraseRef_sub {x r : BlockRef} {s : List BlockRef} (h : x ∈ eraseRef s r) : x ∈ s :=
  (mem_eraseRef.mp h).1

theorem find?_eraseEntry {α : Type} (m : List (BlockRef × α)) {k k2 : BlockRef}
    (h : ¬ k2 = k) :
    (eraseEntry m k).find? (fun p => decide (p.1 = k2)) =
      m.find? (fun p => decide (p.1 = k2)) := by
  induction m with
  | nil => rfl
  | cons p rest ih =>
    by_cases hp : p.1 = k
    · have hskip : eraseEntry (p :: rest) k = eraseEntry rest k := by
        simp [eraseEntry, List.filter_cons, hp]
      have hp2 : (decide (p.1 = k2)) = false :=
        decide_eq_false (fun he => h (he ▸ hp))
      rw [hskip, ih, List.find?_cons, hp2]
    · have hkeep : eraseEntry (p :: rest) k = p :: eraseEntry rest k := by
        simp [eraseEntry, List.filter_cons, hp]
      rw [hkeep, List.find?_cons, List.find?_cons]
      cases hd : decide (p.1 = k2)
      · exact ih
      · rfl

theorem findEntry_eraseEntry {α : Type} (m : List (BlockRef × α)) (k k2 : BlockRef) :
    findEntry (eraseEntry m k) k2 = if k2 = k then none else findEntry m k2 := by
  by_cases h : k2 = k
  · subst h
    simp only [if_pos rfl, findEntry]
    have : (eraseEntry m k2).find? (fun p => decide (p.1 = k2)) = none := by
      rw [List.find?_eq_none]
      intro p hp
      have := (List.mem_filter.mp hp).2
      simp only [Bool.not_eq_true', decide_eq_false_iff_not] at this
      simp [this]
    rw [this]
    rfl
  · simp only [if_neg h, findEntry, find?_eraseEntry m h]

theorem findEntry_insertEntry {α : Type} (m : List (BlockRef × α)) (k k2 : BlockRef) (v : α) :
    findEntry (insertEntry m k v) k2 = if k2 = k then some v else findEntry m k2 := by
  unfold insertEntry
  by_cases h : k2 = k
  · subst h
    simp [findEntry, List.find?_cons]
  · rw [if_neg h]
    unfold findEntry
    rw [List.find?_cons]
    have hd : (decide ((k, v).1 = k2)) = false := decide_eq_false (fun he => h he.symm)
    rw [hd]
    exact congrArg (Option.map Prod.snd) (find?_eraseEntry m h)

theorem memEntry_iff {α : Type} {m : List (BlockRef × α)} {k : BlockRef} :
    memEntry m k = true ↔ ∃ v, findEntry m k = some v := by
  simp [memEntry, Option.isSome_iff_exists]

theorem memEntry_eq_false {α : Type} {m : List (BlockRef × α)} {k : BlockRef} :
    memEntry m k = false ↔ findEntry m k = none := by
  unfold memEntry
  cases h : findEntry m k <;> simp [h]

theorem exists_memEntry_of_ne_nil {α : Type} {m : List (BlockRef × α)} (h : m ≠ []) :
    ∃ k, memEntry m k = true := by
  match m with
  | [] => exact absurd rfl h
  | p :: rest =>
    refine ⟨p.1, ?_⟩
    simp [memEntry, findEntry, List.find?_cons]

/-- The children indexed in `missing_ancestors` under a key (empty when the
    key is absent). -/
def childrenOf (s : BlockManager) (k : BlockRef) : List BlockRef :=
  (findEntry s.missing_ancestors k).getD []

/-- The suspended entry at a key. -/
def suspendedAt (s : BlockManager) (k : BlockRef) : Option SuspendedBlock :=
  findEntry s.suspended_blocks k

/-- The missing ancestors of `b` relative to the dag of `s`, as computed by
    `try_accept_one_block`. -/
def missingSet (s : BlockManager) (b : Block) : List BlockRef :=
  b.ancestors.filter (fun a => !contains_block s.dag_state a)

/-! Characterization of `try_accept_one_block`. -/

theorem accept_fold_spec (bref : BlockRef) (anc : List BlockRef) (M0 : List BlockRef)
    (st : BlockManager) :
    (anc.foldl (accept_ancestor_step bref) (M0, st)).2.dag_state = st.dag_state ∧
    (anc.foldl (accept_ancestor_step bref) (M0, st)).2.suspended_blocks =
      st.suspended_blocks ∧
    (∀ x, x ∈ (anc.foldl (accept_ancestor_step bref) (M0, st)).1 ↔
      x ∈ M0 ∨ (x ∈ anc ∧ contains_block st.dag_state x = false)) ∧
    (∀ x, x ∈ (anc.foldl (accept_ancestor_step bref) (M0, st)).2.missing_blocks ↔
      x ∈ st.missing_blocks ∨
      (x ∈ anc ∧ contains_block st.dag_state x = false ∧
        memEntry st.suspended_blocks x = false)) ∧
    (∀ k x, x ∈ childrenOf (anc.foldl (accept_ancestor_step bref) (M0, st)).2 k ↔
      x ∈ childrenOf st k ∨
      (k ∈ anc ∧ contains_block st.dag_state k = false ∧ x = bref)) := by
  induction anc generalizing M0 st with
  | nil => simp
  | cons a rest ih =>
    rw [List.foldl_cons]
    by_cases ha : contains_block st.dag_state a = true
    · have hstep : accept_ancestor_step bref (M0, st) a = (M0, st) := by
        simp [accept_ancestor_step, ha]
      rw [hstep]
      obtain ⟨i1, i2, i3, i4, i5⟩ := ih M0 st
      refine ⟨i1, i2, ?_, ?_, ?_⟩
      · intro x
        rw [i3]
        constructor
        · rintro (hx | hx)
          · exact Or.inl hx
          · exact Or.inr ⟨List.mem_cons_of_mem a hx.1, hx.2⟩
        · rintro (hx | ⟨hx1, hx2⟩)
          · exact Or.inl hx
          · rcases List.mem_cons.mp hx1 with rfl | hx1
            · rw [ha] at hx2; cases hx2
            · exact Or.inr ⟨hx1, hx2⟩
      · intro x
        rw [i4]
        constructor
        · rintro (hx | hx)
          · exact Or.inl hx
          · exact Or.inr ⟨List.mem_cons_of_mem a hx.1, hx.2⟩
        · rintro (hx | ⟨hx1, hx2, hx3⟩)
          · exact Or.inl hx
          · rcases List.mem_cons.mp hx1 with rfl | hx1
            · rw [ha] at hx2; cases hx2
            · exact Or.inr ⟨hx1, hx2, hx3⟩
      · intro k x
        rw [i5]
        constructor
        · rintro (hx | hx)
          · exact Or.inl hx
          · exact Or.inr ⟨List.mem_cons_of_mem a hx.1, hx.2⟩
        · rintro (hx | ⟨hx1, hx2, hx3⟩)
          · exact Or.inl hx
          · rcases List.mem_cons.mp hx1 with rfl | hx1
            · rw [ha] at hx2; cases hx2
            · exact Or.inr ⟨hx1, hx2, hx3⟩
    · have ha2 : contains_block st.dag_state a = false := by
        cases h : contains_block st.dag_state a
        · rfl
        · exact absurd h ha
      have hstep : accept_ancestor_step bref (M0, st) a =
          (insertRef M0 a,
            { st with
              missing_ancestors := insertEntry st.missing_ancestors a
                (insertRef ((findEntry st.missing_ancestors a).getD []) bref),
              missing_blocks :=
                if memEntry st.suspended_blocks a then st.missing_blocks
                else insertRef st.missing_blocks a }) := by
        simp [accept_ancestor_step, ha2]
      rw [hstep]
      obtain ⟨i1, i2, i3, i4, i5⟩ := ih (insertRef M0 a)
        { st with
          missing_ancestors := insertEntry st.missing_ancestors a
            (insertRef ((findEntry st.missing_ancestors a).getD []) bref),
          missing_blocks :=
            if memEntry st.suspended_blocks a then st.missing_blocks
            else insertRef st.missing_blocks a }
      have hch : ∀ k2, childrenOf
          { st with
            missing_ancestors := insertEntry st.missing_ancestors a
              (insertRef ((findEntry st.missing_ancestors a).getD []) bref),
            missing_blocks :=
              if memEntry st.suspended_blocks a then st.missing_blocks
              else insertRef st.missing_blocks a } k2 =
          if k2 = a then insertRef ((findEntry st.missing_ancestors a).getD []) bref
          else childrenOf st k2 := by
        intro k2
        unfold childrenOf
        simp only [findEntry_insertEntry]
        by_cases hk : k2 = a
        · simp [hk]
        · simp [hk]
      dsimp only at i1 i2 i3 i4 i5
      refine ⟨i1, i2, ?_, ?_, ?_⟩
      · intro x
        rw [i3, mem_insertRef]
        constructor
        · rintro ((heq | hx) | hx)
          · subst heq
            exact Or.inr ⟨List.mem_cons_self x rest, ha2⟩
          · exact Or.inl hx
          · exact Or.inr ⟨List.mem_cons_of_mem a hx.1, hx.2⟩
        · rintro (hx | ⟨hx1, hx2⟩)
          · exact Or.inl (Or.inr hx)
          · rcases List.mem_cons.mp hx1 with rfl | hx1
            · exact Or.inl (Or.inl rfl)
            · exact Or.inr ⟨hx1, hx2⟩
      · intro x
        rw [i4]
        by_cases hs : memEntry st.suspended_blocks a = true
        · rw [if_pos hs]
          constructor
          · rintro (hx | hx)
            · exact Or.inl hx
            · exact Or.inr ⟨List.mem_cons_of_mem a hx.1, hx.2⟩
          · rintro (hx | ⟨hx1, hx2, hx3⟩)
            · exact Or.inl hx
            · rcases List.mem_cons.mp hx1 with rfl | hx1
              · rw [hs] at hx3; cases hx3
              · exact Or.inr ⟨hx1, hx2, hx3⟩
        · have hs2 : memEntry st.suspended_blocks a = false := by
            cases h : memEntry st.suspended_blocks a
            · rfl
            · exact absurd h hs
          rw [if_neg hs, mem_insertRef]
          constructor
          · rintro ((heq | hx) | hx)
            · subst heq
              exact Or.inr ⟨List.mem_cons_self x rest, ha2, hs2⟩
            · exact Or.inl hx
            · exact Or.inr ⟨List.mem_cons_of_mem a hx.1, hx.2⟩
          · rintro (hx | ⟨hx1, hx2, hx3⟩)
            · exact Or.inl (Or.inr hx)
            · rcases List.mem_cons.mp hx1 with rfl | hx1
              · exact Or.inl (Or.inl rfl)
              · exact Or.inr ⟨hx1, hx2, hx3⟩
      · intro k x
        rw [i5, hch k]
        by_cases hk : k = a
        · subst hk
          rw [if_pos rfl, mem_insertRef]
          constructor
          · rintro ((heq | hx) | hx)
            · exact Or.inr ⟨List.mem_cons_self k rest, ha2, heq⟩
            · exact Or.inl hx
            · exact Or.inr ⟨List.mem_cons_of_mem k hx.1, hx.2⟩
          · rintro (hx | ⟨hx1, hx2, hx3⟩)
            · exact Or.inl (Or.inr hx)
            · exact Or.inl (Or.inl hx3)
        · rw [if_neg hk]
          constructor
          · rintro (hx | hx)
            · exact Or.inl hx
            · exact Or.inr ⟨List.mem_cons_of_mem a hx.1, hx.2⟩
          · rintro (hx | ⟨hx1, hx2, hx3⟩)
            · exact Or.inl hx
            · rcases List.mem_cons.mp hx1 with rfl | hx1
              · exact absurd rfl hk
              · exact Or.inr ⟨hx1, hx2, hx3⟩

theorem mem_missingSet {s : BlockManager} {b : Block} {x : BlockRef} :
    x ∈ missingSet s b ↔ x ∈ b.ancestors ∧ contains_block s.dag_state x = false := by
  simp [missingSet, List.mem_filter]

theorem isEmpty_eq_of_mem_iff {l1 l2 : List BlockRef} (h : ∀ x, x ∈ l1 ↔ x ∈ l2) :
    l1.isEmpty = l2.isEmpty := by
  rw [Bool.eq_iff_iff, List.isEmpty_iff, List.isEmpty_iff,
    List.eq_nil_iff_forall_not_mem, List.eq_nil_iff_forall_not_mem]
  constructor
  · intro h1 x hx
    exact h1 x ((h x).mpr hx)
  · intro h1 x hx
    exact h1 x ((h x).mp hx)

theorem try_accept_one_block_seen (s : BlockManager) (block : Block)
    (h : memEntry s.suspended_blocks block.reference = true ∨
      contains_block s.dag_state block.reference = true) :
    try_accept_one_block s block = (s, none) := by
  unfold try_accept_one_block
  rcases h with h | h <;> simp [h]

theorem try_accept_one_block_eq (s : BlockManager) (block : Block)
    (h1 : memEntry s.suspended_blocks block.reference = false)
    (h2 : contains_block s.dag_state block.reference = false) :
    try_accept_one_block s block =
      (if (block.ancestors.foldl (accept_ancestor_step block.reference) ([], s)).1.isEmpty
        then
          ({ (block.ancestors.foldl (accept_ancestor_step block.reference) ([], s)).2 with
              missing_blocks := eraseRef (block.ancestors.foldl
                (accept_ancestor_step block.reference) ([], s)).2.missing_blocks
                block.reference },
            some block)
        else
          ({ (block.ancestors.foldl (accept_ancestor_step block.reference) ([], s)).2 with
              missing_blocks := eraseRef (block.ancestors.foldl
                (accept_ancestor_step block.reference) ([], s)).2.missing_blocks
                block.reference,
              suspended_blocks := insertEntry (block.ancestors.foldl
                  (accept_ancestor_step block.reference) ([], s)).2.suspended_blocks
                block.reference
                ⟨block, (block.ancestors.foldl
                  (accept_ancestor_step block.reference) ([], s)).1⟩ },
            none)) := by
  unfold try_accept_one_block
  simp only [h1, h2, Bool.or_self, Bool.false_eq_true, if_false]

theorem try_accept_one_block_fresh (s : BlockManager) (block : Block)
    (h1 : memEntry s.suspended_blocks block.reference = false)
    (h2 : contains_block s.dag_state block.reference = false) :
    ∃ s', try_accept_one_block s block =
        (s', if (missingSet s block).isEmpty then some block else none) ∧
      s'.dag_state = s.dag_state ∧
      (∀ x, x ∈ s'.missing_blocks ↔
        (x ∈ s.missing_blocks ∨
          (x ∈ missingSet s block ∧ memEntry s.suspended_blocks x = false)) ∧
        ¬ x = block.reference) ∧
      (∀ k x, x ∈ childrenOf s' k ↔
        x ∈ childrenOf s k ∨ (k ∈ missingSet s block ∧ x = block.reference)) ∧
      ((missingSet s block).isEmpty = true → s'.suspended_blocks = s.suspended_blocks) ∧
      ((missingSet s block).isEmpty = false →
        (∀ k, ¬ k = block.reference → suspendedAt s' k = suspendedAt s k) ∧
        ∃ sb, suspendedAt s' block.reference = some sb ∧ sb.block = block ∧
          (∀ x, x ∈ sb.missing_ancestors ↔ x ∈ missingSet s block)) := by
  obtain ⟨i1, i2, i3, i4, i5⟩ :=
    accept_fold_spec block.reference block.ancestors [] s
  have hmemM : ∀ x, x ∈ (block.ancestors.foldl
      (accept_ancestor_step block.reference) ([], s)).1 ↔ x ∈ missingSet s block := by
    intro x
    rw [i3, mem_missingSet]
    simp
  have hie : (block.ancestors.foldl (accept_ancestor_step block.reference) ([], s)).1.isEmpty
      = (missingSet s block).isEmpty := isEmpty_eq_of_mem_iff hmemM
  rw [try_accept_one_block_eq s block h1 h2]
  by_cases hM : (missingSet s block).isEmpty = true
  · rw [hM] at hie
    rw [if_pos hie, if_pos hM]
    refine ⟨_, rfl, i1, ?_, ?_, fun _ => i2, fun hc => absurd hM (by simp [hc])⟩
    · intro x
      show x ∈ eraseRef _ _ ↔ _
      rw [mem_eraseRef, i4]
      constructor
      · rintro ⟨hx | hx, hne⟩
        · exact ⟨Or.inl hx, hne⟩
        · exact ⟨Or.inr ⟨mem_missingSet.mpr ⟨hx.1, hx.2.1⟩, hx.2.2⟩, hne⟩
      · rintro ⟨hx | hx, hne⟩
        · exact ⟨Or.inl hx, hne⟩
        · obtain ⟨ha, hc⟩ := mem_missingSet.mp hx.1
          exact ⟨Or.inr ⟨ha, hc, hx.2⟩, hne⟩
    · intro k x
      show x ∈ childrenOf _ k ↔ _
      have : childrenOf { (block.ancestors.foldl (accept_ancestor_step block.reference)
          ([], s)).2 with
            missing_blocks := eraseRef (block.ancestors.foldl
              (accept_ancestor_step block.reference) ([], s)).2.missing_blocks
              block.reference } k =
          childrenOf (block.ancestors.foldl (accept_ancestor_step block.reference)
            ([], s)).2 k := rfl
      rw [this, i5 k x]
      constructor
      · rintro (hx | hx)
        · exact Or.inl hx
        · exact Or.inr ⟨mem_missingSet.mpr ⟨hx.1, hx.2.1⟩, hx.2.2⟩
      · rintro (hx | hx)
        · exact Or.inl hx
        · obtain ⟨ha, hc⟩ := mem_missingSet.mp hx.1
          exact Or.inr ⟨ha, hc, hx.2⟩
  · have hM2 : (missingSet s block).isEmpty = false := by
      cases h : (missingSet s block).isEmpty
      · rfl
      · exact absurd h hM
    rw [hM2] at hie
    rw [if_neg (by simp [hie]), if_neg (by simp [hM2])]
    refine ⟨_, rfl, i1, ?_, ?_, fun hc => absurd hc (by simp [hM2]), fun _ => ⟨?_, ?_⟩⟩
    · intro x
      show x ∈ eraseRef _ _ ↔ _
      rw [mem_eraseRef, i4]
      constructor
      · rintro ⟨hx | hx, hne⟩
        · exact ⟨Or.inl hx, hne⟩
        · exact ⟨Or.inr ⟨mem_missingSet.mpr ⟨hx.1, hx.2.1⟩, hx.2.2⟩, hne⟩
      · rintro ⟨hx | hx, hne⟩
        · exact ⟨Or.inl hx, hne⟩
        · obtain ⟨ha, hc⟩ := mem_missingSet.mp hx.1
          exact ⟨Or.inr ⟨ha, hc, hx.2⟩, hne⟩
    · intro k x
      show x ∈ childrenOf _ k ↔ _
      have : childrenOf { (block.ancestors.foldl (accept_ancestor_step block.reference)
          ([], s)).2 with
            missing_blocks := eraseRef (block.ancestors.foldl
              (accept_ancestor_step block.reference) ([], s)).2.missing_blocks
              block.reference,
            suspended_blocks := insertEntry (block.ancestors.foldl
                (accept_ancestor_step block.reference) ([], s)).2.suspended_blocks
              block.reference
              ⟨block, (block.ancestors.foldl
                (accept_ancestor_step block.reference) ([], s)).1⟩ } k =
          childrenOf (block.ancestors.foldl (accept_ancestor_step block.reference)
            ([], s)).2 k := rfl
      rw [this, i5 k x]
      constructor
      · rintro (hx | hx)
        · exact Or.inl hx
        · exact Or.inr ⟨mem_missingSet.mpr ⟨hx.1, hx.2.1⟩, hx.2.2⟩
      · rintro (hx | hx)
        · exact Or.inl hx
        · obtain ⟨ha, hc⟩ := mem_missingSet.mp hx.1
          exact Or.inr ⟨ha, hc, hx.2⟩
    · intro k hk
      show findEntry (insertEntry _ _ _) k = _
      rw [findEntry_insertEntry, if_neg hk]
      show findEntry _ k = findEntry s.suspended_blocks k
      rw [show (block.ancestors.foldl (accept_ancestor_step block.reference)
        ([], s)).2.suspended_blocks = s.suspended_blocks from i2]
    · refine ⟨⟨block, (block.ancestors.foldl (accept_ancestor_step block.reference)
        ([], s)).1⟩, ?_, rfl, hmemM⟩
      show findEntry (insertEntry _ _ _) block.reference = _
      rw [findEntry_insertEntry, if_pos rfl]

/-! General facts about successful runs of the unsuspension sweep. -/

theorem try_unsuspend_block_ok {s : BlockManager} {r dep : BlockRef}
    {s1 : BlockManager} {out : Option SuspendedBlock}
    (h : try_unsuspend_block s r dep = .ok (s1, out)) :
    s1.dag_state = s.dag_state ∧ s1.missing_blocks = s.missing_blocks ∧
    s1.missing_ancestors = s.missing_ancestors ∧
    ∃ sb, suspendedAt s r = some sb ∧ dep ∈ sb.missing_ancestors ∧
      ((∃ sb2, out = some sb2 ∧ sb2.block = sb.block ∧
          sb2.missing_ancestors = eraseRef sb.missing_ancestors dep ∧
          (eraseRef sb.missing_ancestors dep).isEmpty = true ∧
          (∀ k, suspendedAt s1 k = if k = r then none else suspendedAt s k)) ∨
        (out = none ∧ (eraseRef sb.missing_ancestors dep).isEmpty = false ∧
          (∀ k, suspendedAt s1 k =
            if k = r then some ⟨sb.block, eraseRef sb.missing_ancestors dep⟩
            else suspendedAt s k))) := by
  unfold try_unsuspend_block at h
  cases hf : findEntry s.suspended_blocks r with
  | none => rw [hf] at h; cases h
  | some sb =>
    rw [hf] at h
    dsimp only at h
    by_cases hdep : dep ∈ sb.missing_ancestors
    · rw [if_pos hdep] at h
      by_cases hemp : (eraseRef sb.missing_ancestors dep).isEmpty = true
      · rw [if_pos hemp] at h
        obtain ⟨he1, he2⟩ := Prod.mk.injEq .. ▸ (PRes.ok.injEq _ _ ▸ h)
        refine ⟨by rw [← he1], by rw [← he1], by rw [← he1], sb, hf, hdep,
          Or.inl ⟨⟨sb.block, eraseRef sb.missing_ancestors dep⟩, he2.symm, rfl, rfl, hemp, ?_⟩⟩
        intro k
        rw [← he1]
        show findEntry (eraseEntry s.suspended_blocks r) k = _
        rw [findEntry_eraseEntry]
        rfl
      · rw [if_neg hemp] at h
        obtain ⟨he1, he2⟩ := Prod.mk.injEq .. ▸ (PRes.ok.injEq _ _ ▸ h)
        refine ⟨by rw [← he1], by rw [← he1], by rw [← he1], sb, hf, hdep,
          Or.inr ⟨he2.symm, by simpa using hemp, ?_⟩⟩
        intro k
        rw [← he1]
        show findEntry (insertEntry s.suspended_blocks r _) k = _
        rw [findEntry_insertEntry]
        rfl
    · rw [if_neg hdep] at h
      cases h

theorem process_children_ok_facts {dep : BlockRef} {children : List BlockRef}
    {s : BlockManager} {pushed : List Block} {uns : List SuspendedBlock}
    {s2 : BlockManager} {p2 : List Block} {u2 : List SuspendedBlock}
    (h : process_children dep s children pushed uns = .ok (s2, p2, u2)) :
    s2.dag_state = s.dag_state ∧ s2.missing_blocks = s.missing_blocks ∧
    s2.missing_ancestors = s.missing_ancestors ∧
    ∃ newUns, u2 = uns ++ newUns ∧ p2 = pushed ++ newUns.map SuspendedBlock.block ∧
      (∀ sb ∈ newUns, sb.missing_ancestors = [] ∧ ∃ k, k ∈ children ∧
        (∃ sbOld, suspendedAt s k = some sbOld ∧ sbOld.block = sb.block ∧
          dep ∈ sbOld.missing_ancestors) ∧ suspendedAt s2 k = none) ∧
      (∀ k, suspendedAt s k = none → suspendedAt s2 k = none) ∧
      (∀ k sb2, suspendedAt s2 k = some sb2 → ∃ sbOld, suspendedAt s k = some sbOld ∧
        sb2.block = sbOld.block ∧
        (∀ x, x ∈ sb2.missing_ancestors → x ∈ sbOld.missing_ancestors) ∧
        (∀ x, x ∈ sbOld.missing_ancestors → x ∈ sb2.missing_ancestors ∨ x = dep) ∧
        (sb2 = sbOld ∨ sb2.missing_ancestors.isEmpty = false)) := by
  induction children generalizing s pushed uns with
  | nil =>
    cases h
    refine ⟨rfl, rfl, rfl, [], by simp, by simp, by simp, fun k hk => hk, ?_⟩
    intro k sb2 h2
    exact ⟨sb2, h2, rfl, fun x hx => hx, fun x hx => Or.inl hx, Or.inl rfl⟩
  | cons r rest ih =>
    unfold process_children at h
    cases hu : try_unsuspend_block s r dep with
    | panicked => rw [hu] at h; cases h
    | fuelOut => rw [hu] at h; cases h
    | ok val =>
      obtain ⟨s1, out⟩ := val
      rw [hu] at h
      obtain ⟨f1, f2, f3, sb, hsb, hdep, hcases⟩ := try_unsuspend_block_ok hu
      rcases hcases with ⟨sb2, rfl, hb, hm, hemp, hkeys⟩ | ⟨rfl, hemp, hkeys⟩
      · obtain ⟨g1, g2, g3, newUns, hgu, hgp, hgmem, hgnone, hgsome⟩ := ih h
        refine ⟨g1.trans f1, g2.trans f2, g3.trans f3, sb2 :: newUns, ?_, ?_, ?_, ?_, ?_⟩
        · rw [hgu]; simp
        · rw [hgp]; simp
        · intro x hx
          rcases List.mem_cons.mp hx with rfl | hx
          · refine ⟨by rw [hm]; exact List.isEmpty_iff.mp hemp, r,
              List.mem_cons_self r rest, ⟨sb, hsb, hb.symm, hdep⟩, ?_⟩
            have hs1r : suspendedAt s1 r = none := by rw [hkeys r, if_pos rfl]
            exact hgnone r hs1r
          · obtain ⟨hmx, k, hk1, ⟨sbOld, hk2, hk3, hk4⟩, hk5⟩ := hgmem x hx
            by_cases hkr : k = r
            · subst hkr
              rw [hkeys k, if_pos rfl] at hk2
              cases hk2
            · rw [hkeys k, if_neg hkr] at hk2
              exact ⟨hmx, k, List.mem_cons_of_mem r hk1, ⟨sbOld, hk2, hk3, hk4⟩, hk5⟩
        · intro k hk
          refine hgnone k ?_
          rw [hkeys k]
          by_cases hkr : k = r
          · rw [if_pos hkr]
          · rw [if_neg hkr]; exact hk
        · intro k sbf hfk
          obtain ⟨sbMid, hmid1, hmid2, hmid3, hmid4, hmid5⟩ := hgsome k sbf hfk
          rw [hkeys k] at hmid1
          by_cases hkr : k = r
          · rw [if_pos hkr] at hmid1; cases hmid1
          · rw [if_neg hkr] at hmid1
            exact ⟨sbMid, hmid1, hmid2, hmid3, hmid4, hmid5⟩
      · obtain ⟨g1, g2, g3, newUns, hgu, hgp, hgmem, hgnone, hgsome⟩ := ih h
        refine ⟨g1.trans f1, g2.trans f2, g3.trans f3, newUns, hgu, hgp, ?_, ?_, ?_⟩
        · intro x hx
          obtain ⟨hmx, k, hk1, ⟨sbOld, hk2, hk3, hk4⟩, hk5⟩ := hgmem x hx
          by_cases hkr : k = r
          · subst hkr
            rw [hkeys k, if_pos rfl] at hk2
            have he : sbOld = ⟨sb.block, eraseRef sb.missing_ancestors dep⟩ :=
              (Option.some.inj hk2).symm
            refine ⟨hmx, k, List.mem_cons_self k rest, ⟨sb, hsb, ?_, hdep⟩, hk5⟩
            rw [← hk3, he]
          · rw [hkeys k, if_neg hkr] at hk2
            exact ⟨hmx, k, List.mem_cons_of_mem r hk1, ⟨sbOld, hk2, hk3, hk4⟩, hk5⟩
        · intro k hk
          refine hgnone k ?_
          rw [hkeys k]
          by_cases hkr : k = r
          · subst hkr
            rw [hsb] at hk
            cases hk
          · rw [if_neg hkr]; exact hk
        · intro k sbf hfk
          obtain ⟨sbMid, hmid1, hmid2, hmid3, hmid4, hmid5⟩ := hgsome k sbf hfk
          rw [hkeys k] at hmid1
          by_cases hkr : k = r
          · subst hkr
            rw [if_pos rfl] at hmid1
            have he : sbMid = ⟨sb.block, eraseRef sb.missing_ancestors dep⟩ :=
              (Option.some.inj hmid1).symm
            refine ⟨sb, hsb, by rw [hmid2, he], ?_, ?_, ?_⟩
            · intro x hx
              have := hmid3 x hx
              rw [he] at this
              exact eraseRef_sub this
            · intro x hx
              by_cases hxdep : x = dep
              · exact Or.inr hxdep
              · have hxe : x ∈ sbMid.missing_ancestors := by
                  rw [he]
                  exact mem_eraseRef.mpr ⟨hx, hxdep⟩
                rcases hmid4 x hxe with h5 | h5
                · exact Or.inl h5
                · exact Or.inr h5
            · rcases hmid5 with h5 | h5
              · rw [h5, he]
                right
                simpa using hemp
              · exact Or.inr h5
          · rw [if_neg hkr] at hmid1
            exact ⟨sbMid, hmid1, hmid2, hmid3, hmid4, hmid5⟩

theorem unsuspend_loop_ok_facts {fuel : Nat} {s : BlockManager} {stack : List Block}
    {uns : List SuspendedBlock} {s2 : BlockManager} {u2 : List SuspendedBlock}
    (h : unsuspend_loop fuel s stack uns = .ok (s2, u2)) :
    s2.dag_state = s.dag_state ∧ s2.missing_blocks = s.missing_blocks ∧
    (∀ k x, x ∈ childrenOf s2 k → x ∈ childrenOf s k) ∧
    ∃ newUns, u2 = uns ++ newUns ∧
      (∀ sb ∈ newUns, sb.missing_ancestors = [] ∧ ∃ k sbOld,
        suspendedAt s k = some sbOld ∧ sbOld.block = sb.block ∧
        suspendedAt s2 k = none) ∧
      (∀ k, suspendedAt s k = none → suspendedAt s2 k = none) ∧
      (∀ k sb2, suspendedAt s2 k = some sb2 → ∃ sbOld, suspendedAt s k = some sbOld ∧
        sb2.block = sbOld.block ∧
        (∀ x, x ∈ sb2.missing_ancestors → x ∈ sbOld.missing_ancestors) ∧
        (∀ x, x ∈ sbOld.missing_ancestors → x ∈ sb2.missing_ancestors ∨
          x ∈ stack.map Block.reference ∨
          x ∈ newUns.map (fun sb => sb.block.reference)) ∧
        (sb2 = sbOld ∨ sb2.missing_ancestors.isEmpty = false)) := by
  induction fuel generalizing s stack uns with
  | zero => cases h
  | succ fuel ih =>
    match stack with
    | [] =>
      cases h
      refine ⟨rfl, rfl, fun k x hx => hx, [], by simp, by simp, fun k hk => hk, ?_⟩
      intro k sb2 h2
      exact ⟨sb2, h2, rfl, fun x hx => hx, fun x hx => Or.inl hx, Or.inl rfl⟩
    | block :: rest =>
      rw [unsuspend_loop] at h
      cases hpc : process_children block.reference
          { s with missing_ancestors := eraseEntry s.missing_ancestors block.reference }
          ((findEntry s.missing_ancestors block.reference).getD []) [] uns with
      | panicked => rw [hpc] at h; cases h
      | fuelOut => rw [hpc] at h; cases h
      | ok val =>
        obtain ⟨sMid, pushed, unsMid⟩ := val
        rw [hpc] at h
        obtain ⟨p1, p2, p3, pcNew, hpcu, hpcp, hpcmem, hpcnone, hpcsome⟩ :=
          process_children_ok_facts hpc
        obtain ⟨l1, l2, l3, recNew, hrecu, hrecmem, hrecnone, hrecsome⟩ := ih h
        have hsusp1 : ∀ k, suspendedAt
            { s with missing_ancestors := eraseEntry s.missing_ancestors block.reference } k =
            suspendedAt s k := fun _ => rfl
        have hch1 : ∀ k x, x ∈ childrenOf
            { s with missing_ancestors := eraseEntry s.missing_ancestors block.reference } k →
            x ∈ childrenOf s k := by
          intro k x hx
          have hx2 : x ∈ (findEntry (eraseEntry s.missing_ancestors block.reference) k).getD
              [] := hx
          rw [findEntry_eraseEntry] at hx2
          by_cases hk : k = block.reference
          · rw [if_pos hk] at hx2
            simp at hx2
          · rw [if_neg hk] at hx2
            exact hx2
        have hchMid : ∀ k x, x ∈ childrenOf sMid k → x ∈ childrenOf s k := by
          intro k x hx
          refine hch1 k x ?_
          unfold childrenOf at hx ⊢
          rw [← p3]
          exact hx
        refine ⟨l1.trans (p1.trans rfl), l2.trans (p2.trans rfl), ?_,
          pcNew ++ recNew, ?_, ?_, ?_, ?_⟩
        · intro k x hx
          exact hchMid k x (l3 k x hx)
        · rw [hrecu, hpcu]
          simp
        · intro sb hsb
          rcases List.mem_append.mp hsb with hsb | hsb
          · obtain ⟨hmx, k, _hk1, ⟨sbOld, hk2, hk3, _hk4⟩, hk5⟩ := hpcmem sb hsb
            rw [hsusp1 k] at hk2
            exact ⟨hmx, k, sbOld, hk2, hk3, hrecnone k hk5⟩
          · obtain ⟨hmx, k, sbOld2, hk2, hk3, hk5⟩ := hrecmem sb hsb
            obtain ⟨sbOld, hk6, hk7, _, _, _⟩ := hpcsome k sbOld2 hk2
            rw [hsusp1 k] at hk6
            exact ⟨hmx, k, sbOld, hk6, hk7.symm.trans hk3, hk5⟩
        · intro k hk
          refine hrecnone k (hpcnone k ?_)
          rw [hsusp1 k]
          exact hk
        · intro k sbf hf
          obtain ⟨sbMid, hm1, hm2, hm3, hm4, hm5⟩ := hrecsome k sbf hf
          obtain ⟨sbOld, ho1, ho2, ho3, ho4, ho5⟩ := hpcsome k sbMid hm1
          rw [hsusp1 k] at ho1
          refine ⟨sbOld, ho1, by rw [hm2, ho2], ?_, ?_, ?_⟩
          · intro x hx
            exact ho3 x (hm3 x hx)
          · intro x hx
            rcases ho4 x hx with hx2 | hx2
            · rcases hm4 x hx2 with hx3 | hx3 | hx3
              · exact Or.inl hx3
              · rcases List.mem_map.mp hx3 with ⟨bl, hbl1, hbl2⟩
                rcases List.mem_append.mp hbl1 with hbl3 | hbl3
                · have hblp : bl ∈ pushed := List.mem_reverse.mp hbl3
                  rw [hpcp] at hblp
                  simp only [List.nil_append] at hblp
                  rcases List.mem_map.mp hblp with ⟨sbp, hsbp1, hsbp2⟩
                  exact Or.inr (Or.inr (List.mem_map.mpr
                    ⟨sbp, List.mem_append.mpr (Or.inl hsbp1), by rw [hsbp2, hbl2]⟩))
                · exact Or.inr (Or.inl (List.mem_map.mpr
                    ⟨bl, List.mem_cons_of_mem _ hbl3, hbl2⟩))
              · rcases List.mem_map.mp hx3 with ⟨sbr, hsbr1, hsbr2⟩
                exact Or.inr (Or.inr (List.mem_map.mpr
                  ⟨sbr, List.mem_append.mpr (Or.inr hsbr1), hsbr2⟩))
            · rw [hx2]
              exact Or.inr (Or.inl (List.mem_map.mpr ⟨block, List.mem_cons_self _ _, rfl⟩))
          · rcases hm5 with h5 | h5
            · rcases ho5 with h6 | h6
              · exact Or.inl (h5.trans h6)
              · right
                rw [h5]
                exact h6
            · exact Or.inr h5

/-! Facts about the verification sweep. -/

theorem memEntry_insertEntry {α : Type} (m : List (BlockRef × α)) (k k2 : BlockRef) (v : α) :
    memEntry (insertEntry m k v) k2 = true ↔ k2 = k ∨ memEntry m k2 = true := by
  rw [memEntry_iff, memEntry_iff]
  rw [findEntry_insertEntry]
  by_cases h : k2 = k
  · simp [h]
  · simp [h]

theorem mem_insertEntry_sub {α : Type} {m : List (BlockRef × α)} {k : BlockRef} {v : α}
    {p : BlockRef × α} (h : p ∈ insertEntry m k v) : p = (k, v) ∨ p ∈ m := by
  rcases List.mem_cons.mp h with h | h
  · exact Or.inl h
  · exact Or.inr ((List.mem_filter.mp h).1)

theorem keys_insertEntry_nodup {α : Type} {m : List (BlockRef × α)} (k : BlockRef) (v : α)
    (h : (m.map Prod.fst).Nodup) : ((insertEntry m k v).map Prod.fst).Nodup := by
  rw [insertEntry, List.map_cons, List.nodup_cons]
  constructor
  · intro hk
    rcases List.mem_map.mp hk with ⟨p, hp, hpk⟩
    have := (List.mem_filter.mp hp).2
    rw [hpk] at this
    simp at this
  · exact List.Nodup.sublist ((List.filter_sublist m).map Prod.fst) h

theorem resolve_ancestors_some {dag : DagState} {acc rej : List (BlockRef × Block)}
    {ancl : List BlockRef} {l : List Block}
    (h : resolve_ancestors dag acc rej ancl = .ok (some l)) :
    ∀ a ∈ ancl, contains_block dag a = true ∨ memEntry acc a = true := by
  induction ancl generalizing l with
  | nil => intro a ha; cases ha
  | cons a0 rest ih =>
    intro a ha
    unfold resolve_ancestors at h
    rcases List.mem_cons.mp ha with rfl | ha
    · cases hg : get_block dag a with
      | some found =>
        left
        rw [contains_block_eq_isSome, hg]
        rfl
      | none =>
        rw [hg] at h
        cases hfe : findEntry acc a with
        | some found =>
          right
          rw [memEntry_iff]
          exact ⟨found, hfe⟩
        | none =>
          rw [hfe] at h
          by_cases hr : memEntry rej a = true
          · rw [if_pos hr] at h; cases h
          · rw [if_neg hr] at h; cases h
    · cases hg : get_block dag a0 with
      | some found =>
        rw [hg] at h
        cases hrec : resolve_ancestors dag acc rej rest with
        | ok o =>
          cases o with
          | some l2 => exact ih hrec a ha
          | none => rw [hrec] at h; cases h
        | panicked => rw [hrec] at h; cases h
        | fuelOut => rw [hrec] at h; cases h
      | none =>
        rw [hg] at h
        cases hfe : findEntry acc a0 with
        | some found =>
          rw [hfe] at h
          cases hrec : resolve_ancestors dag acc rej rest with
          | ok o =>
            cases o with
            | some l2 => exact ih hrec a ha
            | none => rw [hrec] at h; cases h
          | panicked => rw [hrec] at h; cases h
          | fuelOut => rw [hrec] at h; cases h
        | none =>
          rw [hfe] at h
          by_cases hr : memEntry rej a0 = true
          · rw [if_pos hr] at h; cases h
          · rw [if_neg hr] at h; cases h

theorem verify_loop_facts {check : Block → List Block → Bool} {dag : DagState}
    {L : List Block} {acc0 rej0 acc rej : List (BlockRef × Block)}
    (h : verify_loop check dag L acc0 rej0 = .ok (acc, rej)) :
    (∀ k, memEntry acc0 k = true → memEntry acc k = true) ∧
    (∀ k, memEntry rej0 k = true → memEntry rej k = true) ∧
    (∀ p, p ∈ acc → p ∈ acc0 ∨ (p.2 ∈ L ∧ p.1 = p.2.reference ∧
      (∃ ancs, check p.2 ancs = true) ∧
      (∀ a ∈ p.2.ancestors, contains_block dag a = true ∨ memEntry acc a = true))) ∧
    (∀ p, p ∈ rej → p ∈ rej0 ∨ (p.2 ∈ L ∧ p.1 = p.2.reference)) ∧
    (∀ b ∈ L, memEntry acc b.reference = true ∨ memEntry rej b.reference = true) ∧
    (∀ k, memEntry acc k = true →
      memEntry acc0 k = true ∨ ∃ b ∈ L, b.reference = k) ∧
    (∀ k, memEntry rej k = true →
      memEntry rej0 k = true ∨ ∃ b ∈ L, b.reference = k) ∧
    ((acc0.map Prod.fst).Nodup → (acc.map Prod.fst).Nodup) := by
  induction L generalizing acc0 rej0 with
  | nil =>
    cases h
    refine ⟨fun k hk => hk, fun k hk => hk, fun p hp => Or.inl hp, fun p hp => Or.inl hp,
      fun b hb => absurd hb (List.not_mem_nil b), fun k hk => Or.inl hk,
      fun k hk => Or.inl hk, fun hn => hn⟩
  | cons b0 rest ih =>
    unfold verify_loop at h
    cases hres : resolve_ancestors dag acc0 rej0 b0.ancestors with
    | panicked => rw [hres] at h; cases h
    | fuelOut => rw [hres] at h; cases h
    | ok o =>
      rw [hres] at h
      have hstep : ∀ {acc1 rej1 : List (BlockRef × Block)},
          verify_loop check dag rest acc1 rej1 = .ok (acc, rej) →
          (p : Unit) → True := fun _ _ => trivial
      cases o with
      | none =>
        obtain ⟨m1, m2, m3, m4, m5, m6, m7, m8⟩ := ih h
        refine ⟨m1, ?_, ?_, ?_, ?_, ?_, ?_, m8⟩
        · intro k hk
          refine m2 k ?_
          rw [memEntry_insertEntry]
          exact Or.inr hk
        · intro p hp
          rcases m3 p hp with hp | hp
          · exact Or.inl hp
          · exact Or.inr ⟨List.mem_cons_of_mem b0 hp.1, hp.2⟩
        · intro p hp
          rcases m4 p hp with hp | hp
          · rcases mem_insertEntry_sub hp with rfl | hp
            · exact Or.inr ⟨List.mem_cons_self b0 rest, rfl⟩
            · exact Or.inl hp
          · exact Or.inr ⟨List.mem_cons_of_mem b0 hp.1, hp.2⟩
        · intro b hb
          rcases List.mem_cons.mp hb with rfl | hb
          · refine Or.inr (m2 b.reference ?_)
            rw [memEntry_insertEntry]
            exact Or.inl rfl
          · exact m5 b hb
        · intro k hk
          rcases m6 k hk with hk | ⟨b, hb, hbk⟩
          · exact Or.inl hk
          · exact Or.inr ⟨b, List.mem_cons_of_mem b0 hb, hbk⟩
        · intro k hk
          rcases m7 k hk with hk | ⟨b, hb, hbk⟩
          · rw [memEntry_insertEntry] at hk
            rcases hk with rfl | hk
            · exact Or.inr ⟨b0, List.mem_cons_self b0 rest, rfl⟩
            · exact Or.inl hk
          · exact Or.inr ⟨b, List.mem_cons_of_mem b0 hb, hbk⟩
      | some ancestor_blocks =>
        clear hstep
        dsimp only at h
        by_cases hchk : check b0 ancestor_blocks = true
        · rw [if_pos hchk] at h
          obtain ⟨m1, m2, m3, m4, m5, m6, m7, m8⟩ := ih h
          have hsub : ∀ k, memEntry acc0 k = true → memEntry acc k = true := by
            intro k hk
            refine m1 k ?_
            rw [memEntry_insertEntry]
            exact Or.inr hk
          refine ⟨hsub, m2, ?_, ?_, ?_, ?_, ?_, ?_⟩
          · intro p hp
            rcases m3 p hp with hp | hp
            · rcases mem_insertEntry_sub hp with rfl | hp
              · refine Or.inr ⟨List.mem_cons_self b0 rest, rfl, ⟨ancestor_blocks, hchk⟩, ?_⟩
                intro a ha
                rcases resolve_ancestors_some hres a ha with hc | hc
                · exact Or.inl hc
                · exact Or.inr (hsub a hc)
              · exact Or.inl hp
            · exact Or.inr ⟨List.mem_cons_of_mem b0 hp.1, hp.2⟩
          · intro p hp
            rcases m4 p hp with hp | hp
            · exact Or.inl hp
            · exact Or.inr ⟨List.mem_cons_of_mem b0 hp.1, hp.2⟩
          · intro b hb
            rcases List.mem_cons.mp hb with rfl | hb
            · refine Or.inl (m1 b.reference ?_)
              rw [memEntry_insertEntry]
              exact Or.inl rfl
            · exact m5 b hb
          · intro k hk
            rcases m6 k hk with hk | ⟨b, hb, hbk⟩
            · rw [memEntry_insertEntry] at hk
              rcases hk with rfl | hk
              · exact Or.inr ⟨b0, List.mem_cons_self b0 rest, rfl⟩
              · exact Or.inl hk
            · exact Or.inr ⟨b, List.mem_cons_of_mem b0 hb, hbk⟩
          · intro k hk
            rcases m7 k hk with hk | ⟨b, hb, hbk⟩
            · exact Or.inl hk
            · exact Or.inr ⟨b, List.mem_cons_of_mem b0 hb, hbk⟩
          · intro hn
            exact m8 (keys_insertEntry_nodup _ _ hn)
        · rw [if_neg hchk] at h
          obtain ⟨m1, m2, m3, m4, m5, m6, m7, m8⟩ := ih h
          refine ⟨m1, ?_, ?_, ?_, ?_, ?_, ?_, m8⟩
          · intro k hk
            refine m2 k ?_
            rw [memEntry_insertEntry]
            exact Or.inr hk
          · intro p hp
            rcases m3 p hp with hp | hp
            · exact Or.inl hp
            · exact Or.inr ⟨List.mem_cons_of_mem b0 hp.1, hp.2⟩
          · intro p hp
            rcases m4 p hp with hp | hp
            · rcases mem_insertEntry_sub hp with rfl | hp
              · exact Or.inr ⟨List.mem_cons_self b0 rest, rfl⟩
              · exact Or.inl hp
            · exact Or.inr ⟨List.mem_cons_of_mem b0 hp.1, hp.2⟩
          · intro b hb
            rcases List.mem_cons.mp hb with rfl | hb
            · refine Or.inr (m2 b.reference ?_)
              rw [memEntry_insertEntry]
              exact Or.inl rfl
            · exact m5 b hb
          · intro k hk
            rcases m6 k hk with hk | ⟨b, hb, hbk⟩
            · exact Or.inl hk
            · exact Or.inr ⟨b, List.mem_cons_of_mem b0 hb, hbk⟩
          · intro k hk
            rcases m7 k hk with hk | ⟨b, hb, hbk⟩
            · rw [memEntry_insertEntry] at hk
              rcases hk with rfl | hk
              · exact Or.inr ⟨b0, List.mem_cons_self b0 rest, rfl⟩
              · exact Or.inl hk
            · exact Or.inr ⟨b, List.mem_cons_of_mem b0 hb, hbk⟩

/-! Facts about `sortB`, `sortedValues` and the dag batch insertion. -/

theorem sortB_perm (le : α → α → Bool) (l : List α) : (sortB le l).Perm l :=
  List.perm_insertionSort _ l

theorem sortB_sorted (le : α → α → Bool)
    (htot : ∀ a b, le a b = true ∨ le b a = true)
    (htr : ∀ a b c, le a b = true → le b c = true → le a c = true) (l : List α) :
    (sortB le l).Pairwise (fun a b => le a b = true) := by
  haveI : IsTotal α (fun a b => le a b = true) := ⟨htot⟩
  haveI : IsTrans α (fun a b => le a b = true) := ⟨fun a b c => htr a b c⟩
  exact List.sorted_insertionSort _ l

theorem sortB_of_sorted {le : α → α → Bool} {l : List α}
    (h : l.Pairwise (fun a b => le a b = true)) : sortB le l = l :=
  List.Sorted.insertionSort_eq h

theorem sortedValues_perm (m : List (BlockRef × Block)) :
    (sortedValues m).Perm (m.map Prod.snd) :=
  List.Perm.map Prod.snd (sortB_perm _ m)

theorem mem_sortedValues {m : List (BlockRef × Block)} {v : Block} :
    v ∈ sortedValues m ↔ ∃ p ∈ m, p.2 = v := by
  rw [(sortedValues_perm m).mem_iff, List.mem_map]

theorem sortedValues_refs_nodup {m : List (BlockRef × Block)}
    (hk : ∀ p ∈ m, p.2.reference = p.1) (hnd : (m.map Prod.fst).Nodup) :
    ((sortedValues m).map Block.reference).Nodup := by
  have hperm : ((sortedValues m).map Block.reference).Perm
      ((m.map Prod.snd).map Block.reference) := (sortedValues_perm m).map _
  have heq : (m.map Prod.snd).map Block.reference = m.map Prod.fst := by
    rw [List.map_map]
    exact List.map_congr_left hk
  have hperm2 : ((sortedValues m).map Block.reference).Perm (m.map Prod.fst) := by
    rw [← heq]
    exact hperm
  exact hperm2.symm.nodup hnd

theorem sortedValues_sorted (m : List (BlockRef × Block))
    (hk : ∀ p ∈ m, p.2.reference = p.1) :
    (sortedValues m).Pairwise (fun x y => refLE x.reference y.reference = true) := by
  have hs := sortB_sorted (fun p q : BlockRef × Block => refLE p.1 q.1)
    (fun a b => refLE_total a.1 b.1)
    (fun a b c hab hbc => refLE_trans hab hbc) m
  unfold sortedValues
  rw [List.pairwise_map]
  refine hs.imp_of_mem ?_
  intro p q hp hq hpq
  have hp2 := hk p ((sortB_perm _ m).mem_iff.mp hp)
  have hq2 := hk q ((sortB_perm _ m).mem_iff.mp hq)
  rw [hp2, hq2]
  exact hpq

theorem contains_accept_block (d : DagState) (b : Block) (r : BlockRef) :
    contains_block (accept_block d b) r = true ↔
      contains_block d r = true ∨ b.reference = r := by
  unfold accept_block
  by_cases h : contains_block d b.reference = true
  · rw [if_pos h]
    constructor
    · exact Or.inl
    · rintro (hh | hh)
      · exact hh
      · rw [← hh]
        exact h
  · rw [if_neg h]
    unfold contains_block
    rw [List.any_append]
    simp [contains_block]

theorem contains_accept_blocks (d : DagState) (bs : List Block) (r : BlockRef) :
    contains_block (accept_blocks d bs) r = true ↔
      contains_block d r = true ∨ ∃ b ∈ bs, b.reference = r := by
  induction bs generalizing d with
  | nil => simp [accept_blocks]
  | cons b rest ih =>
    show contains_block (accept_blocks (accept_block d b) rest) r = true ↔ _
    rw [ih, contains_accept_block]
    constructor
    · rintro ((hh | hh) | ⟨c, hc1, hc2⟩)
      · exact Or.inl hh
      · exact Or.inr ⟨b, List.mem_cons_self b rest, hh⟩
      · exact Or.inr ⟨c, List.mem_cons_of_mem b hc1, hc2⟩
    · rintro (hh | ⟨c, hc1, hc2⟩)
      · exact Or.inl (Or.inl hh)
      · rcases List.mem_cons.mp hc1 with rfl | hc1
        · exact Or.inl (Or.inr hc2)
        · exact Or.inr ⟨c, hc1, hc2⟩

theorem mem_accept_blocks {d : DagState} {bs : List Block} {x : Block} :
    x ∈ accept_blocks d bs → x ∈ d ∨ x ∈ bs := by
  induction bs generalizing d with
  | nil => exact fun h => Or.inl h
  | cons b rest ih =>
    intro h
    rcases ih h with h | h
    · unfold accept_block at h
      by_cases hc : contains_block d b.reference = true
      · rw [if_pos hc] at h
        exact Or.inl h
      · rw [if_neg hc] at h
        rcases List.mem_append.mp h with h | h
        · exact Or.inl h
        · rw [List.mem_singleton.mp h]
          exact Or.inr (List.mem_cons_self b rest)
    · exact Or.inr (List.mem_cons_of_mem b h)

theorem mem_accept_blocks_mono {d : DagState} {bs : List Block} {x : Block}
    (h : x ∈ d) : x ∈ accept_blocks d bs := by
  induction bs generalizing d with
  | nil => exact h
  | cons b rest ih =>
    refine ih ?_
    unfold accept_block
    by_cases hc : contains_block d b.reference = true
    · rw [if_pos hc]
      exact h
    · rw [if_neg hc]
      exact List.mem_append.mpr (Or.inl h)

theorem findEntry_mem {α : Type} {m : List (BlockRef × α)} {k : BlockRef} {v : α}
    (h : findEntry m k = some v) : (k, v) ∈ m := by
  unfold findEntry at h
  cases hf : m.find? (fun p => decide (p.1 = k)) with
  | none => rw [hf] at h; cases h
  | some p =>
    rw [hf] at h
    have hp1b := List.find?_some hf
    have hp1 : p.1 = k := by simpa using hp1b
    have hp2 : p.2 = v := Option.some.inj h
    have hpe : p = (k, v) := by
      cases p
      simp only [Prod.mk.injEq]
      exact ⟨hp1, hp2⟩
    rw [← hpe]
    exact List.mem_of_find?_eq_some hf

/-- Reachable-state invariant of the BlockManager: refs reported missing are
    not suspended; every suspended entry has a non-empty missing set, is not
    in the dag, and is stored under its block's reference. -/
def GoodState (s : BlockManager) : Prop :=
  (∀ x, x ∈ s.missing_blocks → suspendedAt s x = none) ∧
  (∀ k sb, suspendedAt s k = some sb → sb.missing_ancestors ≠ [] ∧
    contains_block s.dag_state k = false ∧ sb.block.reference = k)

theorem GoodState_new (d : DagState) : GoodState (BlockManager.new d) := by
  constructor
  · intro x hx
    cases hx
  · intro k sb hk
    cases hk

theorem accept_iteration_facts {check : Block → List Block → Bool} {s : BlockManager}
    {block : Block} {s3 : BlockManager} {out : List Block}
    (hG : GoodState s)
    (h : accept_iteration check s block = .ok (s3, out)) :
    GoodState s3 ∧
    (out.map Block.reference).Nodup ∧
    (∀ x ∈ out, contains_block s.dag_state x.reference = false) ∧
    (∀ x ∈ out, contains_block s3.dag_state x.reference = true) ∧
    (∀ r, contains_block s.dag_state r = true → contains_block s3.dag_state r = true) ∧
    (∀ x ∈ out, ∃ ancs, check x ancs = true) ∧
    (∀ x ∈ out, ∀ a ∈ x.ancestors, contains_block s.dag_state a = true ∨
      ∃ y ∈ out, y.reference = a) ∧
    out.Pairwise (fun x y => refLE x.reference y.reference = true) ∧
    (∀ x ∈ out, x = block ∨ ∃ sbOld k, suspendedAt s k = some sbOld ∧ sbOld.block = x) ∧
    (∀ x ∈ s3.missing_blocks, x ∈ s.missing_blocks ∨ x ∈ missingSet s block) ∧
    (∀ b2, b2 ∈ s3.dag_state → b2 ∈ s.dag_state ∨ b2 ∈ out) ∧
    (∀ k sb, suspendedAt s3 k = some sb →
      (∃ sbOld k2, suspendedAt s k2 = some sbOld ∧ sbOld.block = sb.block) ∨
      sb.block = block) := by
  unfold accept_iteration at h
  by_cases hseen : memEntry s.suspended_blocks block.reference = true ∨
      contains_block s.dag_state block.reference = true
  · rw [try_accept_one_block_seen s block hseen] at h
    cases h
    refine ⟨hG, by simp, by simp, by simp, fun r hr => hr, by simp, by simp, by simp,
      by simp, fun x hx => Or.inl hx, fun b2 hb2 => Or.inl hb2,
      fun k sb hk => Or.inl ⟨sb, k, hk, rfl⟩⟩
  · push_neg at hseen
    have h1 : memEntry s.suspended_blocks block.reference = false := by
      cases hh : memEntry s.suspended_blocks block.reference
      · rfl
      · exact absurd hh hseen.1
    have h2 : contains_block s.dag_state block.reference = false := by
      cases hh : contains_block s.dag_state block.reference
      · rfl
      · exact absurd hh hseen.2
    obtain ⟨s1, he, hdag1, hmiss1, hch1, hsusE, hsusN⟩ :=
      try_accept_one_block_fresh s block h1 h2
    rw [he] at h
    by_cases hM : (missingSet s block).isEmpty = true
    · -- the block is tentatively accepted and the sweep runs
      rw [if_pos hM] at h
      dsimp only at h
      have hsus1 : s1.suspended_blocks = s.suspended_blocks := hsusE hM
      cases hun : try_unsuspend_children_blocks s1 block with
      | panicked => rw [hun] at h; cases h
      | fuelOut => rw [hun] at h; cases h
      | ok v2 =>
        obtain ⟨s2, unsuspended⟩ := v2
        rw [hun] at h
        dsimp only at h
        unfold try_unsuspend_children_blocks at hun
        cases hloop : unsuspend_loop (s1.suspended_blocks.length + 2) s1 [block] [] with
        | panicked => rw [hloop] at hun; cases hun
        | fuelOut => rw [hloop] at hun; cases hun
        | ok v3 =>
          obtain ⟨s2b, uns⟩ := v3
          rw [hloop] at hun
          have hs2 : s2b = s2 ∧ unsuspended = uns.map SuspendedBlock.block := by
            cases hun
            exact ⟨rfl, rfl⟩
          obtain ⟨rfl, rfl⟩ := hs2
          obtain ⟨ldag, lmiss, lch, newUns, hlu, hlmem, hlnone, hlsome⟩ :=
            unsuspend_loop_ok_facts hloop
          rw [List.nil_append] at hlu
          subst hlu
          have hsusAt1 : ∀ k, suspendedAt s1 k = suspendedAt s k := by
            intro k
            unfold suspendedAt
            rw [hsus1]
          cases hver : verify_loop check s2b.dag_state
              (block :: uns.map SuspendedBlock.block) [] [] with
          | panicked => rw [hver] at h; cases h
          | fuelOut => rw [hver] at h; cases h
          | ok v4 =>
            obtain ⟨to_accept, to_reject⟩ := v4
            rw [hver] at h
            cases h
            obtain ⟨v1, v2, v3, v4, v5, v6, v7, v8⟩ := verify_loop_facts hver
            have hkeyref : ∀ p ∈ to_accept, p.2.reference = p.1 := by
              intro p hp
              rcases v3 p hp with hp | hp
              · cases hp
              · exact hp.2.1.symm
            have hdag2 : s2b.dag_state = s.dag_state := ldag.trans hdag1
            have horigin : ∀ x, x ∈ sortedValues to_accept →
                x = block ∨ ∃ sbOld k, suspendedAt s k = some sbOld ∧
                  sbOld.block = x ∧ suspendedAt s2b k = none := by
              intro x hx
              obtain ⟨p, hp, hpv⟩ := mem_sortedValues.mp hx
              rcases v3 p hp with hp2 | hp2
              · cases hp2
              · rcases List.mem_cons.mp hp2.1 with hx2 | hx2
                · left
                  rw [← hpv, hx2]
                · right
                  rcases List.mem_map.mp hx2 with ⟨sb, hsb, hsbx⟩
                  obtain ⟨_, k, sbOld, hk1, hk2, hk3⟩ := hlmem sb hsb
                  rw [hsusAt1 k] at hk1
                  exact ⟨sbOld, k, hk1, by rw [hk2, hsbx, hpv], hk3⟩
            have hfresh : ∀ x, x ∈ sortedValues to_accept →
                contains_block s.dag_state x.reference = false := by
              intro x hx
              rcases horigin x hx with rfl | ⟨sbOld, k, hk1, hk2, _⟩
              · exact h2
              · have hc := (hG.2 k sbOld hk1).2.1
                have hkr : x.reference = k := by
                  rw [← hk2]
                  exact (hG.2 k sbOld hk1).2.2
                rw [hkr]
                exact hc
            have hout_not_susp : ∀ x, x ∈ sortedValues to_accept →
                ∀ k2 sbf, suspendedAt s2b k2 = some sbf → ¬ x.reference = k2 := by
              intro x hx k2 sbf hk2 hxr
              rcases horigin x hx with rfl | ⟨sbOld, k, hk1, hk2b, hk3⟩
              · -- the head block was not suspended
                obtain ⟨sbOld, ho1, _, _, _, _⟩ := hlsome k2 sbf hk2
                rw [hsusAt1 k2, ← hxr] at ho1
                unfold suspendedAt at ho1
                rw [memEntry_eq_false.mp h1] at ho1
                cases ho1
              · -- an unsuspended block's key is gone from the suspended map
                have hrefk : x.reference = k := by
                  rw [← hk2b]
                  exact (hG.2 k sbOld hk1).2.2
                rw [hrefk] at hxr
                rw [← hxr] at hk2
                rw [hk3] at hk2
                cases hk2
            refine ⟨?_, ?_, hfresh, ?_, ?_, ?_, ?_, ?_, ?_, ?_, ?_, ?_⟩
            · constructor
              · intro x hx
                have hx1 : x ∈ s1.missing_blocks := by
                  have hmm : s2b.missing_blocks = s1.missing_blocks := lmiss
                  rw [← hmm]
                  exact hx
                obtain ⟨hx2, hx3⟩ := (hmiss1 x).mp hx1
                have hxs : suspendedAt s x = none := by
                  rcases hx2 with hx2 | hx2
                  · exact hG.1 x hx2
                  · exact memEntry_eq_false.mp hx2.2
                have hxs1 : suspendedAt s1 x = none := by
                  rw [hsusAt1 x]
                  exact hxs
                exact hlnone x hxs1
              · intro k sb hk
                obtain ⟨sbOld, ho1, ho2, _, _, ho5⟩ := hlsome k sb hk
                rw [hsusAt1 k] at ho1
                obtain ⟨hne, hcon, href⟩ := hG.2 k sbOld ho1
                refine ⟨?_, ?_, by rw [ho2]; exact href⟩
                · rcases ho5 with h5 | h5
                  · rw [h5]
                    exact hne
                  · intro hc
                    rw [hc] at h5
                    cases h5
                · show contains_block (accept_blocks s2b.dag_state (sortedValues to_accept))
                    k = false
                  rw [Bool.eq_false_iff]
                  intro hc
                  rcases (contains_accept_blocks _ _ _).mp hc with hc2 | ⟨y, hy1, hy2⟩
                  · rw [hdag2, hcon] at hc2
                    cases hc2
                  · exact hout_not_susp y hy1 k sb hk hy2
            · exact sortedValues_refs_nodup hkeyref (v8 (by simp))
            · intro x hx
              exact (contains_accept_blocks _ _ _).mpr (Or.inr ⟨x, hx, rfl⟩)
            · intro r hr
              refine (contains_accept_blocks _ _ _).mpr (Or.inl ?_)
              rw [hdag2]
              exact hr
            · intro x hx
              obtain ⟨p, hp, hpv⟩ := mem_sortedValues.mp hx
              rcases v3 p hp with hp2 | hp2
              · cases hp2
              · obtain ⟨ancs, hancs⟩ := hp2.2.2.1
                exact ⟨ancs, by rw [← hpv]; exact hancs⟩
            · intro x hx a ha
              obtain ⟨p, hp, hpv⟩ := mem_sortedValues.mp hx
              rcases v3 p hp with hp2 | hp2
              · cases hp2
              · have hres := hp2.2.2.2 a (by rw [hpv]; exact ha)
                rcases hres with hres | hres
                · left
                  rw [← hdag2]
                  exact hres
                · right
                  obtain ⟨v, hv⟩ := memEntry_iff.mp hres
                  refine ⟨v, mem_sortedValues.mpr ⟨(a, v), findEntry_mem hv, rfl⟩, ?_⟩
                  exact hkeyref (a, v) (findEntry_mem hv)
            · exact sortedValues_sorted to_accept hkeyref
            · intro x hx
              rcases horigin x hx with hx2 | ⟨sbOld, k, hk1, hk2, _⟩
              · exact Or.inl hx2
              · exact Or.inr ⟨sbOld, k, hk1, hk2⟩
            · intro x hx
              have hx1 : x ∈ s1.missing_blocks := by
                have hmm : s2b.missing_blocks = s1.missing_blocks := lmiss
                rw [← hmm]
                exact hx
              obtain ⟨hx2, _⟩ := (hmiss1 x).mp hx1
              rcases hx2 with hx2 | hx2
              · exact Or.inl hx2
              · exact Or.inr hx2.1
            · intro b2 hb2
              rcases mem_accept_blocks hb2 with hb2 | hb2
              · left
                rw [← hdag2]
                exact hb2
              · exact Or.inr hb2
            · intro k sb hk
              obtain ⟨sbOld, ho1, ho2, _, _, _⟩ := hlsome k sb hk
              rw [hsusAt1 k] at ho1
              exact Or.inl ⟨sbOld, k, ho1, ho2.symm⟩
    · -- the block is suspended; nothing is accepted this iteration
      have hM2 : (missingSet s block).isEmpty = false := by
        cases hh : (missingSet s block).isEmpty
        · rfl
        · exact absurd hh hM
      rw [hM2] at h
      simp only [Bool.false_eq_true, if_false] at h
      cases h
      obtain ⟨hkeep, sbNew, hsbNew, hsbBlock, hsbMem⟩ := hsusN hM2
      have hMne : missingSet s block ≠ [] := by
        intro hc
        rw [hc] at hM2
        cases hM2
      obtain ⟨y, hy⟩ := List.exists_mem_of_ne_nil _ hMne
      refine ⟨?_, by simp, by simp, by simp, ?_, by simp, by simp, by simp, by simp,
        ?_, ?_, ?_⟩
      · constructor
        · intro x hx
          obtain ⟨hx2, hx3⟩ := (hmiss1 x).mp hx
          rw [hkeep x hx3]
          rcases hx2 with hx2 | hx2
          · exact hG.1 x hx2
          · exact memEntry_eq_false.mp hx2.2
        · intro k sb hk
          by_cases hkb : k = block.reference
          · subst hkb
            rw [hsbNew] at hk
            obtain rfl := Option.some.inj hk.symm
            refine ⟨?_, by rw [hdag1]; exact h2, by rw [hsbBlock]⟩
            exact List.ne_nil_of_mem ((hsbMem y).mpr hy)
          · rw [hkeep k hkb] at hk
            obtain ⟨hne, hcon, href⟩ := hG.2 k sb hk
            exact ⟨hne, by rw [hdag1]; exact hcon, href⟩
      · intro r hr
        rw [hdag1]
        exact hr
      · intro x hx
        obtain ⟨hx2, _⟩ := (hmiss1 x).mp hx
        rcases hx2 with hx2 | hx2
        · exact Or.inl hx2
        · exact Or.inr hx2.1
      · intro b2 hb2
        left
        rw [← hdag1]
        exact hb2
      · intro k sb hk
        by_cases hkb : k = block.reference
        · subst hkb
          rw [hsbNew] at hk
          obtain rfl := Option.some.inj hk.symm
          exact Or.inr hsbBlock
        · rw [hkeep k hkb] at hk
          exact Or.inl ⟨sb, k, hk, rfl⟩

/-! Call-level facts. -/

theorem accept_loop_facts {check : Block → List Block → Bool} {s : BlockManager}
    {bs : List Block} {s' : BlockManager} {out : List Block}
    (hG : GoodState s)
    (h : accept_loop check s bs = .ok (s', out)) :
    GoodState s' ∧
    (out.map Block.reference).Nodup ∧
    (∀ x ∈ out, contains_block s.dag_state x.reference = false) ∧
    (∀ x ∈ out, contains_block s'.dag_state x.reference = true) ∧
    (∀ r, contains_block s.dag_state r = true → contains_block s'.dag_state r = true) ∧
    (∀ x ∈ out, ∃ ancs, check x ancs = true) ∧
    (∀ x ∈ out, x ∈ bs ∨ ∃ sbOld k, suspendedAt s k = some sbOld ∧ sbOld.block = x) ∧
    (∀ k sb, suspendedAt s' k = some sb →
      (∃ sbOld k2, suspendedAt s k2 = some sbOld ∧ sbOld.block = sb.block) ∨
      sb.block ∈ bs) ∧
    (∀ b2, b2 ∈ s'.dag_state → b2 ∈ s.dag_state ∨ b2 ∈ out) ∧
    (∀ x ∈ out, ∀ a ∈ x.ancestors, contains_block s'.dag_state a = true) := by
  induction bs generalizing s out with
  | nil =>
    cases h
    refine ⟨hG, by simp, by simp, by simp, fun r hr => hr, by simp, by simp,
      fun k sb hk => Or.inl ⟨sb, k, hk, rfl⟩, fun b2 hb2 => Or.inl hb2, by simp⟩
  | cons b rest ih =>
    unfold accept_loop at h
    cases hit : accept_iteration check s b with
    | panicked => rw [hit] at h; cases h
    | fuelOut => rw [hit] at h; cases h
    | ok v1 =>
      obtain ⟨s3, chunk⟩ := v1
      rw [hit] at h
      dsimp only at h
      cases hrest : accept_loop check s3 rest with
      | panicked => rw [hrest] at h; cases h
      | fuelOut => rw [hrest] at h; cases h
      | ok v2 =>
        obtain ⟨sF, outR⟩ := v2
        rw [hrest] at h
        cases h
        obtain ⟨iG, iNd, iFresh, iWr, iMono, iChk, iRes, _iSort, iOrig, _iMiss, iDagMem,
          iSusp⟩ := accept_iteration_facts hG hit
        obtain ⟨rG, rNd, rFresh, rWr, rMono, rChk, rOrig, rSusp, rDagMem, rAnc⟩ :=
          ih iG hrest
        refine ⟨rG, ?_, ?_, ?_, ?_, ?_, ?_, ?_, ?_, ?_⟩
        · rw [List.map_append]
          rw [List.nodup_append]
          refine ⟨iNd, rNd, ?_⟩
          intro r1 hr1 hr2
          rcases List.mem_map.mp hr1 with ⟨x, hx, rfl⟩
          rcases List.mem_map.mp hr2 with ⟨y, hy, hyx⟩
          have hw : contains_block s3.dag_state x.reference = true := iWr x hx
          have hf : contains_block s3.dag_state y.reference = false := rFresh y hy
          rw [hyx] at hf
          rw [hw] at hf
          cases hf
        · intro x hx
          rcases List.mem_append.mp hx with hx | hx
          · exact iFresh x hx
          · rw [Bool.eq_false_iff]
            intro hc
            have := rFresh x hx
            rw [iMono _ hc] at this
            cases this
        · intro x hx
          rcases List.mem_append.mp hx with hx | hx
          · exact rMono _ (iWr x hx)
          · exact rWr x hx
        · intro r hr
          exact rMono r (iMono r hr)
        · intro x hx
          rcases List.mem_append.mp hx with hx | hx
          · exact iChk x hx
          · exact rChk x hx
        · intro x hx
          rcases List.mem_append.mp hx with hx | hx
          · rcases iOrig x hx with rfl | ⟨sbOld, k, hk1, hk2⟩
            · exact Or.inl (List.mem_cons_self x rest)
            · exact Or.inr ⟨sbOld, k, hk1, hk2⟩
          · rcases rOrig x hx with hx2 | ⟨sbOld, k, hk1, hk2⟩
            · exact Or.inl (List.mem_cons_of_mem b hx2)
            · rcases iSusp k sbOld hk1 with ⟨sbO2, k2, hk3, hk4⟩ | hk3
              · exact Or.inr ⟨sbO2, k2, hk3, hk4.trans hk2⟩
              · left
                rw [← hk3, hk2]
                exact List.mem_cons_self x rest
        · intro k sb hk
          rcases rSusp k sb hk with ⟨sbOld, k2, hk1, hk2⟩ | hk1
          · rcases iSusp k2 sbOld hk1 with ⟨sbO2, k3, hk3, hk4⟩ | hk3
            · exact Or.inl ⟨sbO2, k3, hk3, hk4.trans hk2⟩
            · right
              rw [← hk2, ← hk3]
              exact List.mem_cons_self _ _
          · exact Or.inr (List.mem_cons_of_mem b hk1)
        · intro b2 hb2
          rcases rDagMem b2 hb2 with hb2 | hb2
          · rcases iDagMem b2 hb2 with hb3 | hb3
            · exact Or.inl hb3
            · exact Or.inr (List.mem_append.mpr (Or.inl hb3))
          · exact Or.inr (List.mem_append.mpr (Or.inr hb2))
        · intro x hx a ha
          rcases List.mem_append.mp hx with hx | hx
          · rcases iRes x hx a ha with hc | ⟨y, hy1, hy2⟩
            · exact rMono a (iMono a hc)
            · rw [← hy2]
              exact rMono _ (iWr y hy1)
          · exact rAnc x hx a ha

theorem try_accept_blocks_ok_elim {check : Block → List Block → Bool} {s : BlockManager}
    {bs : List Block} {s' : BlockManager} {out : List Block} {miss : List BlockRef}
    (h : try_accept_blocks check s bs = .ok (s', out, miss)) :
    accept_loop check s (sortB roundLE bs) = .ok (s', out) ∧
    miss = s'.missing_blocks.filter (fun r => !decide (r ∈ s.missing_blocks)) := by
  unfold try_accept_blocks at h
  dsimp only at h
  cases hl : accept_loop check s (sortB roundLE bs) with
  | panicked => rw [hl] at h; cases h
  | fuelOut => rw [hl] at h; cases h
  | ok v =>
    obtain ⟨s1, out1⟩ := v
    rw [hl] at h
    cases h
    exact ⟨rfl, rfl⟩

theorem try_accept_blocks_facts {check : Block → List Block → Bool} {s : BlockManager}
    {bs : List Block} {s' : BlockManager} {out : List Block} {miss : List BlockRef}
    (hG : GoodState s)
    (h : try_accept_blocks check s bs = .ok (s', out, miss)) :
    GoodState s' ∧
    (out.map Block.reference).Nodup ∧
    (∀ x ∈ out, contains_block s.dag_state x.reference = false) ∧
    (∀ x ∈ out, contains_block s'.dag_state x.reference = true) ∧
    (∀ r, contains_block s.dag_state r = true → contains_block s'.dag_state r = true) ∧
    (∀ x ∈ out, ∃ ancs, check x ancs = true) ∧
    (∀ x ∈ out, x ∈ bs ∨ ∃ sbOld k, suspendedAt s k = some sbOld ∧ sbOld.block = x) ∧
    (∀ k sb, suspendedAt s' k = some sb →
      (∃ sbOld k2, suspendedAt s k2 = some sbOld ∧ sbOld.block = sb.block) ∨
      sb.block ∈ bs) ∧
    (∀ b2, b2 ∈ s'.dag_state → b2 ∈ s.dag_state ∨ b2 ∈ out) ∧
    (∀ x ∈ out, ∀ a ∈ x.ancestors, contains_block s'.dag_state a = true) := by
  obtain ⟨hl, _⟩ := try_accept_blocks_ok_elim h
  obtain ⟨g1, g2, g3, g4, g5, g6, g7, g8, g9, g10⟩ := accept_loop_facts hG hl
  have hperm := sortB_perm roundLE bs
  refine ⟨g1, g2, g3, g4, g5, g6, ?_, ?_, g9, g10⟩
  · intro x hx
    rcases g7 x hx with hx2 | hx2
    · exact Or.inl (hperm.mem_iff.mp hx2)
    · exact Or.inr hx2
  · intro k sb hk
    rcases g8 k sb hk with hk2 | hk2
    · exact Or.inl hk2
    · exact Or.inr (hperm.mem_iff.mp hk2)

theorem run_calls_facts {check : Block → List Block → Bool} {s : BlockManager}
    {calls : List (List Block)} {s' : BlockManager} {outs : List Block}
    (hG : GoodState s)
    (h : run_calls check s calls = .ok (s', outs)) :
    GoodState s' ∧
    (outs.map Block.reference).Nodup ∧
    (∀ x ∈ outs, contains_block s.dag_state x.reference = false) ∧
    (∀ x ∈ outs, contains_block s'.dag_state x.reference = true) ∧
    (∀ r, contains_block s.dag_state r = true → contains_block s'.dag_state r = true) ∧
    (∀ x ∈ outs, ∃ ancs, check x ancs = true) ∧
    (∀ b2, b2 ∈ s'.dag_state → b2 ∈ s.dag_state ∨ b2 ∈ outs) := by
  induction calls generalizing s outs with
  | nil =>
    cases h
    exact ⟨hG, by simp, by simp, by simp, fun r hr => hr, by simp, fun b2 hb2 => Or.inl hb2⟩
  | cons c rest ih =>
    unfold run_calls at h
    cases hc : try_accept_blocks check s c with
    | panicked => rw [hc] at h; cases h
    | fuelOut => rw [hc] at h; cases h
    | ok v1 =>
      obtain ⟨s1, chunk, miss⟩ := v1
      rw [hc] at h
      dsimp only at h
      cases hrest : run_calls check s1 rest with
      | panicked => rw [hrest] at h; cases h
      | fuelOut => rw [hrest] at h; cases h
      | ok v2 =>
        obtain ⟨sF, outR⟩ := v2
        rw [hrest] at h
        cases h
        obtain ⟨iG, iNd, iFresh, iWr, iMono, iChk, _iOrig, _iSusp, iDagMem, _iAnc⟩ :=
          try_accept_blocks_facts hG hc
        obtain ⟨rG, rNd, rFresh, rWr, rMono, rChk, rDagMem⟩ := ih iG hrest
        refine ⟨rG, ?_, ?_, ?_, ?_, ?_, ?_⟩
        · rw [List.map_append, List.nodup_append]
          refine ⟨iNd, rNd, ?_⟩
          intro r1 hr1 hr2
          rcases List.mem_map.mp hr1 with ⟨x, hx, rfl⟩
          rcases List.mem_map.mp hr2 with ⟨y, hy, hyx⟩
          have hw : contains_block s1.dag_state x.reference = true := iWr x hx
          have hf : contains_block s1.dag_state y.reference = false := rFresh y hy
          rw [hyx, hw] at hf
          cases hf
        · intro x hx
          rcases List.mem_append.mp hx with hx | hx
          · exact iFresh x hx
          · rw [Bool.eq_false_iff]
            intro hcon
            have := rFresh x hx
            rw [iMono _ hcon] at this
            cases this
        · intro x hx
          rcases List.mem_append.mp hx with hx | hx
          · exact rMono _ (iWr x hx)
          · exact rWr x hx
        · intro r hr
          exact rMono r (iMono r hr)
        · intro x hx
          rcases List.mem_append.mp hx with hx | hx
          · exact iChk x hx
          · exact rChk x hx
        · intro b2 hb2
          rcases rDagMem b2 hb2 with hb2 | hb2
          · rcases iDagMem b2 hb2 with hb3 | hb3
            · exact Or.inl hb3
            · exact Or.inr (List.mem_append.mpr (Or.inl hb3))
          · exact Or.inr (List.mem_append.mpr (Or.inr hb2))

/-- C3: after every `try_accept_blocks` call starting from a fresh
`BlockManager`, the `missing_blocks` set is disjoint from the keys of
`suspended_blocks`, and every suspended entry has a non-empty missing set. -/
theorem C3_state_invariants (check : Block → List Block → Bool) (d : DagState)
    (calls : List (List Block)) (s' : BlockManager) (outs : List Block)
    (h : run_calls check (BlockManager.new d) calls = .ok (s', outs)) :
    (∀ r ∈ s'.missing_blocks, memEntry s'.suspended_blocks r = false) ∧
    (∀ k sb, suspendedAt s' k = some sb → sb.missing_ancestors ≠ []) := by
  obtain ⟨hG, _⟩ := run_calls_facts (GoodState_new d) h
  constructor
  · intro r hr
    rw [memEntry_eq_false]
    exact hG.1 r hr
  · intro k sb hk
    exact (hG.2 k sb hk).1

theorem C3_state_invariants_witness :
    (∀ r ∈ ([] : List BlockRef), memEntry ([] : List (BlockRef × SuspendedBlock)) r
      = false) ∧
    (∀ k sb, suspendedAt ⟨[], [], [], [cg0, cb1, cb2]⟩ k = some sb →
      sb.missing_ancestors ≠ []) :=
  C3_state_invariants (fun _ _ => true) [cg0] [[cb2], [cb1]]
    ⟨[], [], [], [cg0, cb1, cb2]⟩ [cb1, cb2] (by decide)

/-- C4: across any sequence of `try_accept_blocks` calls on one
`BlockManager` started fresh, every block appears in the returned accepted
lists at most once in total (the concatenated outputs have no duplicate
reference); in particular submitting the same block twice yields at most one
accepted entry. -/
theorem C4_accepted_at_most_once (check : Block → List Block → Bool) (d : DagState)
    (calls : List (List Block)) (s' : BlockManager) (outs : List Block)
    (h : run_calls check (BlockManager.new d) calls = .ok (s', outs)) :
    (outs.map Block.reference).Nodup := by
  obtain ⟨_, hNd, _⟩ := run_calls_facts (GoodState_new d) h
  exact hNd

theorem C4_accepted_at_most_once_witness :
    (([cb1, cb2].map Block.reference)).Nodup :=
  C4_accepted_at_most_once (fun _ _ => true) [cg0] [[cb2], [cb1], [cb1]]
    ⟨[], [], [], [cg0, cb1, cb2]⟩ [cb1, cb2] (by decide)

theorem verify_loop_disjoint {check : Block → List Block → Bool} {dag : DagState} :
    ∀ {L : List Block} {acc0 rej0 acc rej : List (BlockRef × Block)},
    verify_loop check dag L acc0 rej0 = .ok (acc, rej) →
    (L.map Block.reference).Nodup →
    (∀ b ∈ L, memEntry acc0 b.reference = false ∧ memEntry rej0 b.reference = false) →
    (∀ k, memEntry acc0 k = true → memEntry rej0 k = false) →
    ∀ k, memEntry acc k = true → memEntry rej k = false := by
  intro L
  induction L with
  | nil =>
    intro acc0 rej0 acc rej h _ _ hdisj
    cases h
    exact hdisj
  | cons b0 rest ih =>
    intro acc0 rej0 acc rej h hnd hfresh hdisj
    rw [List.map_cons, List.nodup_cons] at hnd
    obtain ⟨hb0, hndr⟩ := hnd
    have hb0ne : ∀ b ∈ rest, b.reference ≠ b0.reference := by
      intro b hb heq
      exact hb0 (heq ▸ List.mem_map_of_mem Block.reference hb)
    unfold verify_loop at h
    cases hres : resolve_ancestors dag acc0 rej0 b0.ancestors with
    | panicked => rw [hres] at h; cases h
    | fuelOut => rw [hres] at h; cases h
    | ok o =>
      rw [hres] at h
      cases o with
      | none =>
        refine ih h hndr ?_ ?_
        · intro b hb
          refine ⟨(hfresh b (List.mem_cons_of_mem b0 hb)).1, ?_⟩
          rw [Bool.eq_false_iff]
          intro hc
          rcases (memEntry_insertEntry rej0 b0.reference b.reference b0).mp hc with
            heq | hc2
          · exact hb0ne b hb heq
          · rw [(hfresh b (List.mem_cons_of_mem b0 hb)).2] at hc2
            cases hc2
        · intro k hk
          rw [Bool.eq_false_iff]
          intro hc
          rcases (memEntry_insertEntry rej0 b0.reference k b0).mp hc with heq | hc2
          · rw [heq] at hk
            rw [(hfresh b0 (List.mem_cons_self b0 rest)).1] at hk
            cases hk
          · rw [hdisj k hk] at hc2
            cases hc2
      | some ancestor_blocks =>
        dsimp only at h
        by_cases hck : check b0 ancestor_blocks = true
        · rw [if_pos hck] at h
          refine ih h hndr ?_ ?_
          · intro b hb
            refine ⟨?_, (hfresh b (List.mem_cons_of_mem b0 hb)).2⟩
            rw [Bool.eq_false_iff]
            intro hc
            rcases (memEntry_insertEntry acc0 b0.reference b.reference b0).mp hc with
              heq | hc2
            · exact hb0ne b hb heq
            · rw [(hfresh b (List.mem_cons_of_mem b0 hb)).1] at hc2
              cases hc2
          · intro k hk
            rcases (memEntry_insertEntry acc0 b0.reference k b0).mp hk with heq | hk2
            · rw [heq]
              exact (hfresh b0 (List.mem_cons_self b0 rest)).2
            · exact hdisj k hk2
        · rw [if_neg hck] at h
          refine ih h hndr ?_ ?_
          · intro b hb
            refine ⟨(hfresh b (List.mem_cons_of_mem b0 hb)).1, ?_⟩
            rw [Bool.eq_false_iff]
            intro hc
            rcases (memEntry_insertEntry rej0 b0.reference b.reference b0).mp hc with
              heq | hc2
            · exact hb0ne b hb heq
            · rw [(hfresh b (List.mem_cons_of_mem b0 hb)).2] at hc2
              cases hc2
          · intro k hk
            rw [Bool.eq_false_iff]
            intro hc
            rcases (memEntry_insertEntry rej0 b0.reference k b0).mp hc with heq | hc2
            · rw [heq] at hk
              rw [(hfresh b0 (List.mem_cons_self b0 rest)).1] at hk
              cases hk
            · rw [hdisj k hk] at hc2
              cases hc2

/-- C5: a tentatively accepted block failing `check_ancestors` is demoted to
rejected — it ends in the reject map of the sweep, not in the accept map that
is written to the dag and returned — and rejection cascades: a swept block
with an ancestor that is absent from the dag and rejected in the same sweep
is itself rejected; moreover a verifier failure is terminal: across any
sequence of `try_accept_blocks` calls a block the verifier always fails is
never returned as accepted and never written to the dag. -/
theorem C5_verifier_rejection (check : Block → List Block → Bool) :
    (∀ (d : DagState) (calls : List (List Block)) (s' : BlockManager)
        (outs : List Block),
      run_calls check (BlockManager.new d) calls = .ok (s', outs) →
      ∀ x, (∀ ancs, check x ancs = false) →
        x ∉ outs ∧ (x ∈ s'.dag_state → x ∈ d)) ∧
    (∀ (dag : DagState) (L : List Block) (acc rej : List (BlockRef × Block)),
      verify_loop check dag L [] [] = .ok (acc, rej) →
      (L.map Block.reference).Nodup →
      ∀ b ∈ L,
        ((∀ ancs, check b ancs = false) ∨
          ∃ a ∈ b.ancestors, contains_block dag a = false ∧ memEntry rej a = true) →
        memEntry acc b.reference = false ∧ memEntry rej b.reference = true) := by
  constructor
  · intro d calls s' outs h x hx
    obtain ⟨_, _, _, _, _, hChk, hDagMem⟩ := run_calls_facts (GoodState_new d) h
    have hno : x ∉ outs := by
      intro hmem
      obtain ⟨ancs, hc⟩ := hChk x hmem
      rw [hx ancs] at hc
      cases hc
    refine ⟨hno, ?_⟩
    intro hdag
    rcases hDagMem x hdag with hd | hd
    · exact hd
    · exact absurd hd hno
  · intro dag L acc rej h hnd b hb hyp
    obtain ⟨_, _, m3, _, m5, _, _, _⟩ := verify_loop_facts h
    have hdisj := verify_loop_disjoint h hnd
      (fun b _ => ⟨rfl, rfl⟩) (fun k hk => by cases hk)
    have hnacc : memEntry acc b.reference = true → False := by
      intro hacc
      obtain ⟨v, hv⟩ := memEntry_iff.mp hacc
      have hmem := findEntry_mem hv
      rcases m3 _ hmem with hp | ⟨hpL, hpref, ⟨ancs, hck⟩, hresolve⟩
      · cases hp
      · have hvb : v = b :=
          List.inj_on_of_nodup_map hnd hpL hb hpref.symm
        subst hvb
        rcases hyp with hfail | ⟨a, ha, hadag, harej⟩
        · rw [hfail ancs] at hck
          cases hck
        · rcases hresolve a ha with hdag | haccA
          · rw [hadag] at hdag
            cases hdag
          · rw [hdisj a haccA] at harej
            cases harej
    have hacc_false : memEntry acc b.reference = false := by
      cases hx : memEntry acc b.reference
      · rfl
      · exact absurd (hnacc hx) (fun hf => hf)
    rcases m5 b hb with hA | hR
    · exact absurd (hnacc hA) (fun hf => hf)
    · exact ⟨hacc_false, hR⟩

theorem C5_verifier_rejection_witness :
    ((cb1 ∉ ([] : List Block)) ∧
      (cb1 ∈ [cg0] → cb1 ∈ [cg0])) ∧
    (memEntry ([] : List (BlockRef × Block)) cb2.reference = false ∧
      memEntry [(cb2.reference, cb2), (cb1.reference, cb1)] cb2.reference = true) := by
  constructor
  · exact (C5_verifier_rejection c5check).1 [cg0] [[cb1, cb2]]
      ⟨[(cb2.reference, ⟨cb2, [cb1.reference]⟩)],
        [(cb1.reference, [cb2.reference])], [cb1.reference], [cg0]⟩ []
      (by decide) cb1 (fun _ => rfl)
  · exact (C5_verifier_rejection c5check).2 [cg0] [cb1, cb2]
      [] [(cb2.reference, cb2), (cb1.reference, cb1)]
      (by decide) (by decide) cb2 (by decide)
      (Or.inr ⟨cb1.reference, by decide, by decide, by decide⟩)

theorem roundLE_total (a b : Block) : roundLE a b = true ∨ roundLE b a = true := by
  simp only [roundLE, decide_eq_true_eq]
  omega

theorem roundLE_trans {a b c : Block} (h1 : roundLE a b = true)
    (h2 : roundLE b c = true) : roundLE a c = true := by
  simp only [roundLE, decide_eq_true_eq] at h1 h2 ⊢
  omega

theorem accept_loop_causal {check : Block → List Block → Bool} {bs : List Block} :
    ∀ {s : BlockManager} {s' : BlockManager} {out : List Block},
    GoodState s →
    accept_loop check s bs = .ok (s', out) →
    (∀ b ∈ bs, validB b) →
    (∀ k sb, suspendedAt s k = some sb → validB sb.block) →
    out.Pairwise (fun x y => y.reference ∉ x.ancestors) ∧
    (∀ k sb, suspendedAt s' k = some sb → validB sb.block) := by
  induction bs with
  | nil =>
    intro s s' out hG h hv1 hv2
    cases h
    exact ⟨List.Pairwise.nil, hv2⟩
  | cons b0 rest ih =>
    intro s s' out hG h hv1 hv2
    unfold accept_loop at h
    cases hi : accept_iteration check s b0 with
    | panicked => rw [hi] at h; cases h
    | fuelOut => rw [hi] at h; cases h
    | ok v1 =>
      obtain ⟨s1, chunk⟩ := v1
      rw [hi] at h
      dsimp only at h
      cases hr : accept_loop check s1 rest with
      | panicked => rw [hr] at h; cases h
      | fuelOut => rw [hr] at h; cases h
      | ok v2 =>
        obtain ⟨s2, out2⟩ := v2
        rw [hr] at h
        cases h
        obtain ⟨iG, _, _, iWr, iMono, _, iAnc, iPw, iOrig, _, _, iSusp⟩ :=
          accept_iteration_facts hG hi
        have hvchunk : ∀ x ∈ chunk, validB x := by
          intro x hx
          rcases iOrig x hx with rfl | ⟨sbOld, k, hk, rfl⟩
          · exact hv1 x (List.mem_cons_self x rest)
          · exact hv2 k sbOld hk
        have hv2' : ∀ k sb, suspendedAt s1 k = some sb → validB sb.block := by
          intro k sb hk
          rcases iSusp k sb hk with ⟨sbOld, k2, hk2, heq⟩ | heq
          · exact heq ▸ hv2 k2 sbOld hk2
          · rw [heq]
            exact hv1 b0 (List.mem_cons_self b0 rest)
        obtain ⟨hPw2, hvS2⟩ :=
          ih iG hr (fun b hb => hv1 b (List.mem_cons_of_mem b0 hb)) hv2'
        obtain ⟨_, _, rFresh, _, _, _, _, _, _, _⟩ := accept_loop_facts iG hr
        refine ⟨?_, hvS2⟩
        rw [List.pairwise_append]
        refine ⟨?_, hPw2, ?_⟩
        · refine iPw.imp_of_mem ?_
          intro x y hx hy hle hmem
          have hvy : y.reference.round < x.round := hvchunk x hx y.reference hmem
          have hle2 : x.reference.round ≤ y.reference.round := refLE_round hle
          have hxr : x.reference.round = x.round := rfl
          omega
        · intro x hx y hy hmem
          have hanc : contains_block s1.dag_state y.reference = true := by
            rcases iAnc x hx y.reference hmem with hd | ⟨z, hz, hzr⟩
            · exact iMono _ hd
            · rw [← hzr]
              exact iWr z hz
          have hf := rFresh y hy
          rw [hanc] at hf
          cases hf

/-- C6: `try_accept_blocks` processes its input sorted by round ascending —
pre-sorting the input by round is a no-op — and, for round-valid inputs and
suspended state, the accepted list of a call is in causal order: a later
entry of the list is never an ancestor of an earlier one. -/
theorem C6_sorted_processing_causal_output (check : Block → List Block → Bool) :
    (∀ (s : BlockManager) (bs : List Block),
      try_accept_blocks check s (sortB roundLE bs) = try_accept_blocks check s bs) ∧
    (∀ (s : BlockManager) (bs : List Block) (s' : BlockManager) (out : List Block)
        (miss : List BlockRef),
      GoodState s →
      (∀ b ∈ bs, validB b) →
      (∀ k sb, suspendedAt s k = some sb → validB sb.block) →
      try_accept_blocks check s bs = .ok (s', out, miss) →
      out.Pairwise (fun x y => y.reference ∉ x.ancestors)) := by
  constructor
  · intro s bs
    have hss : sortB roundLE (sortB roundLE bs) = sortB roundLE bs :=
      sortB_of_sorted (sortB_sorted roundLE roundLE_total
        (fun a b c hab hbc => roundLE_trans hab hbc) bs)
    unfold try_accept_blocks
    dsimp only
    rw [hss]
  · intro s bs s' out miss hG hv1 hv2 h
    obtain ⟨hl, _⟩ := try_accept_blocks_ok_elim h
    have hv1' : ∀ b ∈ sortB roundLE bs, validB b := by
      intro b hb
      exact hv1 b ((sortB_perm roundLE bs).mem_iff.mp hb)
    exact (accept_loop_causal hG hl hv1' hv2).1

theorem C6_sorted_processing_causal_output_witness :
    (try_accept_blocks (fun _ _ => true) (BlockManager.new [cg0])
        (sortB roundLE [cb2, cb1]) =
      try_accept_blocks (fun _ _ => true) (BlockManager.new [cg0]) [cb2, cb1]) ∧
    ([cb1, cb2] : List Block).Pairwise (fun x y => y.reference ∉ x.ancestors) := by
  constructor
  · exact (C6_sorted_processing_causal_output (fun _ _ => true)).1
      (BlockManager.new [cg0]) [cb2, cb1]
  · exact (C6_sorted_processing_causal_output (fun _ _ => true)).2
      (BlockManager.new [cg0]) [cb2, cb1] ⟨[], [], [], [cg0, cb1, cb2]⟩
      [cb1, cb2] [] (GoodState_new [cg0]) (by decide)
      (fun k sb hk => nomatch hk) (by decide)

theorem process_children_persist {dep : BlockRef} : ∀ {children : List BlockRef}
    {s : BlockManager} {pushed p2 : List Block} {uns u2 : List SuspendedBlock}
    {s2 : BlockManager},
    process_children dep s children pushed uns = .ok (s2, p2, u2) →
    ∀ k sb, suspendedAt s k = some sb →
      (∃ sb2, suspendedAt s2 k = some sb2 ∧ sb2.block = sb.block) ∨
      sb.block ∈ u2.map SuspendedBlock.block := by
  intro children
  induction children with
  | nil =>
    intro s pushed p2 uns u2 s2 h k sb hk
    cases h
    exact Or.inl ⟨sb, hk, rfl⟩
  | cons r rest ih =>
    intro s pushed p2 uns u2 s2 h k sb hk
    unfold process_children at h
    cases hu : try_unsuspend_block s r dep with
    | panicked => rw [hu] at h; cases h
    | fuelOut => rw [hu] at h; cases h
    | ok val =>
      obtain ⟨s1, out⟩ := val
      rw [hu] at h
      obtain ⟨f1, f2, f3, sbF, hsbF, hdepF, hcases⟩ := try_unsuspend_block_ok hu
      rcases hcases with ⟨sbU, rfl, hb, hm, hemp, hkeys⟩ | ⟨rfl, hemp, hkeys⟩
      · dsimp only at h
        by_cases hkr : k = r
        · subst hkr
          rw [hsbF] at hk
          obtain rfl := Option.some.inj hk
          obtain ⟨_, _, _, newUns, hu2, _, _, _, _⟩ := process_children_ok_facts h
          right
          rw [← hb]
          refine List.mem_map_of_mem SuspendedBlock.block ?_
          rw [hu2]
          simp
        · have hk1 : suspendedAt s1 k = some sb := by
            rw [hkeys k, if_neg hkr]
            exact hk
          exact ih h k sb hk1
      · dsimp only at h
        by_cases hkr : k = r
        · subst hkr
          rw [hsbF] at hk
          obtain rfl := Option.some.inj hk
          have hk1 : suspendedAt s1 k =
              some ⟨sbF.block, eraseRef sbF.missing_ancestors dep⟩ := by
            rw [hkeys k, if_pos rfl]
          rcases ih h k _ hk1 with ⟨sb2, h2, h3⟩ | hmem
          · exact Or.inl ⟨sb2, h2, h3⟩
          · exact Or.inr hmem
        · have hk1 : suspendedAt s1 k = some sb := by
            rw [hkeys k, if_neg hkr]
            exact hk
          exact ih h k sb hk1

theorem unsuspend_loop_round_persist {R : Nat} : ∀ {fuel : Nat} {s : BlockManager}
    {stack : List Block} {uns u2 : List SuspendedBlock} {s2 : BlockManager},
    unsuspend_loop fuel s stack uns = .ok (s2, u2) →
    MAval s →
    (∀ b ∈ stack, R ≤ b.round) →
    MAval s2 ∧
    (∀ sb ∈ u2, sb ∈ uns ∨ R < sb.block.round) ∧
    (∀ k sb, suspendedAt s k = some sb →
      (∃ sb2, suspendedAt s2 k = some sb2 ∧ sb2.block = sb.block) ∨
      sb.block ∈ u2.map SuspendedBlock.block) := by
  intro fuel
  induction fuel with
  | zero =>
    intro s stack uns u2 s2 h hMA hstack
    cases h
  | succ fuel ih =>
    intro s stack uns u2 s2 h hMA hstack
    match stack with
    | [] =>
      cases h
      exact ⟨hMA, fun sb hsb => Or.inl hsb, fun k sb hk => Or.inl ⟨sb, hk, rfl⟩⟩
    | block :: rest =>
      rw [unsuspend_loop] at h
      cases hpc : process_children block.reference
          { s with missing_ancestors := eraseEntry s.missing_ancestors block.reference }
          ((findEntry s.missing_ancestors block.reference).getD []) [] uns with
      | panicked => rw [hpc] at h; cases h
      | fuelOut => rw [hpc] at h; cases h
      | ok val =>
        obtain ⟨sMid, pushed, unsMid⟩ := val
        rw [hpc] at h
        obtain ⟨p1, p2, p3, pcNew, hpu, hpp, hpcmem, hpcnone, hpcsome⟩ :=
          process_children_ok_facts hpc
        have hMA1 : MAval { s with
            missing_ancestors := eraseEntry s.missing_ancestors block.reference } := hMA
        have hMAMid : MAval sMid := by
          intro k sb hk a ha
          obtain ⟨sbOld, hOld, hbeq, hsub, _, _⟩ := hpcsome k sb hk
          rw [hbeq]
          exact hMA1 k sbOld hOld a (hsub a ha)
        have hRb : R ≤ block.round := hstack block (List.mem_cons_self block rest)
        have hpcRound : ∀ sb ∈ pcNew, R < sb.block.round := by
          intro sb hsb
          obtain ⟨_, kk, hk1, ⟨sbOld, hk2, hk3, hk4⟩, _⟩ := hpcmem sb hsb
          have hlt : block.reference.round < sbOld.block.round :=
            hMA1 kk sbOld hk2 block.reference hk4
          have hrr : block.reference.round = block.round := rfl
          rw [← hk3]
          omega
        have hstackNew : ∀ b ∈ pushed.reverse ++ rest, R ≤ b.round := by
          intro b hb
          rcases List.mem_append.mp hb with hb | hb
          · rw [List.mem_reverse] at hb
            rw [hpp] at hb
            rcases List.mem_map.mp (by simpa using hb) with ⟨sb, hsb, rfl⟩
            exact Nat.le_of_lt (hpcRound sb hsb)
          · exact hstack b (List.mem_cons_of_mem block hb)
        obtain ⟨hMAfin, hRound2, hPersist2⟩ := ih h hMAMid hstackNew
        obtain ⟨_, _, _, recNew, hru, _, _, _⟩ := unsuspend_loop_ok_facts h
        refine ⟨hMAfin, ?_, ?_⟩
        · intro sb hsb
          rcases hRound2 sb hsb with hsb2 | hsb2
          · rw [hpu] at hsb2
            rcases List.mem_append.mp hsb2 with hsb3 | hsb3
            · exact Or.inl hsb3
            · exact Or.inr (hpcRound sb hsb3)
          · exact Or.inr hsb2
        · intro k sb hk
          have hk1 : suspendedAt { s with
              missing_ancestors := eraseEntry s.missing_ancestors block.reference } k =
              some sb := hk
          rcases process_children_persist hpc k sb hk1 with ⟨sbM, hM1, hM2⟩ | hmem
          · rcases hPersist2 k sbM hM1 with ⟨sb2, h2, h3⟩ | hmem2
            · exact Or.inl ⟨sb2, h2, h3.trans hM2⟩
            · rw [hM2] at hmem2
              exact Or.inr hmem2
          · right
            rw [hru, List.map_append]
            exact List.mem_append_left _ hmem

theorem accept_iteration_round_persist {check : Block → List Block → Bool}
    {s : BlockManager} {block : Block} {s3 : BlockManager} {out : List Block}
    (hMA : MAval s) (hvB : validB block)
    (h : accept_iteration check s block = .ok (s3, out)) :
    MAval s3 ∧
    (∀ x ∈ out, block.round ≤ x.round) ∧
    (∀ k sb, suspendedAt s k = some sb →
      (∃ sb2, suspendedAt s3 k = some sb2 ∧ sb2.block = sb.block) ∨
      block.round < sb.block.round) := by
  unfold accept_iteration at h
  by_cases hseen : memEntry s.suspended_blocks block.reference = true ∨
      contains_block s.dag_state block.reference = true
  · rw [try_accept_one_block_seen s block hseen] at h
    cases h
    exact ⟨hMA, by simp, fun k sb hk => Or.inl ⟨sb, hk, rfl⟩⟩
  · push_neg at hseen
    have h1 : memEntry s.suspended_blocks block.reference = false := by
      cases hh : memEntry s.suspended_blocks block.reference
      · rfl
      · exact absurd hh hseen.1
    have h2 : contains_block s.dag_state block.reference = false := by
      cases hh : contains_block s.dag_state block.reference
      · rfl
      · exact absurd hh hseen.2
    obtain ⟨s1, he, hdag1, hmiss1, hch1, hsusE, hsusN⟩ :=
      try_accept_one_block_fresh s block h1 h2
    rw [he] at h
    by_cases hM : (missingSet s block).isEmpty = true
    · rw [if_pos hM] at h
      dsimp only at h
      have hsus1 : s1.suspended_blocks = s.suspended_blocks := hsusE hM
      have hsusAt1 : ∀ k, suspendedAt s1 k = suspendedAt s k := by
        intro k
        unfold suspendedAt
        rw [hsus1]
      have hMA1 : MAval s1 := by
        intro k sb hk a ha
        refine hMA k sb ?_ a ha
        rw [← hsus1]
        exact hk
      cases hun : try_unsuspend_children_blocks s1 block with
      | panicked => rw [hun] at h; cases h
      | fuelOut => rw [hun] at h; cases h
      | ok v2 =>
        obtain ⟨s2, unsuspended⟩ := v2
        rw [hun] at h
        dsimp only at h
        unfold try_unsuspend_children_blocks at hun
        cases hloop : unsuspend_loop (s1.suspended_blocks.length + 2) s1 [block] [] with
        | panicked => rw [hloop] at hun; cases hun
        | fuelOut => rw [hloop] at hun; cases hun
        | ok v3 =>
          obtain ⟨s2b, uns⟩ := v3
          rw [hloop] at hun
          have hs2 : s2b = s2 ∧ unsuspended = uns.map SuspendedBlock.block := by
            cases hun
            exact ⟨rfl, rfl⟩
          obtain ⟨rfl, rfl⟩ := hs2
          have hstack0 : ∀ b ∈ [block], block.round ≤ b.round := by
            intro b hb
            rcases List.mem_cons.mp hb with rfl | hb
            · exact Nat.le_refl _
            · cases hb
          obtain ⟨hMA2, hRound2, hPersist2⟩ :=
            unsuspend_loop_round_persist (R := block.round) hloop hMA1 hstack0
          cases hver : verify_loop check s2b.dag_state
              (block :: uns.map SuspendedBlock.block) [] [] with
          | panicked => rw [hver] at h; cases h
          | fuelOut => rw [hver] at h; cases h
          | ok v4 =>
            obtain ⟨to_accept, to_reject⟩ := v4
            rw [hver] at h
            cases h
            obtain ⟨v1, v2, v3, v4, v5, v6, v7, v8⟩ := verify_loop_facts hver
            refine ⟨hMA2, ?_, ?_⟩
            · intro x hx
              obtain ⟨p, hp, hpv⟩ := mem_sortedValues.mp hx
              rcases v3 p hp with hp2 | hp2
              · cases hp2
              · rcases List.mem_cons.mp hp2.1 with hx2 | hx2
                · rw [← hpv, hx2]
                · rcases List.mem_map.mp hx2 with ⟨sb, hsb, hsbx⟩
                  rcases hRound2 sb hsb with hsb2 | hsb2
                  · cases hsb2
                  · rw [← hpv, ← hsbx]
                    exact Nat.le_of_lt hsb2
            · intro k sb hk
              have hk1 : suspendedAt s1 k = some sb := by
                rw [hsusAt1 k]
                exact hk
              rcases hPersist2 k sb hk1 with ⟨sb2, hp1, hp2⟩ | hmem
              · exact Or.inl ⟨sb2, hp1, hp2⟩
              · rcases List.mem_map.mp hmem with ⟨sbu, hsbu, hsbux⟩
                rcases hRound2 sbu hsbu with h0 | h0
                · cases h0
                · right
                  rw [← hsbux]
                  exact h0
    · have hM2 : (missingSet s block).isEmpty = false := by
        cases hh : (missingSet s block).isEmpty
        · rfl
        · exact absurd hh hM
      rw [hM2] at h
      simp only [Bool.false_eq_true, if_false] at h
      cases h
      obtain ⟨hkeep, sbNew, hsbNew, hsbBlock, hsbMem⟩ := hsusN hM2
      refine ⟨?_, by simp, ?_⟩
      · intro k sb hk a ha
        by_cases hkb : k = block.reference
        · subst hkb
          rw [show (findEntry s3.suspended_blocks block.reference :
              Option SuspendedBlock) = some sbNew from hsbNew] at hk
          obtain rfl := Option.some.inj hk.symm
          have ham : a ∈ missingSet s block := (hsbMem a).mp ha
          have haa : a ∈ block.ancestors := (mem_missingSet.mp ham).1
          rw [hsbBlock]
          exact hvB a haa
        · have hk2 : suspendedAt s k = some sb := by
            rw [← hkeep k hkb]
            exact hk
          exact hMA k sb hk2 a ha
      · intro k sb hk
        by_cases hkb : k = block.reference
        · subst hkb
          unfold suspendedAt at hk
          rw [memEntry_eq_false.mp h1] at hk
          cases hk
        · left
          refine ⟨sb, ?_, rfl⟩
          rw [hkeep k hkb]
          exact hk

theorem accept_loop_round_persist {check : Block → List Block → Bool} {R : Nat} :
    ∀ {bs : List Block} {s s' : BlockManager} {out : List Block},
    accept_loop check s bs = .ok (s', out) →
    MAval s →
    (∀ b ∈ bs, validB b) →
    (∀ b ∈ bs, R ≤ b.round) →
    MAval s' ∧
    (∀ x ∈ out, R ≤ x.round) ∧
    (∀ k sb, suspendedAt s k = some sb → sb.block.round ≤ R →
      ∃ sb2, suspendedAt s' k = some sb2 ∧ sb2.block = sb.block) := by
  intro bs
  induction bs with
  | nil =>
    intro s s' out h hMA hv hr
    cases h
    exact ⟨hMA, by simp, fun k sb hk _ => ⟨sb, hk, rfl⟩⟩
  | cons b0 rest ih =>
    intro s s' out h hMA hv hr
    unfold accept_loop at h
    cases hi : accept_iteration check s b0 with
    | panicked => rw [hi] at h; cases h
    | fuelOut => rw [hi] at h; cases h
    | ok v1 =>
      obtain ⟨s1, chunk⟩ := v1
      rw [hi] at h
      dsimp only at h
      cases hrest : accept_loop check s1 rest with
      | panicked => rw [hrest] at h; cases h
      | fuelOut => rw [hrest] at h; cases h
      | ok v2 =>
        obtain ⟨s2, out2⟩ := v2
        rw [hrest] at h
        cases h
        obtain ⟨iMA, iRound, iPersist⟩ :=
          accept_iteration_round_persist hMA (hv b0 (List.mem_cons_self b0 rest)) hi
        obtain ⟨rMA, rRound, rPersist⟩ := ih hrest iMA
          (fun b hb => hv b (List.mem_cons_of_mem b0 hb))
          (fun b hb => hr b (List.mem_cons_of_mem b0 hb))
        refine ⟨rMA, ?_, ?_⟩
        · intro x hx
          rcases List.mem_append.mp hx with hx | hx
          · have h3 := iRound x hx
            have hb0 := hr b0 (List.mem_cons_self b0 rest)
            omega
          · exact rRound x hx
        · intro k sb hk hle
          rcases iPersist k sb hk with ⟨sb2, hp1, hp2⟩ | hgt
          · obtain ⟨sb3, hq1, hq2⟩ := rPersist k sb2 hp1 (by rw [hp2]; exact hle)
            exact ⟨sb3, hq1, hq2.trans hp2⟩
          · have hb0 := hr b0 (List.mem_cons_self b0 rest)
            omega

/-- C2: when a processed block `B` is neither in the dag nor suspended and
its set `M = missingSet s B` of dag-absent ancestors is non-empty, the
iteration suspends `B` with missing set exactly `M`, accepts nothing, drops
`B.reference` from `missing_blocks` and adds every `m ∈ M` that is not
itself a suspended key; `B` is not returned as accepted by the remainder of
the call either (the later blocks all carry rounds at least `B.round`), and
stays suspended; and `newly_missing` returned by `try_accept_blocks` is
exactly `missing_blocks` after the call minus `missing_blocks` before. -/
theorem C2_suspension_effects (check : Block → List Block → Bool) (s : BlockManager)
    (B : Block) :
    (validB B →
     memEntry s.suspended_blocks B.reference = false →
     contains_block s.dag_state B.reference = false →
     missingSet s B ≠ [] →
     ∃ s1, accept_iteration check s B = .ok (s1, []) ∧
       s1.dag_state = s.dag_state ∧
       (∃ sb, suspendedAt s1 B.reference = some sb ∧ sb.block = B ∧
         (∀ x, x ∈ sb.missing_ancestors ↔ x ∈ missingSet s B)) ∧
       B.reference ∉ s1.missing_blocks ∧
       (∀ m ∈ missingSet s B, memEntry s.suspended_blocks m = false →
         m ∈ s1.missing_blocks) ∧
       (∀ m, m ∈ s1.missing_blocks ↔
         (m ∈ s.missing_blocks ∨
           (m ∈ missingSet s B ∧ memEntry s.suspended_blocks m = false)) ∧
         ¬ m = B.reference)) ∧
    (GoodState s → MAval s → validB B →
     memEntry s.suspended_blocks B.reference = false →
     contains_block s.dag_state B.reference = false →
     missingSet s B ≠ [] →
     ∀ rest s2 out2, (∀ b ∈ rest, validB b) → (∀ b ∈ rest, B.round ≤ b.round) →
       accept_loop check s (B :: rest) = .ok (s2, out2) →
       B ∉ out2 ∧ ∃ sb2, suspendedAt s2 B.reference = some sb2 ∧ sb2.block = B) ∧
    (∀ bs s' outA miss, try_accept_blocks check s bs = .ok (s', outA, miss) →
      ∀ r, r ∈ miss ↔ (r ∈ s'.missing_blocks ∧ r ∉ s.missing_blocks)) := by
  have hmain : validB B →
      memEntry s.suspended_blocks B.reference = false →
      contains_block s.dag_state B.reference = false →
      missingSet s B ≠ [] →
      ∃ s1, accept_iteration check s B = .ok (s1, []) ∧
        s1.dag_state = s.dag_state ∧
        (∃ sb, suspendedAt s1 B.reference = some sb ∧ sb.block = B ∧
          (∀ x, x ∈ sb.missing_ancestors ↔ x ∈ missingSet s B)) ∧
        B.reference ∉ s1.missing_blocks ∧
        (∀ m ∈ missingSet s B, memEntry s.suspended_blocks m = false →
          m ∈ s1.missing_blocks) ∧
        (∀ m, m ∈ s1.missing_blocks ↔
          (m ∈ s.missing_blocks ∨
            (m ∈ missingSet s B ∧ memEntry s.suspended_blocks m = false)) ∧
          ¬ m = B.reference) := by
    intro hvB hns hnd hMne
    obtain ⟨s1, he, hdag1, hmiss1, hch1, hsusE, hsusN⟩ :=
      try_accept_one_block_fresh s B hns hnd
    have hM2 : (missingSet s B).isEmpty = false := by
      cases hh : (missingSet s B).isEmpty
      · rfl
      · exact absurd (List.isEmpty_iff.mp hh) hMne
    have hiter : accept_iteration check s B = .ok (s1, []) := by
      unfold accept_iteration
      rw [he, hM2]
      simp only [Bool.false_eq_true, if_false]
    obtain ⟨hkeep, sbNew, hsbNew, hsbBlock, hsbMem⟩ := hsusN hM2
    refine ⟨s1, hiter, hdag1, ⟨sbNew, hsbNew, hsbBlock, hsbMem⟩, ?_, ?_, hmiss1⟩
    · intro hc
      exact ((hmiss1 B.reference).mp hc).2 rfl
    · intro m hm hns2
      refine (hmiss1 m).mpr ⟨Or.inr ⟨hm, hns2⟩, ?_⟩
      intro hc
      have hround : m.round < B.round := hvB m (mem_missingSet.mp hm).1
      rw [hc] at hround
      exact absurd hround (Nat.lt_irrefl _)
  refine ⟨hmain, ?_, ?_⟩
  · intro hG hMA hvB hns hnd hMne rest s2 out2 hvrest hrrest h
    obtain ⟨s1, hiter, hdag1, ⟨sbNew, hsbNew, hsbBlock, hsbMem⟩, _, _, _⟩ :=
      hmain hvB hns hnd hMne
    unfold accept_loop at h
    rw [hiter] at h
    dsimp only at h
    cases hrest : accept_loop check s1 rest with
    | panicked => rw [hrest] at h; cases h
    | fuelOut => rw [hrest] at h; cases h
    | ok v2 =>
      obtain ⟨s2b, out2b⟩ := v2
      rw [hrest] at h
      cases h
      obtain ⟨iG, _, _, _, _, _, _, _, _, _, _, _⟩ := accept_iteration_facts hG hiter
      obtain ⟨iMA, _, _⟩ := accept_iteration_round_persist hMA hvB hiter
      obtain ⟨_, _, hpers⟩ := accept_loop_round_persist (R := B.round) hrest iMA
        hvrest hrrest
      obtain ⟨sb2, hp1, hp2⟩ := hpers B.reference sbNew hsbNew
        (by rw [hsbBlock])
      obtain ⟨rG, _, _, rWr, _, _, _, _, _, _⟩ := accept_loop_facts iG hrest
      have hpb : sb2.block = B := hp2.trans hsbBlock
      refine ⟨?_, sb2, hp1, hpb⟩
      intro hmem
      have hwr : contains_block s2.dag_state B.reference = true := by
        have hw := rWr B (by simpa using hmem)
        exact hw
      have hfr : contains_block s2.dag_state B.reference = false := by
        have hc := (rG.2 B.reference sb2 hp1).2.1
        exact hc
      rw [hwr] at hfr
      cases hfr
  · intro bs s' outA miss h r
    obtain ⟨_, hmiss⟩ := try_accept_blocks_ok_elim h
    subst hmiss
    simp [List.mem_filter]

theorem C2_suspension_effects_witness :
    (∃ s1, accept_iteration (fun _ _ => true) (BlockManager.new [cg0]) cb2 =
        .ok (s1, []) ∧
      s1.dag_state = (BlockManager.new [cg0]).dag_state ∧
      (∃ sb, suspendedAt s1 cb2.reference = some sb ∧ sb.block = cb2 ∧
        (∀ x, x ∈ sb.missing_ancestors ↔
          x ∈ missingSet (BlockManager.new [cg0]) cb2)) ∧
      cb2.reference ∉ s1.missing_blocks ∧
      (∀ m ∈ missingSet (BlockManager.new [cg0]) cb2,
        memEntry (BlockManager.new [cg0]).suspended_blocks m = false →
        m ∈ s1.missing_blocks) ∧
      (∀ m, m ∈ s1.missing_blocks ↔
        (m ∈ (BlockManager.new [cg0]).missing_blocks ∨
          (m ∈ missingSet (BlockManager.new [cg0]) cb2 ∧
            memEntry (BlockManager.new [cg0]).suspended_blocks m = false)) ∧
        ¬ m = cb2.reference)) ∧
    (cb2 ∉ ([] : List Block) ∧
      ∃ sb2, suspendedAt ⟨[(cb2.reference, ⟨cb2, [cb1.reference]⟩)],
          [(cb1.reference, [cb2.reference])], [cb1.reference], [cg0]⟩ cb2.reference =
        some sb2 ∧ sb2.block = cb2) ∧
    (∀ r, r ∈ [cb1.reference] ↔
      (r ∈ [cb1.reference] ∧ r ∉ ([] : List BlockRef))) := by
  refine ⟨?_, ?_, ?_⟩
  · exact (C2_suspension_effects (fun _ _ => true) (BlockManager.new [cg0]) cb2).1
      (by decide) (by decide) (by decide) (by decide)
  · exact (C2_suspension_effects (fun _ _ => true) (BlockManager.new [cg0]) cb2).2.1
      (GoodState_new [cg0]) (fun k sb hk => nomatch hk) (by decide) (by decide)
      (by decide) (by decide) [] ⟨[(cb2.reference, ⟨cb2, [cb1.reference]⟩)],
        [(cb1.reference, [cb2.reference])], [cb1.reference], [cg0]⟩ []
      (fun b hb => nomatch hb) (fun b hb => nomatch hb) (by decide)
  · exact (C2_suspension_effects (fun _ _ => true) (BlockManager.new [cg0]) cb2).2.2
      [cb2] ⟨[(cb2.reference, ⟨cb2, [cb1.reference]⟩)],
        [(cb1.reference, [cb2.reference])], [cb1.reference], [cg0]⟩ []
      [cb1.reference] (by decide)

/-! Bookkeeping lemmas for the association-list maps, toward totality of the
    unsuspension sweep. -/

theorem nodup_insertRef {s : List BlockRef} {r : BlockRef} (h : s.Nodup) :
    (insertRef s r).Nodup := by
  unfold insertRef
  by_cases hr : r ∈ s
  · rw [if_pos hr]
    exact h
  · rw [if_neg hr]
    exact List.Nodup.cons hr h

theorem keys_eraseEntry {α : Type} (m : List (BlockRef × α)) (k : BlockRef) :
    (eraseEntry m k).map Prod.fst =
      (m.map Prod.fst).filter (fun x => !decide (x = k)) := by
  induction m with
  | nil => rfl
  | cons p rest ih =>
    by_cases hp : p.1 = k
    · have h1 : eraseEntry (p :: rest) k = eraseEntry rest k := by
        simp [eraseEntry, List.filter_cons, hp]
      rw [h1, ih, List.map_cons, List.filter_cons]
      simp [hp]
    · have h1 : eraseEntry (p :: rest) k = p :: eraseEntry rest k := by
        simp [eraseEntry, List.filter_cons, hp]
      rw [h1, List.map_cons, List.map_cons, List.filter_cons, ih]
      simp [hp]

theorem keys_eraseEntry_nodup {α : Type} {m : List (BlockRef × α)} {k : BlockRef}
    (h : (m.map Prod.fst).Nodup) : ((eraseEntry m k).map Prod.fst).Nodup := by
  rw [keys_eraseEntry]
  exact h.filter _

theorem length_eraseEntry_present {α : Type} : ∀ {m : List (BlockRef × α)} {k : BlockRef},
    (m.map Prod.fst).Nodup → memEntry m k = true →
    (eraseEntry m k).length + 1 = m.length := by
  intro m
  induction m with
  | nil =>
    intro k _ hmem
    cases hmem
  | cons p rest ih =>
    intro k hnd hmem
    rw [List.map_cons, List.nodup_cons] at hnd
    by_cases hp : p.1 = k
    · have h1 : eraseEntry (p :: rest) k = eraseEntry rest k := by
        simp [eraseEntry, List.filter_cons, hp]
      have h2 : eraseEntry rest k = rest := by
        apply List.filter_eq_self.mpr
        intro q hq
        have : q.1 ≠ k := by
          intro he
          exact hnd.1 (by rw [hp, ← he]; exact List.mem_map_of_mem Prod.fst hq)
        simp [this]
      rw [h1, h2, List.length_cons]
    · have h1 : eraseEntry (p :: rest) k = p :: eraseEntry rest k := by
        simp [eraseEntry, List.filter_cons, hp]
      have hmem2 : memEntry rest k = true := by
        rw [memEntry_iff] at hmem ⊢
        obtain ⟨v, hv⟩ := hmem
        unfold findEntry at hv
        rw [List.find?_cons] at hv
        rw [decide_eq_false hp] at hv
        exact ⟨v, hv⟩
      rw [h1, List.length_cons, List.length_cons, ih hnd.2 hmem2]

theorem length_insertEntry_present {α : Type} {m : List (BlockRef × α)} {k : BlockRef}
    {v : α} (hnd : (m.map Prod.fst).Nodup) (hmem : memEntry m k = true) :
    (insertEntry m k v).length = m.length := by
  show (eraseEntry m k).length + 1 = m.length
  exact length_eraseEntry_present hnd hmem

theorem eraseEntry_absent {α : Type} {m : List (BlockRef × α)} {k : BlockRef}
    (h : memEntry m k = false) : eraseEntry m k = m := by
  apply List.filter_eq_self.mpr
  intro p hp
  have hne : p.1 ≠ k := by
    intro he
    rw [memEntry_eq_false] at h
    unfold findEntry at h
    have : m.find? (fun q => decide (q.1 = k)) = none := by
      cases hf : m.find? (fun q => decide (q.1 = k))
      · rfl
      · rw [hf] at h; cases h
    have := List.find?_eq_none.mp this p hp
    simp [he] at this
  simp [hne]

theorem insertEntry_absent {α : Type} {m : List (BlockRef × α)} {k : BlockRef} {v : α}
    (h : memEntry m k = false) : insertEntry m k v = (k, v) :: m := by
  show (k, v) :: eraseEntry m k = (k, v) :: m
  rw [eraseEntry_absent h]

/-- A list of blocks is anchored when, scanned left to right, every
    ancestor of every block is already in the dag or among the refs `done`
    seen so far. This is the order in which the sweep hands blocks to the
    verifier loop. -/
def anchored (dag : DagState) : List BlockRef → List Block → Prop
  | _, [] => True
  | done, x :: rest =>
    (∀ a ∈ x.ancestors, contains_block dag a = true ∨ a ∈ done) ∧
    anchored dag (x.reference :: done) rest

theorem anchored_mono {dag : DagState} : ∀ {L : List Block} {done done' : List BlockRef},
    (∀ r ∈ done, r ∈ done') → anchored dag done L → anchored dag done' L := by
  intro L
  induction L with
  | nil =>
    intro done done' _ _
    trivial
  | cons x rest ih =>
    intro done done' hsub h
    refine ⟨?_, ?_⟩
    · intro a ha
      rcases h.1 a ha with h2 | h2
      · exact Or.inl h2
      · exact Or.inr (hsub a h2)
    · refine ih ?_ h.2
      intro r hr
      rcases List.mem_cons.mp hr with rfl | hr
      · exact List.mem_cons_self _ _
      · exact List.mem_cons_of_mem _ (hsub r hr)

/-- The invariant of the `BlockManager` state that makes the unsuspension
    sweep total: the `missing_ancestors` index and the suspended map are in
    exact correspondence, index lists and key lists are duplicate-free,
    every entry of `missing_blocks` is somebody's missing ancestor, missing
    ancestors are absent from the dag, and every ancestor of a suspended
    block is either still missing or already in the dag. -/
structure SInv (s : BlockManager) : Prop where
  sync : ∀ a k, k ∈ childrenOf s a ↔
    ∃ sb, suspendedAt s k = some sb ∧ a ∈ sb.missing_ancestors
  inodup : ∀ a, (childrenOf s a).Nodup
  knodup : (s.suspended_blocks.map Prod.fst).Nodup
  mcomp : ∀ r ∈ s.missing_blocks, ∃ k sb, suspendedAt s k = some sb ∧
    r ∈ sb.missing_ancestors
  mnd : ∀ k sb, suspendedAt s k = some sb →
    ∀ a ∈ sb.missing_ancestors, contains_block s.dag_state a = false
  anc : ∀ k sb, suspendedAt s k = some sb →
    ∀ a ∈ sb.block.ancestors, a ∈ sb.missing_ancestors ∨
      contains_block s.dag_state a = true

theorem SInv_new (d : DagState) : SInv (BlockManager.new d) := by
  refine ⟨?_, ?_, ?_, ?_, ?_, ?_⟩
  · intro a k
    constructor
    · intro hk
      cases hk
    · rintro ⟨sb, hsb, _⟩
      cases hsb
  · intro a
    exact List.nodup_nil
  · exact List.nodup_nil
  · intro r hr
    cases hr
  · intro k sb hk
    cases hk
  · intro k sb hk
    cases hk

theorem resolve_ancestors_total {dag : DagState} {acc rej : List (BlockRef × Block)} :
    ∀ {ancl : List BlockRef},
    (∀ a ∈ ancl, contains_block dag a = true ∨ memEntry acc a = true) →
    ∃ l, resolve_ancestors dag acc rej ancl = .ok (some l) := by
  intro ancl
  induction ancl with
  | nil =>
    intro _
    exact ⟨[], rfl⟩
  | cons a0 rest ih =>
    intro h
    obtain ⟨l, hl⟩ := ih (fun a ha => h a (List.mem_cons_of_mem a0 ha))
    rcases h a0 (List.mem_cons_self a0 rest) with hd | hd
    · rw [contains_block_eq_isSome] at hd
      obtain ⟨bb, hbb⟩ := Option.isSome_iff_exists.mp hd
      refine ⟨bb :: l, ?_⟩
      unfold resolve_ancestors
      rw [hbb, hl]
    · obtain ⟨bb, hbb⟩ := memEntry_iff.mp hd
      cases hg : get_block dag a0 with
      | some found =>
        refine ⟨found :: l, ?_⟩
        unfold resolve_ancestors
        rw [hg, hl]
      | none =>
        refine ⟨bb :: l, ?_⟩
        unfold resolve_ancestors
        rw [hg, hbb, hl]

theorem memEntry_cons {α : Type} (p : BlockRef × α) (m : List (BlockRef × α))
    (a : BlockRef) :
    memEntry (p :: m) a = true ↔ p.1 = a ∨ memEntry m a = true := by
  unfold memEntry findEntry
  rw [List.find?_cons]
  by_cases h : p.1 = a
  · simp [h]
  · simp [h]

theorem verify_loop_allpass {check : Block → List Block → Bool} {dag : DagState} :
    ∀ {L : List Block} {acc : List (BlockRef × Block)} {done : List BlockRef},
    anchored dag done L →
    (∀ a ∈ done, memEntry acc a = true) →
    (∀ x ∈ L, ∀ ancs, check x ancs = true) →
    (L.map Block.reference).Nodup →
    (∀ x ∈ L, memEntry acc x.reference = false) →
    verify_loop check dag L acc [] =
      .ok ((L.reverse.map (fun x => (x.reference, x))) ++ acc, []) := by
  intro L
  induction L with
  | nil =>
    intro acc done _ _ _ _ _
    rfl
  | cons x rest ih =>
    intro acc done hanch hdone hcheck hnd hfresh
    obtain ⟨hx, hrest⟩ := hanch
    have hres : ∀ a ∈ x.ancestors,
        contains_block dag a = true ∨ memEntry acc a = true := by
      intro a ha
      rcases hx a ha with h | h
      · exact Or.inl h
      · exact Or.inr (hdone a h)
    obtain ⟨l, hl⟩ := resolve_ancestors_total hres
    have hchk : check x l = true := hcheck x (List.mem_cons_self x rest) l
    rw [List.map_cons, List.nodup_cons] at hnd
    have hxfresh := hfresh x (List.mem_cons_self x rest)
    have hins : insertEntry acc x.reference x = (x.reference, x) :: acc :=
      insertEntry_absent hxfresh
    have hdone2 : ∀ a ∈ x.reference :: done,
        memEntry ((x.reference, x) :: acc) a = true := by
      intro a ha
      rcases List.mem_cons.mp ha with rfl | ha
      · exact (memEntry_cons _ _ _).mpr (Or.inl rfl)
      · exact (memEntry_cons _ _ _).mpr (Or.inr (hdone a ha))
    have hfresh2 : ∀ y ∈ rest, memEntry ((x.reference, x) :: acc) y.reference = false := by
      intro y hy
      rw [Bool.eq_false_iff]
      intro hc
      rcases (memEntry_cons _ _ _).mp hc with hc2 | hc2
      · refine hnd.1 ?_
        have hyy := List.mem_map_of_mem Block.reference hy
        rw [← hc2] at hyy
        exact hyy
      · rw [hfresh y (List.mem_cons_of_mem x hy)] at hc2
        cases hc2
    have hrec := @ih ((x.reference, x) :: acc) (x.reference :: done)
      hrest hdone2 (fun y hy => hcheck y (List.mem_cons_of_mem x hy)) hnd.2 hfresh2
    show verify_loop check dag (x :: rest) acc [] = _
    unfold verify_loop
    rw [hl]
    dsimp only
    rw [if_pos hchk, hins, hrec]
    simp

theorem process_children_total {dep : BlockRef} : ∀ {C : List BlockRef}
    {s : BlockManager} {pushed : List Block} {uns : List SuspendedBlock},
    C.Nodup →
    (∀ k ∈ C, ∃ sb, suspendedAt s k = some sb ∧ dep ∈ sb.missing_ancestors) →
    (s.suspended_blocks.map Prod.fst).Nodup →
    (∀ k sb, suspendedAt s k = some sb → sb.block.reference = k) →
    ∃ s2 newUns,
      process_children dep s C pushed uns =
        .ok (s2, pushed ++ newUns.map SuspendedBlock.block, uns ++ newUns) ∧
      s2.dag_state = s.dag_state ∧
      s2.missing_blocks = s.missing_blocks ∧
      s2.missing_ancestors = s.missing_ancestors ∧
      (∀ k, k ∉ C → suspendedAt s2 k = suspendedAt s k) ∧
      (∀ k ∈ C, ∀ sb, suspendedAt s k = some sb →
        ((eraseRef sb.missing_ancestors dep).isEmpty = true →
          suspendedAt s2 k = none ∧
          (⟨sb.block, eraseRef sb.missing_ancestors dep⟩ : SuspendedBlock) ∈ newUns) ∧
        ((eraseRef sb.missing_ancestors dep).isEmpty = false →
          suspendedAt s2 k = some ⟨sb.block, eraseRef sb.missing_ancestors dep⟩)) ∧
      (∀ u ∈ newUns, ∃ k, k ∈ C ∧ ∃ sb, suspendedAt s k = some sb ∧
        u = ⟨sb.block, eraseRef sb.missing_ancestors dep⟩ ∧
        (eraseRef sb.missing_ancestors dep).isEmpty = true) ∧
      s2.suspended_blocks.length + newUns.length = s.suspended_blocks.length ∧
      (s2.suspended_blocks.map Prod.fst).Nodup ∧
      (newUns.map (fun u => u.block.reference)).Nodup := by
  intro C
  induction C with
  | nil =>
    intro s pushed uns _ _ hknd _
    refine ⟨s, [], by simp [process_children], rfl, rfl, rfl, fun k _ => rfl,
      fun k hk => absurd hk (List.not_mem_nil k), fun u hu => absurd hu (List.not_mem_nil u),
      by simp, hknd, List.nodup_nil⟩
  | cons r rest ih =>
    intro s pushed uns hnd hC hknd hrefc
    rw [List.nodup_cons] at hnd
    obtain ⟨sbr, hsbr, hdepr⟩ := hC r (List.mem_cons_self r rest)
    have hmemr : memEntry s.suspended_blocks r = true := memEntry_iff.mpr ⟨sbr, hsbr⟩
    by_cases hemp : (eraseRef sbr.missing_ancestors dep).isEmpty = true
    · have heq : try_unsuspend_block s r dep =
          .ok ({ s with suspended_blocks := eraseEntry s.suspended_blocks r },
            some ⟨sbr.block, eraseRef sbr.missing_ancestors dep⟩) := by
        unfold try_unsuspend_block
        rw [show (findEntry s.suspended_blocks r : Option SuspendedBlock) = some sbr
          from hsbr]
        dsimp only
        rw [if_pos hdepr, if_pos hemp]
      have hs1at : ∀ k, suspendedAt
          { s with suspended_blocks := eraseEntry s.suspended_blocks r } k =
          if k = r then none else suspendedAt s k := by
        intro k
        unfold suspendedAt
        exact findEntry_eraseEntry s.suspended_blocks r k
      have hC1 : ∀ k ∈ rest, ∃ sb, suspendedAt
          { s with suspended_blocks := eraseEntry s.suspended_blocks r } k = some sb ∧
          dep ∈ sb.missing_ancestors := by
        intro k hk
        obtain ⟨sb, h1, h2⟩ := hC k (List.mem_cons_of_mem r hk)
        refine ⟨sb, ?_, h2⟩
        rw [hs1at k, if_neg ?_]
        · exact h1
        · intro hc
          exact hnd.1 (hc ▸ hk)
      have hrefc1 : ∀ k sb, suspendedAt
          { s with suspended_blocks := eraseEntry s.suspended_blocks r } k = some sb →
          sb.block.reference = k := by
        intro k sb hk
        rw [hs1at k] at hk
        by_cases hkr : k = r
        · rw [if_pos hkr] at hk
          cases hk
        · rw [if_neg hkr] at hk
          exact hrefc k sb hk
      obtain ⟨s2, newUns, g0, g1, g2, g3, g4, g5, g6, g7, g8, g9⟩ :=
        ih hnd.2 hC1 (keys_eraseEntry_nodup hknd) hrefc1
      refine ⟨s2, ⟨sbr.block, eraseRef sbr.missing_ancestors dep⟩ :: newUns, ?_, g1, g2, g3,
        ?_, ?_, ?_, ?_, g8, ?_⟩
      · rw [process_children, heq]
        dsimp only
        rw [g0]
        simp
      · intro k hk
        have hkr : ¬ k = r := fun hc => hk (hc ▸ List.mem_cons_self r rest)
        have hkrest : k ∉ rest := fun hc => hk (List.mem_cons_of_mem r hc)
        rw [g4 k hkrest, hs1at k, if_neg hkr]
      · intro k hk sb hsb
        rcases List.mem_cons.mp hk with rfl | hk
        · rw [hsbr] at hsb
          obtain rfl := Option.some.inj hsb
          constructor
          · intro _
            refine ⟨?_, List.mem_cons_self _ _⟩
            rw [g4 k hnd.1, hs1at k, if_pos rfl]
          · intro hc
            rw [hemp] at hc
            cases hc
        · have hkr : ¬ k = r := fun hc => hnd.1 (hc ▸ hk)
          have hsb1 : suspendedAt
              { s with suspended_blocks := eraseEntry s.suspended_blocks r } k = some sb := by
            rw [hs1at k, if_neg hkr]
            exact hsb
          obtain ⟨c1, c2⟩ := g5 k hk sb hsb1
          exact ⟨fun he => ⟨(c1 he).1, List.mem_cons_of_mem _ (c1 he).2⟩, c2⟩
      · intro u hu
        rcases List.mem_cons.mp hu with rfl | hu
        · exact ⟨r, List.mem_cons_self r rest, sbr, hsbr, rfl, hemp⟩
        · obtain ⟨k, hk, sb, h1, h2, h3⟩ := g6 u hu
          have hkr : ¬ k = r := fun hc => hnd.1 (hc ▸ hk)
          rw [hs1at k, if_neg hkr] at h1
          exact ⟨k, List.mem_cons_of_mem r hk, sb, h1, h2, h3⟩
      · have hlen : (eraseEntry s.suspended_blocks r).length + 1 =
            s.suspended_blocks.length := length_eraseEntry_present hknd hmemr
        dsimp only at g7
        simp only [List.length_cons]
        omega
      · simp only [List.map_cons]
        refine List.Nodup.cons ?_ g9
        intro hc
        rcases List.mem_map.mp hc with ⟨u, hu, hueq⟩
        obtain ⟨k, hk, sb, h1, h2, h3⟩ := g6 u hu
        have hub : u.block.reference = k := by
          rw [h2]
          exact hrefc1 k sb h1
        have hrr : sbr.block.reference = r := hrefc r sbr hsbr
        have hkr : k = r := hub.symm.trans (hueq.trans hrr)
        rw [hkr] at hk
        exact hnd.1 hk
    · have hemp2 : (eraseRef sbr.missing_ancestors dep).isEmpty = false := by
        cases hh : (eraseRef sbr.missing_ancestors dep).isEmpty
        · rfl
        · exact absurd hh hemp
      obtain ⟨sb2, hsb2⟩ : ∃ sb2 : SuspendedBlock,
          sb2 = ⟨sbr.block, eraseRef sbr.missing_ancestors dep⟩ := ⟨_, rfl⟩
      have heq : try_unsuspend_block s r dep =
          .ok ({ s with suspended_blocks := insertEntry s.suspended_blocks r sb2 },
            none) := by
        unfold try_unsuspend_block
        rw [show (findEntry s.suspended_blocks r : Option SuspendedBlock) = some sbr
          from hsbr]
        dsimp only
        rw [if_pos hdepr, if_neg (by rw [hemp2]; intro hc; cases hc), hsb2]
      have hs1at : ∀ k, suspendedAt
          { s with suspended_blocks := insertEntry s.suspended_blocks r sb2 } k =
          if k = r then some sb2 else suspendedAt s k := by
        intro k
        unfold suspendedAt
        exact findEntry_insertEntry s.suspended_blocks r k sb2
      have hC1 : ∀ k ∈ rest, ∃ sb, suspendedAt
          { s with suspended_blocks := insertEntry s.suspended_blocks r sb2 } k = some sb ∧
          dep ∈ sb.missing_ancestors := by
        intro k hk
        obtain ⟨sb, h1, h2⟩ := hC k (List.mem_cons_of_mem r hk)
        refine ⟨sb, ?_, h2⟩
        rw [hs1at k, if_neg ?_]
        · exact h1
        · intro hc
          exact hnd.1 (hc ▸ hk)
      have hrefc1 : ∀ k sb, suspendedAt
          { s with suspended_blocks := insertEntry s.suspended_blocks r sb2 } k = some sb →
          sb.block.reference = k := by
        intro k sb hk
        rw [hs1at k] at hk
        by_cases hkr : k = r
        · rw [if_pos hkr] at hk
          obtain rfl := Option.some.inj hk.symm
          rw [hkr, hsb2]
          exact hrefc r sbr hsbr
        · rw [if_neg hkr] at hk
          exact hrefc k sb hk
      obtain ⟨s2, newUns, g0, g1, g2, g3, g4, g5, g6, g7, g8, g9⟩ :=
        ih hnd.2 hC1 (keys_insertEntry_nodup r sb2 hknd) hrefc1
      refine ⟨s2, newUns, ?_, g1, g2, g3, ?_, ?_, ?_, ?_, g8, g9⟩
      · rw [process_children, heq]
        dsimp only
        rw [g0]
      · intro k hk
        have hkr : ¬ k = r := fun hc => hk (hc ▸ List.mem_cons_self r rest)
        have hkrest : k ∉ rest := fun hc => hk (List.mem_cons_of_mem r hc)
        rw [g4 k hkrest, hs1at k, if_neg hkr]
      · intro k hk sb hsb
        rcases List.mem_cons.mp hk with rfl | hk
        · rw [hsbr] at hsb
          obtain rfl := Option.some.inj hsb
          constructor
          · intro hc
            rw [hemp2] at hc
            cases hc
          · intro _
            rw [g4 k hnd.1, hs1at k, if_pos rfl, hsb2]
        · have hkr : ¬ k = r := fun hc => hnd.1 (hc ▸ hk)
          have hsb1 : suspendedAt
              { s with suspended_blocks := insertEntry s.suspended_blocks r sb2 } k =
              some sb := by
            rw [hs1at k, if_neg hkr]
            exact hsb
          exact g5 k hk sb hsb1
      · intro u hu
        obtain ⟨k, hk, sb, h1, h2, h3⟩ := g6 u hu
        have hkr : ¬ k = r := fun hc => hnd.1 (hc ▸ hk)
        rw [hs1at k, if_neg hkr] at h1
        exact ⟨k, List.mem_cons_of_mem r hk, sb, h1, h2, h3⟩
      · have hlen : (insertEntry s.suspended_blocks r sb2).length =
            s.suspended_blocks.length := length_insertEntry_present hknd hmemr
        dsimp only at g7
        omega

theorem anchored_of_forall {dag : DagState} : ∀ {L : List Block} {done : List BlockRef},
    (∀ x ∈ L, ∀ a ∈ x.ancestors, contains_block dag a = true ∨ a ∈ done) →
    anchored dag done L := by
  intro L
  induction L with
  | nil =>
    intro done _
    trivial
  | cons x rest ih =>
    intro done h
    refine ⟨h x (List.mem_cons_self x rest), ?_⟩
    refine anchored_mono (fun r hr => List.mem_cons_of_mem x.reference hr) ?_
    exact ih (fun y hy => h y (List.mem_cons_of_mem x hy))

theorem anchored_append {dag : DagState} : ∀ {L1 L2 : List Block} {done : List BlockRef},
    anchored dag done L1 →
    anchored dag (L1.map Block.reference ++ done) L2 →
    anchored dag done (L1 ++ L2) := by
  intro L1
  induction L1 with
  | nil =>
    intro L2 done _ h2
    exact h2
  | cons x l1 ih =>
    intro L2 done h1 h2
    obtain ⟨hx, h1'⟩ := h1
    refine ⟨hx, ?_⟩
    refine ih h1' (anchored_mono ?_ h2)
    intro r hr
    rcases List.mem_append.mp hr with hr | hr
    · rcases List.mem_cons.mp hr with rfl | hr
      · exact List.mem_append_right _ (List.mem_cons_self _ _)
      · exact List.mem_append_left _ hr
    · exact List.mem_append_right _ (List.mem_cons_of_mem _ hr)

theorem eraseRef_isEmpty_subset {l : List BlockRef} {r : BlockRef}
    (h : (eraseRef l r).isEmpty = true) : ∀ x ∈ l, x = r := by
  intro x hx
  by_contra hne
  have hmem : x ∈ eraseRef l r := mem_eraseRef.mpr ⟨hx, hne⟩
  rw [List.isEmpty_iff.mp h] at hmem
  cases hmem

theorem childrenOf_eraseIndex (s : BlockManager) (dep a : BlockRef) :
    childrenOf { s with missing_ancestors := eraseEntry s.missing_ancestors dep } a =
      if a = dep then [] else childrenOf s a := by
  unfold childrenOf
  dsimp only
  rw [findEntry_eraseEntry]
  by_cases h : a = dep
  · rw [if_pos h, if_pos h]
    rfl
  · rw [if_neg h, if_neg h]

theorem unsuspend_loop_total : ∀ {fuel : Nat} {s : BlockManager} {stack : List Block}
    {uns : List SuspendedBlock} {done : List BlockRef},
    (∀ a k, k ∈ childrenOf s a ↔
      ∃ sb, suspendedAt s k = some sb ∧ a ∈ sb.missing_ancestors) →
    (∀ a, (childrenOf s a).Nodup) →
    (s.suspended_blocks.map Prod.fst).Nodup →
    (∀ r ∈ s.missing_blocks, ∃ k sb, suspendedAt s k = some sb ∧
      r ∈ sb.missing_ancestors) →
    (∀ k sb, suspendedAt s k = some sb → sb.block.reference = k) →
    (∀ x ∈ s.missing_blocks, suspendedAt s x = none) →
    (∀ k sb, suspendedAt s k = some sb → ∀ a ∈ sb.block.ancestors,
      a ∈ sb.missing_ancestors ∨ contains_block s.dag_state a = true ∨ a ∈ done) →
    (∀ b ∈ stack, b.reference ∈ done) →
    (∀ b ∈ stack, b.reference ∉ s.missing_blocks) →
    stack.length + s.suspended_blocks.length + 1 ≤ fuel →
    ∃ s2 newUns,
      unsuspend_loop fuel s stack uns = .ok (s2, uns ++ newUns) ∧
      (∀ a k, k ∈ childrenOf s2 a ↔
        ∃ sb, suspendedAt s2 k = some sb ∧ a ∈ sb.missing_ancestors) ∧
      (∀ a, (childrenOf s2 a).Nodup) ∧
      (s2.suspended_blocks.map Prod.fst).Nodup ∧
      (∀ r ∈ s2.missing_blocks, ∃ k sb, suspendedAt s2 k = some sb ∧
        r ∈ sb.missing_ancestors) ∧
      (∀ k sb, suspendedAt s2 k = some sb → sb.block.reference = k) ∧
      (∀ x ∈ s2.missing_blocks, suspendedAt s2 x = none) ∧
      (∀ k sb, suspendedAt s2 k = some sb → ∀ a ∈ sb.block.ancestors,
        a ∈ sb.missing_ancestors ∨ contains_block s2.dag_state a = true ∨
        a ∈ done ∨ a ∈ newUns.map (fun u => u.block.reference)) ∧
      anchored s.dag_state done (newUns.map SuspendedBlock.block) ∧
      (∀ b ∈ stack, childrenOf s2 b.reference = []) ∧
      (∀ u ∈ newUns, childrenOf s2 u.block.reference = []) ∧
      s2.suspended_blocks.length + newUns.length = s.suspended_blocks.length ∧
      (newUns.map (fun u => u.block.reference)).Nodup ∧
      (∀ k sb, suspendedAt s k = some sb →
        (∃ sb2, suspendedAt s2 k = some sb2 ∧ sb2.block = sb.block) ∨
        ∃ u ∈ newUns, u.block = sb.block) := by
  intro fuel
  induction fuel with
  | zero =>
    intro s stack uns done _ _ _ _ _ _ _ _ _ hfuel
    exact absurd hfuel (by omega)
  | succ fuel ih =>
    intro s stack uns done hsync hinodup hknodup hmcomp hrefc hGdisj hancd hstackdone
      hstackmiss hfuel
    match stack with
    | [] =>
      refine ⟨s, [], by rw [List.append_nil]; rfl, hsync, hinodup, hknodup, hmcomp, hrefc,
        hGdisj, ?_, trivial, fun b hb => absurd hb (List.not_mem_nil b),
        fun u hu => absurd hu (List.not_mem_nil u), by simp, List.nodup_nil,
        fun k sb hk => Or.inl ⟨sb, hk, rfl⟩⟩
      intro k sb hk a ha
      rcases hancd k sb hk a ha with h | h | h
      · exact Or.inl h
      · exact Or.inr (Or.inl h)
      · exact Or.inr (Or.inr (Or.inl h))
    | block :: rest =>
      have hs1s : ∀ k, suspendedAt
          { s with missing_ancestors := eraseEntry s.missing_ancestors block.reference } k =
          suspendedAt s k := fun _ => rfl
      have hCsound : ∀ k ∈ childrenOf s block.reference, ∃ sb, suspendedAt
          { s with missing_ancestors := eraseEntry s.missing_ancestors block.reference } k =
          some sb ∧ block.reference ∈ sb.missing_ancestors := by
        intro k hk
        obtain ⟨sb, hsb, hdep⟩ := (hsync block.reference k).mp hk
        exact ⟨sb, hsb, hdep⟩
      obtain ⟨sMid, pcNew, pc0, pcdag, pcmiss, pcma, pcuntouched, pckey, pcorigin,
        pclen, pcknodup, pcrefnd⟩ :=
        process_children_total (hinodup block.reference) hCsound hknodup hrefc
      dsimp only at pcdag pcmiss pclen
      have hblockdone : block.reference ∈ done :=
        hstackdone block (List.mem_cons_self block rest)
      have hblockmiss : block.reference ∉ s.missing_blocks :=
        hstackmiss block (List.mem_cons_self block rest)
      have hchMid : ∀ a, childrenOf sMid a =
          if a = block.reference then [] else childrenOf s a := by
        intro a
        have h1 : childrenOf sMid a = childrenOf
            { s with missing_ancestors := eraseEntry s.missing_ancestors block.reference }
            a := by
          unfold childrenOf
          rw [pcma]
        rw [h1, childrenOf_eraseIndex]
      have hkeyS : ∀ k ∈ childrenOf s block.reference, ∀ sb, suspendedAt s k = some sb →
          ((eraseRef sb.missing_ancestors block.reference).isEmpty = true →
            suspendedAt sMid k = none ∧
            (⟨sb.block, eraseRef sb.missing_ancestors block.reference⟩ : SuspendedBlock)
              ∈ pcNew) ∧
          ((eraseRef sb.missing_ancestors block.reference).isEmpty = false →
            suspendedAt sMid k =
              some ⟨sb.block, eraseRef sb.missing_ancestors block.reference⟩) := by
        intro k hk sb hsb
        exact pckey k hk sb hsb
      have huntouchedS : ∀ k, k ∉ childrenOf s block.reference →
          suspendedAt sMid k = suspendedAt s k := by
        intro k hk
        rw [pcuntouched k hk, hs1s k]
      have hsyncMid : ∀ a k, k ∈ childrenOf sMid a ↔
          ∃ sb, suspendedAt sMid k = some sb ∧ a ∈ sb.missing_ancestors := by
        intro a k
        by_cases ha : a = block.reference
        · rw [hchMid a, if_pos ha]
          constructor
          · intro hk
            cases hk
          · rintro ⟨sb, hsb, hadep⟩
            by_cases hkC : k ∈ childrenOf s block.reference
            · obtain ⟨sbOld, hOld, hdepOld⟩ := (hsync block.reference k).mp hkC
              obtain ⟨cemp, cnemp⟩ := hkeyS k hkC sbOld hOld
              by_cases hemp : (eraseRef sbOld.missing_ancestors block.reference).isEmpty
                  = true
              · rw [(cemp hemp).1] at hsb
                cases hsb
              · have hne : (eraseRef sbOld.missing_ancestors block.reference).isEmpty
                    = false := by
                  cases hh : (eraseRef sbOld.missing_ancestors block.reference).isEmpty
                  · rfl
                  · exact absurd hh hemp
                rw [cnemp hne] at hsb
                obtain rfl := Option.some.inj hsb.symm
                exact absurd ha (mem_eraseRef.mp hadep).2
            · rw [huntouchedS k hkC] at hsb
              have hkC2 : k ∈ childrenOf s block.reference :=
                (hsync block.reference k).mpr ⟨sb, hsb, ha ▸ hadep⟩
              exact absurd hkC2 hkC
        · rw [hchMid a, if_neg ha]
          constructor
          · intro hk
            obtain ⟨sb, hsb, hasb⟩ := (hsync a k).mp hk
            by_cases hkC : k ∈ childrenOf s block.reference
            · obtain ⟨cemp, cnemp⟩ := hkeyS k hkC sb hsb
              by_cases hemp : (eraseRef sb.missing_ancestors block.reference).isEmpty = true
              · have := eraseRef_isEmpty_subset hemp a hasb
                exact absurd this ha
              · have hne : (eraseRef sb.missing_ancestors block.reference).isEmpty
                    = false := by
                  cases hh : (eraseRef sb.missing_ancestors block.reference).isEmpty
                  · rfl
                  · exact absurd hh hemp
                exact ⟨⟨sb.block, eraseRef sb.missing_ancestors block.reference⟩,
                  cnemp hne, mem_eraseRef.mpr ⟨hasb, ha⟩⟩
            · exact ⟨sb, by rw [huntouchedS k hkC]; exact hsb, hasb⟩
          · rintro ⟨sb, hsb, hasb⟩
            by_cases hkC : k ∈ childrenOf s block.reference
            · obtain ⟨sbOld, hOld, hdepOld⟩ := (hsync block.reference k).mp hkC
              obtain ⟨cemp, cnemp⟩ := hkeyS k hkC sbOld hOld
              by_cases hemp : (eraseRef sbOld.missing_ancestors block.reference).isEmpty
                  = true
              · rw [(cemp hemp).1] at hsb
                cases hsb
              · have hne : (eraseRef sbOld.missing_ancestors block.reference).isEmpty
                    = false := by
                  cases hh : (eraseRef sbOld.missing_ancestors block.reference).isEmpty
                  · rfl
                  · exact absurd hh hemp
                rw [cnemp hne] at hsb
                obtain rfl := Option.some.inj hsb.symm
                exact (hsync a k).mpr ⟨sbOld, hOld, eraseRef_sub hasb⟩
            · rw [huntouchedS k hkC] at hsb
              exact (hsync a k).mpr ⟨sb, hsb, hasb⟩
      have hinodupMid : ∀ a, (childrenOf sMid a).Nodup := by
        intro a
        rw [hchMid a]
        by_cases ha : a = block.reference
        · rw [if_pos ha]
          exact List.nodup_nil
        · rw [if_neg ha]
          exact hinodup a
      have hmissMid : sMid.missing_blocks = s.missing_blocks := pcmiss
      have hmcompMid : ∀ r ∈ sMid.missing_blocks, ∃ k sb, suspendedAt sMid k = some sb ∧
          r ∈ sb.missing_ancestors := by
        intro r hr
        rw [hmissMid] at hr
        obtain ⟨k, sb, hk, hrsb⟩ := hmcomp r hr
        by_cases hkC : k ∈ childrenOf s block.reference
        · obtain ⟨cemp, cnemp⟩ := hkeyS k hkC sb hk
          by_cases hemp : (eraseRef sb.missing_ancestors block.reference).isEmpty = true
          · have := eraseRef_isEmpty_subset hemp r hrsb
            rw [this] at hr
            exact absurd hr hblockmiss
          · have hne : (eraseRef sb.missing_ancestors block.reference).isEmpty = false := by
              cases hh : (eraseRef sb.missing_ancestors block.reference).isEmpty
              · rfl
              · exact absurd hh hemp
            have hrne : ¬ r = block.reference := by
              intro hc
              rw [hc] at hr
              exact hblockmiss hr
            exact ⟨k, ⟨sb.block, eraseRef sb.missing_ancestors block.reference⟩,
              cnemp hne, mem_eraseRef.mpr ⟨hrsb, hrne⟩⟩
        · exact ⟨k, sb, by rw [huntouchedS k hkC]; exact hk, hrsb⟩
      have hrefcMid : ∀ k sb, suspendedAt sMid k = some sb → sb.block.reference = k := by
        intro k sb hk
        by_cases hkC : k ∈ childrenOf s block.reference
        · obtain ⟨sbOld, hOld, hdepOld⟩ := (hsync block.reference k).mp hkC
          obtain ⟨cemp, cnemp⟩ := hkeyS k hkC sbOld hOld
          by_cases hemp : (eraseRef sbOld.missing_ancestors block.reference).isEmpty = true
          · rw [(cemp hemp).1] at hk
            cases hk
          · have hne : (eraseRef sbOld.missing_ancestors block.reference).isEmpty
                = false := by
              cases hh : (eraseRef sbOld.missing_ancestors block.reference).isEmpty
              · rfl
              · exact absurd hh hemp
            rw [cnemp hne] at hk
            obtain rfl := Option.some.inj hk.symm
            exact hrefc k sbOld hOld
        · rw [huntouchedS k hkC] at hk
          exact hrefc k sb hk
      have hGdisjMid : ∀ x ∈ sMid.missing_blocks, suspendedAt sMid x = none := by
        intro x hx
        rw [hmissMid] at hx
        by_cases hxC : x ∈ childrenOf s block.reference
        · obtain ⟨sb, hsb, _⟩ := (hsync block.reference x).mp hxC
          rw [hGdisj x hx] at hsb
          cases hsb
        · rw [huntouchedS x hxC]
          exact hGdisj x hx
      have hcontMid : ∀ a, contains_block sMid.dag_state a = contains_block s.dag_state a :=
        by
        intro a
        rw [pcdag]
      have hancdMid : ∀ k sb, suspendedAt sMid k = some sb → ∀ a ∈ sb.block.ancestors,
          a ∈ sb.missing_ancestors ∨ contains_block sMid.dag_state a = true ∨
          a ∈ done ++ pcNew.map (fun u => u.block.reference) := by
        intro k sb hk a ha
        by_cases hkC : k ∈ childrenOf s block.reference
        · obtain ⟨sbOld, hOld, hdepOld⟩ := (hsync block.reference k).mp hkC
          obtain ⟨cemp, cnemp⟩ := hkeyS k hkC sbOld hOld
          by_cases hemp : (eraseRef sbOld.missing_ancestors block.reference).isEmpty = true
          · rw [(cemp hemp).1] at hk
            cases hk
          · have hne : (eraseRef sbOld.missing_ancestors block.reference).isEmpty
                = false := by
              cases hh : (eraseRef sbOld.missing_ancestors block.reference).isEmpty
              · rfl
              · exact absurd hh hemp
            rw [cnemp hne] at hk
            obtain rfl := Option.some.inj hk.symm
            rcases hancd k sbOld hOld a ha with h | h | h
            · by_cases hadep : a = block.reference
              · exact Or.inr (Or.inr (List.mem_append_left _ (hadep ▸ hblockdone)))
              · exact Or.inl (mem_eraseRef.mpr ⟨h, hadep⟩)
            · exact Or.inr (Or.inl (by rw [hcontMid a]; exact h))
            · exact Or.inr (Or.inr (List.mem_append_left _ h))
        · rw [huntouchedS k hkC] at hk
          rcases hancd k sb hk a ha with h | h | h
          · exact Or.inl h
          · exact Or.inr (Or.inl (by rw [hcontMid a]; exact h))
          · exact Or.inr (Or.inr (List.mem_append_left _ h))
      have hpcOriginS : ∀ u ∈ pcNew, ∃ k, k ∈ childrenOf s block.reference ∧
          ∃ sb, suspendedAt s k = some sb ∧
          u = ⟨sb.block, eraseRef sb.missing_ancestors block.reference⟩ ∧
          (eraseRef sb.missing_ancestors block.reference).isEmpty = true := by
        intro u hu
        obtain ⟨k, hk1, sb, hk2, hk3, hk4⟩ := pcorigin u hu
        exact ⟨k, hk1, sb, by rw [← hs1s k]; exact hk2, hk3, hk4⟩
      have hpcrefs : ∀ u ∈ pcNew, u.block.reference ∉ s.missing_blocks ∧
          u.block.reference ∈ done ++ pcNew.map (fun v => v.block.reference) := by
        intro u hu
        obtain ⟨k, hk1, sb, hk2, hk3, hk4⟩ := hpcOriginS u hu
        have hub : u.block = sb.block := by rw [hk3]
        have hkr : u.block.reference = k := by
          rw [hub]
          exact hrefc k sb hk2
        constructor
        · intro hc
          rw [hkr] at hc
          rw [hGdisj k hc] at hk2
          cases hk2
        · exact List.mem_append_right _ (List.mem_map_of_mem _ hu)
      have hstackdone2 : ∀ b ∈ (pcNew.map SuspendedBlock.block).reverse ++ rest,
          b.reference ∈ done ++ pcNew.map (fun u => u.block.reference) := by
        intro b hb
        rcases List.mem_append.mp hb with hb | hb
        · rw [List.mem_reverse] at hb
          rcases List.mem_map.mp hb with ⟨u, hu, rfl⟩
          exact (hpcrefs u hu).2
        · exact List.mem_append_left _
            (hstackdone b (List.mem_cons_of_mem block hb))
      have hstackmiss2 : ∀ b ∈ (pcNew.map SuspendedBlock.block).reverse ++ rest,
          b.reference ∉ sMid.missing_blocks := by
        intro b hb
        rw [hmissMid]
        rcases List.mem_append.mp hb with hb | hb
        · rw [List.mem_reverse] at hb
          rcases List.mem_map.mp hb with ⟨u, hu, rfl⟩
          exact (hpcrefs u hu).1
        · exact hstackmiss b (List.mem_cons_of_mem block hb)
      have hfuel2 : ((pcNew.map SuspendedBlock.block).reverse ++ rest).length +
          sMid.suspended_blocks.length + 1 ≤ fuel := by
        rw [List.length_append, List.length_reverse, List.length_map]
        have h1 : (block :: rest).length = rest.length + 1 := rfl
        rw [h1] at hfuel
        omega
      obtain ⟨s3, recNew, r0, rsync, rinodup, rknodup, rmcomp, rrefc, rGdisj, rancd,
        ranch, rstackch, rnewch, rlen, rrefnd, rpersist⟩ :=
        ih hsyncMid hinodupMid pcknodup hmcompMid hrefcMid hGdisjMid hancdMid
          hstackdone2 hstackmiss2 hfuel2
      obtain ⟨ldag, lmiss, lch, recNewB, hrecu, hrecmem, hrecnone, hrecsome⟩ :=
        unsuspend_loop_ok_facts r0
      have hrecB : recNew = recNewB := List.append_cancel_left hrecu
      rw [← hrecB] at hrecmem
      have hpcnone : ∀ u ∈ pcNew, suspendedAt sMid u.block.reference = none := by
        intro u hu
        obtain ⟨k, hk1, sb, hk2, hk3, hk4⟩ := hpcOriginS u hu
        have hub : u.block = sb.block := by rw [hk3]
        have hkr : u.block.reference = k := by
          rw [hub]
          exact hrefc k sb hk2
        rw [hkr]
        have hk2b : suspendedAt
            { s with missing_ancestors := eraseEntry s.missing_ancestors block.reference }
            k = some sb := hk2
        exact ((pckey k hk1 sb hk2b).1 hk4).1
      refine ⟨s3, pcNew ++ recNew, ?_, rsync, rinodup, rknodup, rmcomp, rrefc, rGdisj,
        ?_, ?_, ?_, ?_, ?_, ?_, ?_⟩
      · rw [unsuspend_loop]
        rw [show ((findEntry s.missing_ancestors block.reference).getD [] :
          List BlockRef) = childrenOf s block.reference from rfl]
        rw [pc0]
        dsimp only
        rw [List.nil_append, r0, List.append_assoc]
      · intro k sb hk a ha
        rcases rancd k sb hk a ha with h | h | h | h
        · exact Or.inl h
        · exact Or.inr (Or.inl h)
        · rcases List.mem_append.mp h with h2 | h2
          · exact Or.inr (Or.inr (Or.inl h2))
          · refine Or.inr (Or.inr (Or.inr ?_))
            rw [List.map_append]
            exact List.mem_append_left _ h2
        · refine Or.inr (Or.inr (Or.inr ?_))
          rw [List.map_append]
          exact List.mem_append_right _ h
      · rw [List.map_append]
        refine anchored_append ?_ ?_
        · refine anchored_of_forall ?_
          intro x hx a ha
          rcases List.mem_map.mp hx with ⟨u, hu, rfl⟩
          obtain ⟨k, hk1, sb, hk2, hk3, hk4⟩ := hpcOriginS u hu
          have hub : u.block = sb.block := by rw [hk3]
          rw [hub] at ha
          rcases hancd k sb hk2 a ha with h | h | h
          · have := eraseRef_isEmpty_subset hk4 a h
            rw [this]
            exact Or.inr hblockdone
          · exact Or.inl h
          · exact Or.inr h
        · have hmapmap : (pcNew.map SuspendedBlock.block).map Block.reference =
              pcNew.map (fun u => u.block.reference) := by
            rw [List.map_map]
            rfl
          rw [hmapmap]
          have hdag3 : sMid.dag_state = s.dag_state := pcdag
          rw [← hdag3]
          refine anchored_mono ?_ ranch
          intro r hr
          rcases List.mem_append.mp hr with hr | hr
          · exact List.mem_append_right _ hr
          · exact List.mem_append_left _ hr
      · intro b hb
        rcases List.mem_cons.mp hb with rfl | hb
        · have hsub : ∀ x, x ∈ childrenOf s3 b.reference → False := by
            intro x hx
            have hx2 := lch b.reference x hx
            rw [hchMid b.reference, if_pos rfl] at hx2
            cases hx2
          exact List.eq_nil_iff_forall_not_mem.mpr hsub
        · exact rstackch b (List.mem_append_right _ hb)
      · intro u hu
        rcases List.mem_append.mp hu with hu | hu
        · refine rstackch u.block ?_
          refine List.mem_append_left _ ?_
          rw [List.mem_reverse]
          exact List.mem_map_of_mem SuspendedBlock.block hu
        · exact rnewch u hu
      · rw [List.length_append]
        omega
      · rw [List.map_append]
        rw [List.nodup_append]
        refine ⟨pcrefnd, rrefnd, ?_⟩
        intro x hx hx2
        rcases List.mem_map.mp hx with ⟨u, hu, rfl⟩
        rcases List.mem_map.mp hx2 with ⟨v, hv, hveq⟩
        obtain ⟨_, kv, sbOldv, hkv1, hkv2, _⟩ := hrecmem v hv
        have hvr : v.block.reference = kv := by
          rw [← hkv2]
          exact hrefcMid kv sbOldv hkv1
        have hnone := hpcnone u hu
        rw [← hveq, hvr] at hnone
        rw [hnone] at hkv1
        cases hkv1
      · intro k sb hk
        by_cases hkC : k ∈ childrenOf s block.reference
        · have hk1 : suspendedAt
              { s with missing_ancestors := eraseEntry s.missing_ancestors block.reference }
              k = some sb := hk
          obtain ⟨cemp, cnemp⟩ := pckey k hkC sb hk1
          by_cases hemp : (eraseRef sb.missing_ancestors block.reference).isEmpty = true
          · exact Or.inr ⟨⟨sb.block, eraseRef sb.missing_ancestors block.reference⟩,
              List.mem_append_left _ (cemp hemp).2, rfl⟩
          · have hne : (eraseRef sb.missing_ancestors block.reference).isEmpty = false := by
              cases hh : (eraseRef sb.missing_ancestors block.reference).isEmpty
              · rfl
              · exact absurd hh hemp
            rcases rpersist k _ (cnemp hne) with ⟨sb2, h1, h2⟩ | ⟨u, hu, hueq⟩
            · exact Or.inl ⟨sb2, h1, h2⟩
            · exact Or.inr ⟨u, List.mem_append_right _ hu, hueq⟩
        · have hk1 : suspendedAt sMid k = some sb := by
            rw [huntouchedS k hkC]
            exact hk
          rcases rpersist k sb hk1 with ⟨sb2, h1, h2⟩ | ⟨u, hu, hueq⟩
          · exact Or.inl ⟨sb2, h1, h2⟩
          · exact Or.inr ⟨u, List.mem_append_right _ hu, hueq⟩

theorem accept_fold_id {bref : BlockRef} : ∀ {anc : List BlockRef}
    {M0 : List BlockRef} {st : BlockManager},
    (∀ a ∈ anc, contains_block st.dag_state a = true) →
    anc.foldl (accept_ancestor_step bref) (M0, st) = (M0, st) := by
  intro anc
  induction anc with
  | nil =>
    intro M0 st _
    rfl
  | cons a rest ih =>
    intro M0 st h
    rw [List.foldl_cons]
    have hstep : accept_ancestor_step bref (M0, st) a = (M0, st) := by
      simp [accept_ancestor_step, h a (List.mem_cons_self a rest)]
    rw [hstep]
    exact ih (fun x hx => h x (List.mem_cons_of_mem a hx))

theorem accept_fold_children_nodup {bref : BlockRef} : ∀ {anc : List BlockRef}
    {M0 : List BlockRef} {st : BlockManager},
    (∀ k, (childrenOf st k).Nodup) →
    ∀ k, (childrenOf (anc.foldl (accept_ancestor_step bref) (M0, st)).2 k).Nodup := by
  intro anc
  induction anc with
  | nil =>
    intro M0 st h k
    exact h k
  | cons a rest ih =>
    intro M0 st h k
    rw [List.foldl_cons]
    by_cases ha : contains_block st.dag_state a = true
    · have hstep : accept_ancestor_step bref (M0, st) a = (M0, st) := by
        simp [accept_ancestor_step, ha]
      rw [hstep]
      exact ih h k
    · have ha2 : contains_block st.dag_state a = false := by
        cases hh : contains_block st.dag_state a
        · rfl
        · exact absurd hh ha
      have hstep : accept_ancestor_step bref (M0, st) a =
          (insertRef M0 a,
            { st with
              missing_ancestors := insertEntry st.missing_ancestors a
                (insertRef ((findEntry st.missing_ancestors a).getD []) bref),
              missing_blocks :=
                if memEntry st.suspended_blocks a then st.missing_blocks
                else insertRef st.missing_blocks a }) := by
        simp [accept_ancestor_step, ha2]
      rw [hstep]
      refine ih ?_ k
      intro k2
      have hch : childrenOf
          { st with
            missing_ancestors := insertEntry st.missing_ancestors a
              (insertRef ((findEntry st.missing_ancestors a).getD []) bref),
            missing_blocks :=
              if memEntry st.suspended_blocks a then st.missing_blocks
              else insertRef st.missing_blocks a } k2 =
          if k2 = a then insertRef (childrenOf st a) bref else childrenOf st k2 := by
        unfold childrenOf
        dsimp only
        rw [findEntry_insertEntry]
        by_cases hk2 : k2 = a
        · rw [if_pos hk2, if_pos hk2]
          rfl
        · rw [if_neg hk2, if_neg hk2]
      rw [hch]
      by_cases hk2 : k2 = a
      · rw [if_pos hk2]
        exact nodup_insertRef (h a)
      · rw [if_neg hk2]
        exact h k2

theorem missingSet_isEmpty_forall {s : BlockManager} {b : Block}
    (h : (missingSet s b).isEmpty = true) :
    ∀ a ∈ b.ancestors, contains_block s.dag_state a = true := by
  intro a ha
  cases hc : contains_block s.dag_state a
  · have : a ∈ missingSet s b := mem_missingSet.mpr ⟨ha, hc⟩
    rw [List.isEmpty_iff.mp h] at this
    cases this
  · rfl

theorem accept_iteration_total {check : Block → List Block → Bool} {s : BlockManager}
    {block : Block}
    (hG : GoodState s)
    (hsync : ∀ a k, k ∈ childrenOf s a ↔
      ∃ sb, suspendedAt s k = some sb ∧ a ∈ sb.missing_ancestors)
    (hinodup : ∀ a, (childrenOf s a).Nodup)
    (hknodup : (s.suspended_blocks.map Prod.fst).Nodup)
    (hmcomp : ∀ r ∈ s.missing_blocks, ∃ k sb, suspendedAt s k = some sb ∧
      r ∈ sb.missing_ancestors)
    (hanc0 : ∀ k sb, suspendedAt s k = some sb → ∀ a ∈ sb.block.ancestors,
      a ∈ sb.missing_ancestors ∨ contains_block s.dag_state a = true)
    (hmnd : ∀ k sb, suspendedAt s k = some sb → ∀ a ∈ sb.missing_ancestors,
      contains_block s.dag_state a = false)
    (hchecksus : ∀ k sb, suspendedAt s k = some sb → ∀ ancs, check sb.block ancs = true)
    (hcheckb : ∀ ancs, check block ancs = true) :
    ∃ s1 out,
      accept_iteration check s block = .ok (s1, out) ∧
      (∀ a k, k ∈ childrenOf s1 a ↔
        ∃ sb, suspendedAt s1 k = some sb ∧ a ∈ sb.missing_ancestors) ∧
      (∀ a, (childrenOf s1 a).Nodup) ∧
      (s1.suspended_blocks.map Prod.fst).Nodup ∧
      (∀ r ∈ s1.missing_blocks, ∃ k sb, suspendedAt s1 k = some sb ∧
        r ∈ sb.missing_ancestors) ∧
      (∀ k sb, suspendedAt s1 k = some sb → ∀ a ∈ sb.block.ancestors,
        a ∈ sb.missing_ancestors ∨ contains_block s1.dag_state a = true) ∧
      (∀ k sb, suspendedAt s1 k = some sb → ∀ a ∈ sb.missing_ancestors,
        contains_block s1.dag_state a = false) ∧
      (∀ k sb, suspendedAt s1 k = some sb → ∀ ancs, check sb.block ancs = true) ∧
      (contains_block s1.dag_state block.reference = true ∨
        memEntry s1.suspended_blocks block.reference = true) ∧
      (∀ r, memEntry s.suspended_blocks r = true →
        memEntry s1.suspended_blocks r = true ∨
        contains_block s1.dag_state r = true) := by
  by_cases hseen : memEntry s.suspended_blocks block.reference = true ∨
      contains_block s.dag_state block.reference = true
  · refine ⟨s, [], ?_, hsync, hinodup, hknodup, hmcomp, hanc0, hmnd, hchecksus, ?_,
      fun r hr => Or.inl hr⟩
    · unfold accept_iteration
      rw [try_accept_one_block_seen s block hseen]
    · rcases hseen with h | h
      · exact Or.inr h
      · exact Or.inl h
  · push_neg at hseen
    have h1 : memEntry s.suspended_blocks block.reference = false := by
      cases hh : memEntry s.suspended_blocks block.reference
      · rfl
      · exact absurd hh hseen.1
    have h2 : contains_block s.dag_state block.reference = false := by
      cases hh : contains_block s.dag_state block.reference
      · rfl
      · exact absurd hh hseen.2
    obtain ⟨s1f, he, hdag1, hmiss1, hch1, hsusE, hsusN⟩ :=
      try_accept_one_block_fresh s block h1 h2
    by_cases hM : (missingSet s block).isEmpty = true
    · -- the accepted path: run the sweep and the verifier
      have hforall : ∀ a ∈ block.ancestors, contains_block s.dag_state a = true :=
        missingSet_isEmpty_forall hM
      have he2 : try_accept_one_block s block =
          ({ s with missing_blocks := eraseRef s.missing_blocks block.reference },
            some block) := by
        rw [try_accept_one_block_eq s block h1 h2, accept_fold_id hforall]
        rfl
      have hs1p : ∀ k, suspendedAt
          { s with missing_blocks := eraseRef s.missing_blocks block.reference } k =
          suspendedAt s k := fun _ => rfl
      obtain ⟨s2, newUns, loop0, lsync, linodup, lknodup, lmcomp, lrefc, lGdisj, lancd,
        lanch, lstackch, lnewch, llen, lrefnd, lpersist⟩ :=
        @unsuspend_loop_total (s.suspended_blocks.length + 2)
          { s with missing_blocks := eraseRef s.missing_blocks block.reference }
          [block] [] [block.reference]
          hsync hinodup hknodup
          (fun r hr => hmcomp r (eraseRef_sub hr))
          (fun k sb hk => (hG.2 k sb hk).2.2)
          (fun x hx => hG.1 x (eraseRef_sub hx))
          (fun k sb hk a ha => by
            rcases hanc0 k sb hk a ha with h | h
            · exact Or.inl h
            · exact Or.inr (Or.inl h))
          (fun b hb => by
            rcases List.mem_cons.mp hb with rfl | hb
            · exact List.mem_cons_self _ _
            · cases hb)
          (fun b hb => by
            rcases List.mem_cons.mp hb with rfl | hb
            · intro hc
              exact (mem_eraseRef.mp hc).2 rfl
            · cases hb)
          (by
            show 1 + s.suspended_blocks.length + 1 ≤ s.suspended_blocks.length + 2
            omega)
      obtain ⟨fdag, fmiss, fch, newUnsB, hfu, hfmem, hfnone, hfsome⟩ :=
        unsuspend_loop_ok_facts loop0
      have hfB : newUns = newUnsB := by
        rw [List.nil_append, List.nil_append] at hfu
        exact hfu
      rw [← hfB] at hfmem
      have hrefS : ∀ u ∈ newUns, ∃ k sbOld, suspendedAt s k = some sbOld ∧
          sbOld.block = u.block ∧ u.block.reference = k := by
        intro u hu
        obtain ⟨_, k, sbOld, hk1, hk2, _⟩ := hfmem u hu
        have hk1s : suspendedAt s k = some sbOld := hk1
        refine ⟨k, sbOld, hk1s, hk2, ?_⟩
        rw [← hk2]
        exact (hG.2 k sbOld hk1s).2.2
      have hcheckL : ∀ x ∈ block :: newUns.map SuspendedBlock.block, ∀ ancs,
          check x ancs = true := by
        intro x hx ancs
        rcases List.mem_cons.mp hx with rfl | hx
        · exact hcheckb ancs
        · rcases List.mem_map.mp hx with ⟨u, hu, rfl⟩
          obtain ⟨k, sbOld, hk1, hk2, _⟩ := hrefS u hu
          rw [← hk2]
          exact hchecksus k sbOld hk1 ancs
      have hndL : ((block :: newUns.map SuspendedBlock.block).map Block.reference).Nodup
          := by
        rw [List.map_cons, List.nodup_cons]
        constructor
        · intro hc
          rcases List.mem_map.mp hc with ⟨y, hy, hyeq⟩
          rcases List.mem_map.mp hy with ⟨u, hu, rfl⟩
          obtain ⟨k, sbOld, hk1, hk2, hk3⟩ := hrefS u hu
          rw [hk3] at hyeq
          rw [hyeq] at hk1
          unfold suspendedAt at hk1
          rw [memEntry_eq_false.mp h1] at hk1
          cases hk1
        · rw [List.map_map]
          exact lrefnd
      have hanchL : anchored s2.dag_state []
          (block :: newUns.map SuspendedBlock.block) := by
        have hd2 : s2.dag_state = s.dag_state := fdag
        refine ⟨?_, ?_⟩
        · intro a ha
          rw [hd2]
          exact Or.inl (hforall a ha)
        · rw [hd2]
          exact lanch
      have hver := verify_loop_allpass hanchL (fun a ha => absurd ha (List.not_mem_nil a))
        hcheckL hndL
        (fun x _ => (rfl : memEntry ([] : List (BlockRef × Block)) x.reference = false))
      obtain ⟨outL, houtL⟩ : ∃ outL, outL =
          sortedValues ((block :: newUns.map SuspendedBlock.block).reverse.map
            (fun x => (x.reference, x)) ++ []) := ⟨_, rfl⟩
      obtain ⟨dagL, hdagL⟩ : ∃ dagL, dagL = accept_blocks s2.dag_state outL := ⟨_, rfl⟩
      obtain ⟨sMid, hsMid⟩ : ∃ sMid : BlockManager, sMid = { s with missing_blocks := eraseRef s.missing_blocks block.reference } := ⟨_, rfl⟩
      have hiter : accept_iteration check s block =
          .ok ({ s2 with dag_state := dagL }, outL) := by
        unfold accept_iteration
        rw [he2]
        dsimp only
        rw [← hsMid] at loop0 ⊢
        rw [List.nil_append] at loop0
        rw [show try_unsuspend_children_blocks sMid block =
            .ok (s2, newUns.map SuspendedBlock.block) from by
          unfold try_unsuspend_children_blocks
          rw [show sMid.suspended_blocks = s.suspended_blocks from by rw [hsMid]]
          rw [loop0]]
        dsimp only
        rw [hver]
        dsimp only
        rw [hdagL, houtL]
      have hproj : ∀ r, contains_block
          ({ s2 with dag_state := dagL } : BlockManager).dag_state r =
          contains_block dagL r := fun _ => rfl
      have hmemout : ∀ x, x ∈ outL ↔ x ∈ block :: newUns.map SuspendedBlock.block := by
        intro x
        rw [houtL, mem_sortedValues]
        constructor
        · rintro ⟨p, hp, hpv⟩
          rw [List.append_nil] at hp
          rcases List.mem_map.mp hp with ⟨y, hy, rfl⟩
          rw [← hpv]
          exact List.mem_reverse.mp hy
        · intro hx
          refine ⟨(x.reference, x), ?_, rfl⟩
          rw [List.append_nil]
          exact List.mem_map_of_mem _ (List.mem_reverse.mpr hx)
      have hcontout : ∀ r, contains_block dagL r = true ↔
          contains_block s2.dag_state r = true ∨
          r = block.reference ∨ ∃ u ∈ newUns, u.block.reference = r := by
        intro r
        rw [hdagL, contains_accept_blocks]
        constructor
        · rintro (h | ⟨b, hb, hbr⟩)
          · exact Or.inl h
          · rw [hmemout b] at hb
            rcases List.mem_cons.mp hb with rfl | hb
            · exact Or.inr (Or.inl hbr.symm)
            · rcases List.mem_map.mp hb with ⟨u, hu, rfl⟩
              exact Or.inr (Or.inr ⟨u, hu, hbr⟩)
        · rintro (h | h | ⟨u, hu, hur⟩)
          · exact Or.inl h
          · refine Or.inr ⟨block, ?_, h.symm⟩
            rw [hmemout]
            exact List.mem_cons_self _ _
          · refine Or.inr ⟨u.block, ?_, hur⟩
            rw [hmemout]
            exact List.mem_cons_of_mem _ (List.mem_map_of_mem _ hu)
      refine ⟨_, _, hiter, lsync, linodup, lknodup, lmcomp, ?_, ?_, ?_, ?_, ?_⟩
      · intro k sb hk a ha
        rcases lancd k sb hk a ha with h | h | h | h
        · exact Or.inl h
        · refine Or.inr ?_
          rw [hproj a, hcontout a]
          exact Or.inl h
        · refine Or.inr ?_
          rw [hproj a, hcontout a]
          rcases List.mem_cons.mp h with rfl | h
          · exact Or.inr (Or.inl rfl)
          · cases h
        · refine Or.inr ?_
          rw [hproj a, hcontout a]
          rcases List.mem_map.mp h with ⟨u, hu, rfl⟩
          exact Or.inr (Or.inr ⟨u, hu, rfl⟩)
      · intro k sb hk a ha
        obtain ⟨sbOld, hOld, hbeq, hsubm, _, _⟩ := hfsome k sb hk
        have hOlds : suspendedAt s k = some sbOld := hOld
        have hodag : contains_block s.dag_state a = false :=
          hmnd k sbOld hOlds a (hsubm a ha)
        rw [hproj a]
        cases hc : contains_block dagL a
        · rfl
        · exfalso
          rw [hcontout a] at hc
          rcases hc with hc | hc | ⟨u, hu, hur⟩
          · rw [show s2.dag_state = s.dag_state from fdag] at hc
            rw [hodag] at hc
            cases hc
          · have hka : k ∈ childrenOf s2 a := (lsync a k).mpr ⟨sb, hk, ha⟩
            rw [hc] at hka
            rw [lstackch block (List.mem_cons_self block [])] at hka
            cases hka
          · have hka : k ∈ childrenOf s2 a := (lsync a k).mpr ⟨sb, hk, ha⟩
            rw [← hur] at hka
            rw [lnewch u hu] at hka
            cases hka
      · intro k sb hk ancs
        obtain ⟨sbOld, hOld, hbeq, _, _, _⟩ := hfsome k sb hk
        rw [hbeq]
        exact hchecksus k sbOld hOld ancs
      · refine Or.inl ?_
        rw [hproj block.reference, hcontout block.reference]
        exact Or.inr (Or.inl rfl)
      · intro r hr
        obtain ⟨sbOld, hOld⟩ := memEntry_iff.mp hr
        have hOldp : suspendedAt
            { s with missing_blocks := eraseRef s.missing_blocks block.reference } r =
            some sbOld := hOld
        rcases lpersist r sbOld hOldp with ⟨sb2, hp1, hp2⟩ | ⟨u, hu, hueq⟩
        · exact Or.inl (memEntry_iff.mpr ⟨sb2, hp1⟩)
        · refine Or.inr ?_
          rw [hproj r, hcontout r]
          refine Or.inr (Or.inr ⟨u, hu, ?_⟩)
          rw [hueq]
          exact (hG.2 r sbOld hOld).2.2
    · -- the suspension path
      have hM2 : (missingSet s block).isEmpty = false := by
        cases hh : (missingSet s block).isEmpty
        · rfl
        · exact absurd hh hM
      have hMne : missingSet s block ≠ [] := by
        intro hc
        rw [hc] at hM2
        cases hM2
      have hiter : accept_iteration check s block = .ok (s1f, []) := by
        unfold accept_iteration
        rw [he, hM2]
        simp only [Bool.false_eq_true, if_false]
      obtain ⟨hkeep, sbNew, hsbNew, hsbBlock, hsbMem⟩ := hsusN hM2
      -- the explicit shape of the suspended state, for the Nodup clauses
      have heq2 := try_accept_one_block_eq s block h1 h2
      rw [he] at heq2
      have hie : ((block.ancestors.foldl (accept_ancestor_step block.reference)
          ([], s)).1).isEmpty = false := by
        cases hh : ((block.ancestors.foldl (accept_ancestor_step block.reference)
            ([], s)).1).isEmpty
        · rfl
        · exfalso
          obtain ⟨_, _, i3, _, _⟩ := accept_fold_spec block.reference block.ancestors [] s
          obtain ⟨y, hy⟩ := List.exists_mem_of_ne_nil _ hMne
          have : y ∈ (block.ancestors.foldl (accept_ancestor_step block.reference)
              ([], s)).1 := by
            rw [i3]
            right
            exact ⟨(mem_missingSet.mp hy).1, (mem_missingSet.mp hy).2⟩
          rw [List.isEmpty_iff.mp hh] at this
          cases this
      rw [hM2] at heq2
      simp only [Bool.false_eq_true, if_false, hie] at heq2
      have hs1f : s1f = { (block.ancestors.foldl (accept_ancestor_step block.reference)
          ([], s)).2 with
            missing_blocks := eraseRef (block.ancestors.foldl
              (accept_ancestor_step block.reference) ([], s)).2.missing_blocks
              block.reference,
            suspended_blocks := insertEntry (block.ancestors.foldl
                (accept_ancestor_step block.reference) ([], s)).2.suspended_blocks
              block.reference
              ⟨block, (block.ancestors.foldl
                (accept_ancestor_step block.reference) ([], s)).1⟩ } :=
        congrArg Prod.fst heq2
      obtain ⟨i1, i2, i3, i4, i5⟩ := accept_fold_spec block.reference block.ancestors [] s
      have hne_of_entry : ∀ k (sb : SuspendedBlock), suspendedAt s k = some sb →
          ¬ k = block.reference := by
        intro k sb hsb hc
        rw [hc] at hsb
        unfold suspendedAt at hsb
        rw [memEntry_eq_false.mp h1] at hsb
        cases hsb
      refine ⟨s1f, [], hiter, ?_, ?_, ?_, ?_, ?_, ?_, ?_, ?_, ?_⟩
      · intro a k
        constructor
        · intro hk
          rcases (hch1 a k).mp hk with hk2 | ⟨haM, rfl⟩
          · obtain ⟨sb, hsb, ha⟩ := (hsync a k).mp hk2
            refine ⟨sb, ?_, ha⟩
            rw [hkeep k (hne_of_entry k sb hsb)]
            exact hsb
          · exact ⟨sbNew, hsbNew, (hsbMem a).mpr haM⟩
        · rintro ⟨sb, hsb1, ha⟩
          by_cases hkb : k = block.reference
          · subst hkb
            rw [hsbNew] at hsb1
            obtain rfl := Option.some.inj hsb1.symm
            exact (hch1 a block.reference).mpr (Or.inr ⟨(hsbMem a).mp ha, rfl⟩)
          · rw [hkeep k hkb] at hsb1
            exact (hch1 a k).mpr (Or.inl ((hsync a k).mpr ⟨sb, hsb1, ha⟩))
      · intro a
        rw [hs1f]
        exact accept_fold_children_nodup hinodup a
      · rw [hs1f]
        refine keys_insertEntry_nodup block.reference _ ?_
        rw [i2]
        exact hknodup
      · intro r hr
        obtain ⟨hr1, hr2⟩ := (hmiss1 r).mp hr
        rcases hr1 with hold | ⟨hrM, _⟩
        · obtain ⟨k, sb, hk, hrs⟩ := hmcomp r hold
          refine ⟨k, sb, ?_, hrs⟩
          rw [hkeep k (hne_of_entry k sb hk)]
          exact hk
        · exact ⟨block.reference, sbNew, hsbNew, (hsbMem r).mpr hrM⟩
      · intro k sb hsb a ha
        by_cases hkb : k = block.reference
        · subst hkb
          rw [hsbNew] at hsb
          obtain rfl := Option.some.inj hsb.symm
          rw [hsbBlock] at ha
          cases hc : contains_block s.dag_state a
          · exact Or.inl ((hsbMem a).mpr (mem_missingSet.mpr ⟨ha, hc⟩))
          · refine Or.inr ?_
            rw [hdag1]
            exact hc
        · rw [hkeep k hkb] at hsb
          rcases hanc0 k sb hsb a ha with h | h
          · exact Or.inl h
          · refine Or.inr ?_
            rw [hdag1]
            exact h
      · intro k sb hsb a ha
        by_cases hkb : k = block.reference
        · subst hkb
          rw [hsbNew] at hsb
          obtain rfl := Option.some.inj hsb.symm
          have haM : a ∈ missingSet s block := (hsbMem a).mp ha
          rw [hdag1]
          exact (mem_missingSet.mp haM).2
        · rw [hkeep k hkb] at hsb
          rw [hdag1]
          exact hmnd k sb hsb a ha
      · intro k sb hsb ancs
        by_cases hkb : k = block.reference
        · subst hkb
          rw [hsbNew] at hsb
          obtain rfl := Option.some.inj hsb.symm
          rw [hsbBlock]
          exact hcheckb ancs
        · rw [hkeep k hkb] at hsb
          exact hchecksus k sb hsb ancs
      · exact Or.inr (memEntry_iff.mpr ⟨sbNew, hsbNew⟩)
      · intro r hr
        obtain ⟨sb, hsb⟩ := memEntry_iff.mp hr
        refine Or.inl (memEntry_iff.mpr ⟨sb, ?_⟩)
        have hne : ¬ r = block.reference := hne_of_entry r sb hsb
        rw [show (findEntry s1f.suspended_blocks r : Option SuspendedBlock) =
          suspendedAt s1f r from rfl, hkeep r hne]
        exact hsb

/-- A reference the manager knows about: either written to the dag or held
    suspended. Once fed, a block's reference stays tracked. -/
abbrev Tracked (s : BlockManager) (r : BlockRef) : Prop :=
  contains_block s.dag_state r = true ∨ memEntry s.suspended_blocks r = true

/-- The recorded missing ancestors of a suspended block are among the block's
    real ancestors: missing sets start as a subset of them and only shrink. -/
def EntrySub (s : BlockManager) : Prop :=
  ∀ k sb, suspendedAt s k = some sb →
    ∀ a ∈ sb.missing_ancestors, a ∈ sb.block.ancestors

theorem suspendedAt_new (d : DagState) (k : BlockRef) :
    suspendedAt (BlockManager.new d) k = none := rfl

theorem childrenOf_new (d : DagState) (k : BlockRef) :
    childrenOf (BlockManager.new d) k = [] := rfl

theorem findEntry_cons_self {α : Type} (p : BlockRef × α) (t : List (BlockRef × α)) :
    findEntry (p :: t) p.1 = some p.2 := by
  simp [findEntry]

theorem unsuspend_loop_entry_sub : ∀ {fuel : Nat} {s : BlockManager}
    {stack : List Block} {uns u2 : List SuspendedBlock} {s2 : BlockManager},
    unsuspend_loop fuel s stack uns = .ok (s2, u2) → EntrySub s → EntrySub s2 := by
  intro fuel
  induction fuel with
  | zero =>
    intro s stack uns u2 s2 h hE
    cases h
  | succ fuel ih =>
    intro s stack uns u2 s2 h hE
    match stack with
    | [] =>
      cases h
      exact hE
    | block :: rest =>
      rw [unsuspend_loop] at h
      cases hpc : process_children block.reference
          { s with missing_ancestors := eraseEntry s.missing_ancestors block.reference }
          ((findEntry s.missing_ancestors block.reference).getD []) [] uns with
      | panicked => rw [hpc] at h; cases h
      | fuelOut => rw [hpc] at h; cases h
      | ok val =>
        obtain ⟨sMid, pushed, unsMid⟩ := val
        rw [hpc] at h
        obtain ⟨p1, p2, p3, pcNew, hpu, hpp, hpcmem, hpcnone, hpcsome⟩ :=
          process_children_ok_facts hpc
        have hE1 : EntrySub { s with
            missing_ancestors := eraseEntry s.missing_ancestors block.reference } := hE
        have hEMid : EntrySub sMid := by
          intro k sb hk a ha
          obtain ⟨sbOld, hOld, hbeq, hsub, _, _⟩ := hpcsome k sb hk
          rw [hbeq]
          exact hE1 k sbOld hOld a (hsub a ha)
        exact ih h hEMid

theorem accept_iteration_entry_sub {check : Block → List Block → Bool}
    {s : BlockManager} {block : Block} {s3 : BlockManager} {out : List Block}
    (hE : EntrySub s)
    (h : accept_iteration check s block = .ok (s3, out)) :
    EntrySub s3 := by
  unfold accept_iteration at h
  by_cases hseen : memEntry s.suspended_blocks block.reference = true ∨
      contains_block s.dag_state block.reference = true
  · rw [try_accept_one_block_seen s block hseen] at h
    cases h
    exact hE
  · push_neg at hseen
    have h1 : memEntry s.suspended_blocks block.reference = false := by
      cases hh : memEntry s.suspended_blocks block.reference
      · rfl
      · exact absurd hh hseen.1
    have h2 : contains_block s.dag_state block.reference = false := by
      cases hh : contains_block s.dag_state block.reference
      · rfl
      · exact absurd hh hseen.2
    obtain ⟨s1, he, hdag1, hmiss1, hch1, hsusE, hsusN⟩ :=
      try_accept_one_block_fresh s block h1 h2
    rw [he] at h
    by_cases hM : (missingSet s block).isEmpty = true
    · rw [if_pos hM] at h
      dsimp only at h
      have hsus1 : s1.suspended_blocks = s.suspended_blocks := hsusE hM
      have hE1 : EntrySub s1 := by
        intro k sb hk a ha
        refine hE k sb ?_ a ha
        unfold suspendedAt at hk ⊢
        rw [← hsus1]
        exact hk
      cases hun : try_unsuspend_children_blocks s1 block with
      | panicked => rw [hun] at h; cases h
      | fuelOut => rw [hun] at h; cases h
      | ok v2 =>
        obtain ⟨s2, unsuspended⟩ := v2
        rw [hun] at h
        dsimp only at h
        unfold try_unsuspend_children_blocks at hun
        cases hloop : unsuspend_loop (s1.suspended_blocks.length + 2) s1 [block] [] with
        | panicked => rw [hloop] at hun; cases hun
        | fuelOut => rw [hloop] at hun; cases hun
        | ok v3 =>
          obtain ⟨s2b, uns⟩ := v3
          rw [hloop] at hun
          have hs2 : s2b = s2 ∧ unsuspended = uns.map SuspendedBlock.block := by
            cases hun
            exact ⟨rfl, rfl⟩
          obtain ⟨rfl, rfl⟩ := hs2
          have hE2 : EntrySub s2b := unsuspend_loop_entry_sub hloop hE1
          cases hver : verify_loop check s2b.dag_state
              (block :: uns.map SuspendedBlock.block) [] [] with
          | panicked => rw [hver] at h; cases h
          | fuelOut => rw [hver] at h; cases h
          | ok v4 =>
            obtain ⟨to_accept, to_reject⟩ := v4
            rw [hver] at h
            cases h
            exact hE2
    · have hM2 : (missingSet s block).isEmpty = false := by
        cases hh : (missingSet s block).isEmpty
        · rfl
        · exact absurd hh hM
      rw [hM2] at h
      simp only [Bool.false_eq_true, if_false] at h
      cases h
      obtain ⟨hkeep, sbNew, hsbNew, hsbBlock, hsbMem⟩ := hsusN hM2
      intro k sb hk a ha
      by_cases hkb : k = block.reference
      · subst hkb
        rw [hsbNew] at hk
        obtain rfl := Option.some.inj hk.symm
        rw [hsbBlock]
        have ham : a ∈ missingSet s block := (hsbMem a).mp ha
        exact (mem_missingSet.mp ham).1
      · have hk2 : suspendedAt s k = some sb := by
          rw [← hkeep k hkb]
          exact hk
        exact hE k sb hk2 a ha

theorem accept_loop_entry_sub {check : Block → List Block → Bool} : ∀ {bs : List Block}
    {s s2 : BlockManager} {out : List Block},
    accept_loop check s bs = .ok (s2, out) → EntrySub s → EntrySub s2 := by
  intro bs
  induction bs with
  | nil =>
    intro s s2 out h hE
    cases h
    exact hE
  | cons b rest ih =>
    intro s s2 out h hE
    unfold accept_loop at h
    cases hit : accept_iteration check s b with
    | panicked => rw [hit] at h; cases h
    | fuelOut => rw [hit] at h; cases h
    | ok v1 =>
      obtain ⟨s1, chunk⟩ := v1
      rw [hit] at h
      dsimp only at h
      cases hrest : accept_loop check s1 rest with
      | panicked => rw [hrest] at h; cases h
      | fuelOut => rw [hrest] at h; cases h
      | ok v2 =>
        obtain ⟨sF, outR⟩ := v2
        rw [hrest] at h
        cases h
        exact ih hrest (accept_iteration_entry_sub hE hit)

theorem try_accept_blocks_entry_sub {check : Block → List Block → Bool}
    {s s2 : BlockManager} {bs out : List Block} {miss : List BlockRef}
    (h : try_accept_blocks check s bs = .ok (s2, out, miss)) (hE : EntrySub s) :
    EntrySub s2 := by
  obtain ⟨hl, _⟩ := try_accept_blocks_ok_elim h
  exact accept_loop_entry_sub hl hE

theorem run_calls_entry_sub {check : Block → List Block → Bool} :
    ∀ {calls : List (List Block)} {s s2 : BlockManager} {outs : List Block},
    run_calls check s calls = .ok (s2, outs) → EntrySub s → EntrySub s2 := by
  intro calls
  induction calls with
  | nil =>
    intro s s2 outs h hE
    cases h
    exact hE
  | cons c rest ih =>
    intro s s2 outs h hE
    unfold run_calls at h
    cases hc : try_accept_blocks check s c with
    | panicked => rw [hc] at h; cases h
    | fuelOut => rw [hc] at h; cases h
    | ok v1 =>
      obtain ⟨s1, chunk, miss⟩ := v1
      rw [hc] at h
      dsimp only at h
      cases hrest : run_calls check s1 rest with
      | panicked => rw [hrest] at h; cases h
      | fuelOut => rw [hrest] at h; cases h
      | ok v2 =>
        obtain ⟨sF, outR⟩ := v2
        rw [hrest] at h
        cases h
        exact ih hrest (try_accept_blocks_entry_sub hc hE)

theorem try_accept_blocks_round_persist {check : Block → List Block → Bool}
    {s s2 : BlockManager} {bs out : List Block} {miss : List BlockRef}
    (hMA : MAval s) (hv : ∀ b ∈ bs, validB b)
    (h : try_accept_blocks check s bs = .ok (s2, out, miss)) : MAval s2 := by
  obtain ⟨hl, _⟩ := try_accept_blocks_ok_elim h
  exact (accept_loop_round_persist (R := 0) hl hMA
    (fun b hb => hv b ((sortB_perm roundLE bs).mem_iff.mp hb))
    (fun b _ => Nat.zero_le _)).1

theorem run_calls_round_persist {check : Block → List Block → Bool} :
    ∀ {calls : List (List Block)} {s s2 : BlockManager} {outs : List Block},
    MAval s → (∀ c ∈ calls, ∀ b ∈ c, validB b) →
    run_calls check s calls = .ok (s2, outs) → MAval s2 := by
  intro calls
  induction calls with
  | nil =>
    intro s s2 outs hMA hv h
    cases h
    exact hMA
  | cons c rest ih =>
    intro s s2 outs hMA hv h
    unfold run_calls at h
    cases hc : try_accept_blocks check s c with
    | panicked => rw [hc] at h; cases h
    | fuelOut => rw [hc] at h; cases h
    | ok v1 =>
      obtain ⟨s1, chunk, miss⟩ := v1
      rw [hc] at h
      dsimp only at h
      cases hrest : run_calls check s1 rest with
      | panicked => rw [hrest] at h; cases h
      | fuelOut => rw [hrest] at h; cases h
      | ok v2 =>
        obtain ⟨sF, outR⟩ := v2
        rw [hrest] at h
        cases h
        exact ih (try_accept_blocks_round_persist hMA
            (fun b hb => hv c (List.mem_cons_self c rest) b hb) hc)
          (fun c2 hc2 b hb => hv c2 (List.mem_cons_of_mem c hc2) b hb) hrest

theorem accept_loop_total {check : Block → List Block → Bool} : ∀ {bs : List Block}
    {s : BlockManager},
    GoodState s →
    (∀ a k, k ∈ childrenOf s a ↔
      ∃ sb, suspendedAt s k = some sb ∧ a ∈ sb.missing_ancestors) →
    (∀ a, (childrenOf s a).Nodup) →
    (s.suspended_blocks.map Prod.fst).Nodup →
    (∀ r ∈ s.missing_blocks, ∃ k sb, suspendedAt s k = some sb ∧
      r ∈ sb.missing_ancestors) →
    (∀ k sb, suspendedAt s k = some sb → ∀ a ∈ sb.block.ancestors,
      a ∈ sb.missing_ancestors ∨ contains_block s.dag_state a = true) →
    (∀ k sb, suspendedAt s k = some sb → ∀ a ∈ sb.missing_ancestors,
      contains_block s.dag_state a = false) →
    (∀ k sb, suspendedAt s k = some sb → ∀ ancs, check sb.block ancs = true) →
    (∀ b ∈ bs, ∀ ancs, check b ancs = true) →
    ∃ s2 out, accept_loop check s bs = .ok (s2, out) ∧
      (∀ a k, k ∈ childrenOf s2 a ↔
        ∃ sb, suspendedAt s2 k = some sb ∧ a ∈ sb.missing_ancestors) ∧
      (∀ a, (childrenOf s2 a).Nodup) ∧
      (s2.suspended_blocks.map Prod.fst).Nodup ∧
      (∀ r ∈ s2.missing_blocks, ∃ k sb, suspendedAt s2 k = some sb ∧
        r ∈ sb.missing_ancestors) ∧
      (∀ k sb, suspendedAt s2 k = some sb → ∀ a ∈ sb.block.ancestors,
        a ∈ sb.missing_ancestors ∨ contains_block s2.dag_state a = true) ∧
      (∀ k sb, suspendedAt s2 k = some sb → ∀ a ∈ sb.missing_ancestors,
        contains_block s2.dag_state a = false) ∧
      (∀ k sb, suspendedAt s2 k = some sb → ∀ ancs, check sb.block ancs = true) ∧
      (∀ b ∈ bs, Tracked s2 b.reference) ∧
      (∀ r, Tracked s r → Tracked s2 r) := by
  intro bs
  induction bs with
  | nil =>
    intro s hG hsync hinodup hknodup hmcomp hanc hmnd hchecksus hcheck
    exact ⟨s, [], rfl, hsync, hinodup, hknodup, hmcomp, hanc, hmnd, hchecksus,
      fun b hb => absurd hb (List.not_mem_nil b), fun r hr => hr⟩
  | cons b0 rest ih =>
    intro s hG hsync hinodup hknodup hmcomp hanc hmnd hchecksus hcheck
    obtain ⟨s1, out1, hit, isync, iinodup, iknodup, imcomp, ianc, imnd, ichecksus,
      itr1, itr2⟩ :=
      accept_iteration_total hG hsync hinodup hknodup hmcomp hanc hmnd hchecksus
        (fun ancs => hcheck b0 (List.mem_cons_self b0 rest) ancs)
    obtain ⟨hG1, _, _, _, imono, _⟩ := accept_iteration_facts hG hit
    obtain ⟨s2, out2, hrest, rsync, rinodup, rknodup, rmcomp, ranc, rmnd, rchecksus,
      rtr1, rtr2⟩ :=
      ih hG1 isync iinodup iknodup imcomp ianc imnd ichecksus
        (fun b hb ancs => hcheck b (List.mem_cons_of_mem b0 hb) ancs)
    refine ⟨s2, out1 ++ out2, ?_, rsync, rinodup, rknodup, rmcomp, ranc, rmnd,
      rchecksus, ?_, ?_⟩
    · rw [accept_loop]
      rw [hit]
      dsimp only
      rw [hrest]
    · intro b hb
      rcases List.mem_cons.mp hb with rfl | hb
      · rcases itr1 with h | h
        · exact rtr2 _ (Or.inl h)
        · exact rtr2 _ (Or.inr h)
      · exact rtr1 b hb
    · intro r hr
      rcases hr with h | h
      · exact rtr2 r (Or.inl (imono r h))
      · rcases itr2 r h with h2 | h2
        · exact rtr2 r (Or.inr h2)
        · exact rtr2 r (Or.inl h2)

theorem try_accept_blocks_total {check : Block → List Block → Bool} {s : BlockManager}
    {bs : List Block}
    (hG : GoodState s)
    (hsync : ∀ a k, k ∈ childrenOf s a ↔
      ∃ sb, suspendedAt s k = some sb ∧ a ∈ sb.missing_ancestors)
    (hinodup : ∀ a, (childrenOf s a).Nodup)
    (hknodup : (s.suspended_blocks.map Prod.fst).Nodup)
    (hmcomp : ∀ r ∈ s.missing_blocks, ∃ k sb, suspendedAt s k = some sb ∧
      r ∈ sb.missing_ancestors)
    (hanc : ∀ k sb, suspendedAt s k = some sb → ∀ a ∈ sb.block.ancestors,
      a ∈ sb.missing_ancestors ∨ contains_block s.dag_state a = true)
    (hmnd : ∀ k sb, suspendedAt s k = some sb → ∀ a ∈ sb.missing_ancestors,
      contains_block s.dag_state a = false)
    (hchecksus : ∀ k sb, suspendedAt s k = some sb → ∀ ancs, check sb.block ancs = true)
    (hcheck : ∀ b ∈ bs, ∀ ancs, check b ancs = true) :
    ∃ s2 out miss, try_accept_blocks check s bs = .ok (s2, out, miss) ∧
      (∀ a k, k ∈ childrenOf s2 a ↔
        ∃ sb, suspendedAt s2 k = some sb ∧ a ∈ sb.missing_ancestors) ∧
      (∀ a, (childrenOf s2 a).Nodup) ∧
      (s2.suspended_blocks.map Prod.fst).Nodup ∧
      (∀ r ∈ s2.missing_blocks, ∃ k sb, suspendedAt s2 k = some sb ∧
        r ∈ sb.missing_ancestors) ∧
      (∀ k sb, suspendedAt s2 k = some sb → ∀ a ∈ sb.block.ancestors,
        a ∈ sb.missing_ancestors ∨ contains_block s2.dag_state a = true) ∧
      (∀ k sb, suspendedAt s2 k = some sb → ∀ a ∈ sb.missing_ancestors,
        contains_block s2.dag_state a = false) ∧
      (∀ k sb, suspendedAt s2 k = some sb → ∀ ancs, check sb.block ancs = true) ∧
      (∀ b ∈ bs, Tracked s2 b.reference) ∧
      (∀ r, Tracked s r → Tracked s2 r) := by
  obtain ⟨s2, out, hloop, csync, cinodup, cknodup, cmcomp, canc, cmnd, cchecksus,
    ctrack, cpersist⟩ :=
    @accept_loop_total check (sortB roundLE bs) s hG hsync hinodup hknodup hmcomp hanc
      hmnd hchecksus
      (fun b hb ancs => hcheck b ((sortB_perm roundLE bs).mem_iff.mp hb) ancs)
  refine ⟨s2, out, s2.missing_blocks.filter (fun r => !decide (r ∈ s.missing_blocks)),
    ?_, csync, cinodup, cknodup, cmcomp, canc, cmnd, cchecksus, ?_, cpersist⟩
  · unfold try_accept_blocks
    dsimp only
    rw [hloop]
  · intro b hb
    exact ctrack b ((sortB_perm roundLE bs).mem_iff.mpr hb)

theorem run_calls_total {check : Block → List Block → Bool} :
    ∀ {calls : List (List Block)} {s : BlockManager},
    GoodState s →
    (∀ a k, k ∈ childrenOf s a ↔
      ∃ sb, suspendedAt s k = some sb ∧ a ∈ sb.missing_ancestors) →
    (∀ a, (childrenOf s a).Nodup) →
    (s.suspended_blocks.map Prod.fst).Nodup →
    (∀ r ∈ s.missing_blocks, ∃ k sb, suspendedAt s k = some sb ∧
      r ∈ sb.missing_ancestors) →
    (∀ k sb, suspendedAt s k = some sb → ∀ a ∈ sb.block.ancestors,
      a ∈ sb.missing_ancestors ∨ contains_block s.dag_state a = true) →
    (∀ k sb, suspendedAt s k = some sb → ∀ a ∈ sb.missing_ancestors,
      contains_block s.dag_state a = false) →
    (∀ k sb, suspendedAt s k = some sb → ∀ ancs, check sb.block ancs = true) →
    (∀ c ∈ calls, ∀ b ∈ c, ∀ ancs, check b ancs = true) →
    ∃ s2 outs, run_calls check s calls = .ok (s2, outs) ∧
      (∀ a k, k ∈ childrenOf s2 a ↔
        ∃ sb, suspendedAt s2 k = some sb ∧ a ∈ sb.missing_ancestors) ∧
      (∀ a, (childrenOf s2 a).Nodup) ∧
      (s2.suspended_blocks.map Prod.fst).Nodup ∧
      (∀ r ∈ s2.missing_blocks, ∃ k sb, suspendedAt s2 k = some sb ∧
        r ∈ sb.missing_ancestors) ∧
      (∀ k sb, suspendedAt s2 k = some sb → ∀ a ∈ sb.block.ancestors,
        a ∈ sb.missing_ancestors ∨ contains_block s2.dag_state a = true) ∧
      (∀ k sb, suspendedAt s2 k = some sb → ∀ a ∈ sb.missing_ancestors,
        contains_block s2.dag_state a = false) ∧
      (∀ k sb, suspendedAt s2 k = some sb → ∀ ancs, check sb.block ancs = true) ∧
      (∀ c ∈ calls, ∀ b ∈ c, Tracked s2 b.reference) ∧
      (∀ r, Tracked s r → Tracked s2 r) := by
  intro calls
  induction calls with
  | nil =>
    intro s hG hsync hinodup hknodup hmcomp hanc hmnd hchecksus hcheck
    exact ⟨s, [], rfl, hsync, hinodup, hknodup, hmcomp, hanc, hmnd, hchecksus,
      fun c hc => absurd hc (List.not_mem_nil c), fun r hr => hr⟩
  | cons c rest ih =>
    intro s hG hsync hinodup hknodup hmcomp hanc hmnd hchecksus hcheck
    obtain ⟨s1, out1, miss1, heq, isync, iinodup, iknodup, imcomp, ianc, imnd,
      ichecksus, itrack, ipersist⟩ :=
      try_accept_blocks_total hG hsync hinodup hknodup hmcomp hanc hmnd hchecksus
        (fun b hb ancs => hcheck c (List.mem_cons_self c rest) b hb ancs)
    obtain ⟨hG1, _, _, _, imono, _⟩ := try_accept_blocks_facts hG heq
    obtain ⟨s2, outs2, hrest, rsync, rinodup, rknodup, rmcomp, ranc, rmnd, rchecksus,
      rtrack, rpersist⟩ :=
      ih hG1 isync iinodup iknodup imcomp ianc imnd ichecksus
        (fun c2 hc2 b hb ancs => hcheck c2 (List.mem_cons_of_mem c hc2) b hb ancs)
    refine ⟨s2, out1 ++ outs2, ?_, rsync, rinodup, rknodup, rmcomp, ranc, rmnd,
      rchecksus, ?_, ?_⟩
    · rw [run_calls]
      rw [heq]
      dsimp only
      rw [hrest]
    · intro c2 hc2 b hb
      rcases List.mem_cons.mp hc2 with rfl | hc2
      · exact rpersist _ (itrack b hb)
      · exact rtrack c2 hc2 b hb
    · intro r hr
      exact rpersist r (ipersist r hr)

theorem run_calls_origin {check : Block → List Block → Bool} :
    ∀ {calls : List (List Block)} {s s2 : BlockManager} {outs : List Block},
    GoodState s →
    run_calls check s calls = .ok (s2, outs) →
    (∀ x ∈ outs, x ∈ calls.flatten ∨
      ∃ sbOld k, suspendedAt s k = some sbOld ∧ sbOld.block = x) ∧
    (∀ k sb, suspendedAt s2 k = some sb →
      (∃ sbOld k2, suspendedAt s k2 = some sbOld ∧ sbOld.block = sb.block) ∨
      sb.block ∈ calls.flatten) := by
  intro calls
  induction calls with
  | nil =>
    intro s s2 outs hG h
    cases h
    exact ⟨fun x hx => absurd hx (List.not_mem_nil x),
      fun k sb hk => Or.inl ⟨sb, k, hk, rfl⟩⟩
  | cons c rest ih =>
    intro s s2 outs hG h
    unfold run_calls at h
    cases hc : try_accept_blocks check s c with
    | panicked => rw [hc] at h; cases h
    | fuelOut => rw [hc] at h; cases h
    | ok v1 =>
      obtain ⟨s1, chunk, miss⟩ := v1
      rw [hc] at h
      dsimp only at h
      cases hrest : run_calls check s1 rest with
      | panicked => rw [hrest] at h; cases h
      | fuelOut => rw [hrest] at h; cases h
      | ok v2 =>
        obtain ⟨sF, outR⟩ := v2
        rw [hrest] at h
        cases h
        obtain ⟨hG1, _, _, _, _, _, iOrig, iSusp, _, _⟩ := try_accept_blocks_facts hG hc
        obtain ⟨rOrig, rSusp⟩ := ih hG1 hrest
        constructor
        · intro x hx
          rcases List.mem_append.mp hx with hx | hx
          · rcases iOrig x hx with hxc | ⟨sbOld, k, hOld, hOb⟩
            · exact Or.inl (List.mem_flatten.mpr ⟨c, List.mem_cons_self c rest, hxc⟩)
            · exact Or.inr ⟨sbOld, k, hOld, hOb⟩
          · rcases rOrig x hx with hxf | ⟨sbOld, k, hOld, hOb⟩
            · refine Or.inl ?_
              obtain ⟨c2, hc2, hxc2⟩ := List.mem_flatten.mp hxf
              exact List.mem_flatten.mpr ⟨c2, List.mem_cons_of_mem c hc2, hxc2⟩
            · rcases iSusp k sbOld hOld with ⟨sbOld2, k2, hOld2, hOb2⟩ | hbc
              · exact Or.inr ⟨sbOld2, k2, hOld2, hOb2.trans hOb⟩
              · refine Or.inl ?_
                rw [← hOb]
                exact List.mem_flatten.mpr ⟨c, List.mem_cons_self c rest, hbc⟩
        · intro k sb hk
          rcases rSusp k sb hk with ⟨sbM, kM, hM, hMb⟩ | hflat
          · rcases iSusp kM sbM hM with ⟨sbOld, k2, hOld, hOb⟩ | hbc
            · exact Or.inl ⟨sbOld, k2, hOld, hOb.trans hMb⟩
            · refine Or.inr ?_
              rw [← hMb]
              exact List.mem_flatten.mpr ⟨c, List.mem_cons_self c rest, hbc⟩
          · refine Or.inr ?_
            obtain ⟨c2, hc2, hbc2⟩ := List.mem_flatten.mp hflat
            exact List.mem_flatten.mpr ⟨c2, List.mem_cons_of_mem c hc2, hbc2⟩

theorem suspended_empty_extremal {d : DagState} {S : List Block} {s2 : BlockManager}
    (hG : GoodState s2)
    (hMA : MAval s2)
    (hES : EntrySub s2)
    (hmnd : ∀ k sb, suspendedAt s2 k = some sb → ∀ a ∈ sb.missing_ancestors,
      contains_block s2.dag_state a = false)
    (horig : ∀ k sb, suspendedAt s2 k = some sb → sb.block ∈ S)
    (hclosed : ∀ b ∈ S, ∀ a ∈ b.ancestors,
      contains_block d a = true ∨ ∃ c ∈ S, c.reference = a)
    (hmono : ∀ r, contains_block d r = true → contains_block s2.dag_state r = true)
    (htrack : ∀ b ∈ S, contains_block s2.dag_state b.reference = true ∨
      memEntry s2.suspended_blocks b.reference = true) :
    s2.suspended_blocks = [] := by
  have key : ∀ n k sb, suspendedAt s2 k = some sb → sb.block.round ≤ n → False := by
    intro n
    induction n with
    | zero =>
      intro k sb hk hle
      obtain ⟨hne, _, _⟩ := hG.2 k sb hk
      obtain ⟨a, ha⟩ := List.exists_mem_of_ne_nil _ hne
      have hlt := hMA k sb hk a ha
      omega
    | succ n ih =>
      intro k sb hk hle
      obtain ⟨hne, _, _⟩ := hG.2 k sb hk
      obtain ⟨a, ha⟩ := List.exists_mem_of_ne_nil _ hne
      have hlt : a.round < sb.block.round := hMA k sb hk a ha
      have hanc : a ∈ sb.block.ancestors := hES k sb hk a ha
      have hnc : contains_block s2.dag_state a = false := hmnd k sb hk a ha
      rcases hclosed sb.block (horig k sb hk) a hanc with hda | ⟨c, hc, hcref⟩
      · rw [hmono a hda] at hnc
        cases hnc
      · rcases htrack c hc with htc | htc
        · rw [hcref] at htc
          rw [htc] at hnc
          cases hnc
        · obtain ⟨sb3, hsb3⟩ := memEntry_iff.mp htc
          have hsb3A : suspendedAt s2 c.reference = some sb3 := hsb3
          have href : sb3.block.reference = c.reference := (hG.2 _ _ hsb3A).2.2
          have hrnd : sb3.block.round = a.round := by
            have hq : sb3.block.round = sb3.block.reference.round := rfl
            rw [hq, href, hcref]
          exact ih c.reference sb3 hsb3A (by omega)
  cases hsl : s2.suspended_blocks with
  | nil => rfl
  | cons p t =>
    exfalso
    have hp : suspendedAt s2 p.1 = some p.2 := by
      unfold suspendedAt
      rw [hsl]
      exact findEntry_cons_self p t
    exact key p.2.block.round p.1 p.2 hp (Nat.le_refl _)

/-- **C1**: for any duplicate-free set `S` of round-valid blocks, none of them
    already in the dag, all passing the verifier, whose causal history is
    contained in `S` itself plus the initial `DagState`, feeding `S` to
    `try_accept_blocks` in any order and under any partition into calls
    succeeds and yields the same result: the concatenation of the returned
    accepted lists is a permutation of `S` — every block of `S` accepted
    exactly once, independent of the shuffle — and afterwards both
    `missing_blocks` and `suspended_blocks` are empty. -/
theorem C1_order_and_partition_independent_acceptance
    (check : Block → List Block → Bool) (d : DagState) (S : List Block)
    (calls : List (List Block))
    (hnd : (S.map Block.reference).Nodup)
    (hfresh : ∀ b ∈ S, contains_block d b.reference = false)
    (hvalid : ∀ b ∈ S, validB b)
    (hclosed : ∀ b ∈ S, ∀ a ∈ b.ancestors,
      contains_block d a = true ∨ ∃ c ∈ S, c.reference = a)
    (hcheck : ∀ b ancs, check b ancs = true)
    (hperm : calls.flatten.Perm S) :
    ∃ s2 outs, run_calls check (BlockManager.new d) calls = .ok (s2, outs) ∧
      outs.Perm S ∧ (outs.map Block.reference).Nodup ∧
      s2.suspended_blocks = [] ∧ s2.missing_blocks = [] := by
  have hsync0 : ∀ a k, k ∈ childrenOf (BlockManager.new d) a ↔
      ∃ sb, suspendedAt (BlockManager.new d) k = some sb ∧
        a ∈ sb.missing_ancestors := by
    intro a k
    rw [childrenOf_new]
    constructor
    · intro h
      exact absurd h (List.not_mem_nil k)
    · rintro ⟨sb, hsb, _⟩
      rw [suspendedAt_new] at hsb
      cases hsb
  obtain ⟨s2, outs, hrun, fsync, finodup, fknodup, fmcomp, fanc, fmnd, fchecksus,
    ftrack, _⟩ :=
    run_calls_total (GoodState_new d) hsync0
      (fun a => by rw [childrenOf_new]; exact List.nodup_nil)
      List.nodup_nil
      (fun r hr => absurd hr (List.not_mem_nil r))
      (fun k sb hk => by rw [suspendedAt_new] at hk; cases hk)
      (fun k sb hk => by rw [suspendedAt_new] at hk; cases hk)
      (fun k sb hk => by rw [suspendedAt_new] at hk; cases hk)
      (fun c hc b hb ancs => hcheck b ancs)
  obtain ⟨fG, fnd, ffresh, fwr, fmono, fchk, fdagmem⟩ :=
    run_calls_facts (GoodState_new d) hrun
  have hMA : MAval s2 := run_calls_round_persist
    (fun k sb hk => by
      have h0 : (none : Option SuspendedBlock) = some sb := hk
      cases h0)
    (fun c hc b hb => hvalid b (hperm.subset (List.mem_flatten.mpr ⟨c, hc, hb⟩)))
    hrun
  have hES : EntrySub s2 := run_calls_entry_sub hrun
    (fun k sb hk => by
      have h0 : (none : Option SuspendedBlock) = some sb := hk
      cases h0)
  obtain ⟨foutorig, fsusporig⟩ := run_calls_origin (GoodState_new d) hrun
  have horig : ∀ k sb, suspendedAt s2 k = some sb → sb.block ∈ S := by
    intro k sb hk
    rcases fsusporig k sb hk with ⟨sbOld, k2, hOld, _⟩ | hmem
    · rw [suspendedAt_new] at hOld
      cases hOld
    · exact hperm.subset hmem
  have htrackS : ∀ b ∈ S, contains_block s2.dag_state b.reference = true ∨
      memEntry s2.suspended_blocks b.reference = true := by
    intro b hb
    obtain ⟨c, hc, hbc⟩ := List.mem_flatten.mp (hperm.symm.subset hb)
    exact ftrack c hc b hbc
  have hsusE : s2.suspended_blocks = [] :=
    suspended_empty_extremal fG hMA hES fmnd horig hclosed
      (fun r hr => fmono r hr) htrackS
  have hmissE : s2.missing_blocks = [] := by
    rw [List.eq_nil_iff_forall_not_mem]
    intro r hr
    obtain ⟨k, sb, hk, _⟩ := fmcomp r hr
    unfold suspendedAt at hk
    rw [hsusE] at hk
    have h0 : (none : Option SuspendedBlock) = some sb := hk
    cases h0
  have houtsub : ∀ x ∈ outs, x ∈ S := by
    intro x hx
    rcases foutorig x hx with hmem | ⟨sbOld, k, hOld, _⟩
    · exact hperm.subset hmem
    · rw [suspendedAt_new] at hOld
      cases hOld
  have hsubout : ∀ b ∈ S, b ∈ outs := by
    intro b hb
    rcases htrackS b hb with hcont | hmem
    · unfold contains_block at hcont
      obtain ⟨b2, hb2mem, hb2eq⟩ := List.any_eq_true.mp hcont
      have hb2r : b2.reference = b.reference := of_decide_eq_true hb2eq
      rcases fdagmem b2 hb2mem with hin | hin
      · exfalso
        have hcd : contains_block d b.reference = true := by
          unfold contains_block
          exact List.any_eq_true.mpr ⟨b2, hin, decide_eq_true hb2r⟩
        rw [hfresh b hb] at hcd
        cases hcd
      · have hb2S : b2 ∈ S := houtsub b2 hin
        have hbb : b2 = b := List.inj_on_of_nodup_map hnd hb2S hb hb2r
        rw [← hbb]
        exact hin
    · exfalso
      unfold memEntry at hmem
      rw [hsusE] at hmem
      have h0 : (false : Bool) = true := hmem
      cases h0
  refine ⟨s2, outs, hrun, ?_, fnd, hsusE, hmissE⟩
  exact (List.subperm_of_subset fnd.of_map (fun x hx => houtsub x hx)).antisymm
    (List.subperm_of_subset hnd.of_map (fun b hb => hsubout b hb))

theorem C1_order_and_partition_independent_acceptance_witness :
    ((([cb1, cb2] : List Block).map Block.reference).Nodup ∧
      (∀ b ∈ ([cb1, cb2] : List Block), contains_block [cg0] b.reference = false) ∧
      (∀ b ∈ ([cb1, cb2] : List Block), validB b) ∧
      (∀ b ∈ ([cb1, cb2] : List Block), ∀ a ∈ b.ancestors,
        contains_block [cg0] a = true ∨ ∃ c ∈ ([cb1, cb2] : List Block),
          c.reference = a) ∧
      ([[cb2], [cb1]] : List (List Block)).flatten.Perm [cb1, cb2]) ∧
    ∃ s2 outs, run_calls (fun _ _ => true) (BlockManager.new [cg0]) [[cb2], [cb1]] =
        .ok (s2, outs) ∧
      outs.Perm [cb1, cb2] ∧ (outs.map Block.reference).Nodup ∧
      s2.suspended_blocks = [] ∧ s2.missing_blocks = [] :=
  ⟨⟨by decide, by decide, by decide, by decide, by decide⟩,
    C1_order_and_partition_independent_acceptance (fun _ _ => true) [cg0] [cb1, cb2]
      [[cb2], [cb1]] (by decide) (by decide) (by decide) (by decide)
      (fun _ _ => rfl) (by decide)⟩
